import Mathlib

/-!
# Verification of the workbench runner

A shallow embedding, in Lean 4, of the parts of the `workbench` repository
that the specification's testable properties talk about:

* `runner/auth/openai_oauth_pool.py` — the OAuth credential pool
  (profiles, usability, deterministic selection, rotation, rate-limit
  marking, load/save).
* `runner/run_smoke.py` — the evidence writer with its byte budget, the
  redactor, and the tool-dispatch loop with its five-strike rule.
* `runner/mcp_stdio.py` — LSP-style framing of JSON-RPC messages.

Python machine integers are modelled as `Int`/`Nat` (Python ints are
unbounded, so no wrap-around modelling is needed); Python floats that are
only ever compared are modelled as `Rat` (comparison of floats agrees with
comparison of the rationals they denote; NaN payloads never arise here);
fallible code returns `Except`/`Option`; the ambient clock (`now_ms()`,
`now_iso()`) is passed explicitly.
-/

namespace Workbench

instance {ε α : Type} [DecidableEq ε] [DecidableEq α] :
    DecidableEq (Except ε α) := fun x y =>
  match x, y with
  | .ok a, .ok b =>
    if h : a = b then .isTrue (by rw [h])
    else .isFalse (fun hc => h (Except.ok.inj hc))
  | .error e, .error f =>
    if h : e = f then .isTrue (by rw [h])
    else .isFalse (fun hc => h (Except.error.inj hc))
  | .ok _, .error _ => .isFalse (fun hc => Except.noConfusion hc)
  | .error _, .ok _ => .isFalse (fun hc => Except.noConfusion hc)

/-! ## Python string primitives

Python compares strings lexicographically by Unicode code point, strips
ASCII whitespace with `str.strip()`, and lowercases with `str.lower()`.
The strings these are applied to in the embedded code are ASCII
(strategy names, header keys), so the ASCII fragment of `lower` is
faithful here. -/

/-- Python `a < b` on strings: lexicographic by code point, a proper
prefix is smaller. -/
def strLt : List Char → List Char → Bool
  | [], [] => false
  | [], _ :: _ => true
  | _ :: _, [] => false
  | a :: as, b :: bs =>
    if a.toNat < b.toNat then true
    else if b.toNat < a.toNat then false
    else strLt as bs

/-- The whitespace characters `str.strip()` removes (ASCII fragment). -/
def pySpace (c : Char) : Bool :=
  c = ' ' || c = '\t' || c = '\n' || c = '\r' || c = '\x0b' || c = '\x0c'

/-- Python `str.strip()`. -/
def pyStrip (s : String) : String :=
  ⟨((s.data.dropWhile pySpace).reverse.dropWhile pySpace).reverse⟩

/-- Python `str.lower()` (ASCII fragment). -/
def pyLowerChar (c : Char) : Char :=
  if 'A' ≤ c ∧ c ≤ 'Z' then Char.ofNat (c.toNat + 32) else c

/-- Python `str.lower()` on a whole string (ASCII fragment). -/
def pyLower (s : String) : String := ⟨s.data.map pyLowerChar⟩

/-- Python truthiness of an optional string: `None` and `""` are falsy.
Returns the string exactly when `if x:` would take the branch. -/
def pyTruthy : Option String → Option String
  | some s => if s = "" then none else some s
  | none => none

/-- Python `min(xs, key=…)` for nonempty `xs`: the first element whose
key is minimal (later elements replace the accumulator only when
strictly smaller). -/
def pyMinBy (lt : α → α → Bool) : List α → Option α
  | [] => none
  | x :: xs => some (xs.foldl (fun acc y => if lt y acc then y else acc) x)

/-- Python's `sorted` is a stable sort; any stable sort with the same
strict comparison produces the same list, so a stable insertion sort is
a faithful model. `insertOrd` keeps existing elements that are strictly
smaller in front and places the new element before ties (the new element
comes from earlier in the input, preserving stability). -/
def insertOrd (lt : α → α → Bool) (x : α) : List α → List α
  | [] => [x]
  | y :: ys => if lt y x then y :: insertOrd lt x ys else x :: y :: ys

/-- Python `sorted(l, key=…)` with strict comparison `lt` on whole
elements (the key is folded into `lt`). -/
def pySorted (lt : α → α → Bool) (l : List α) : List α :=
  l.foldr (insertOrd lt) []

/-! ## JSON values

The Python code passes parsed JSON around as `dict`/`list`/`str`/`int`/
`float`/`bool`/`None`. Numbers that occur in the embedded code paths are
integers; floats are outside this embedding. Python `dict` preserves
insertion order, so an object is a list of key/value pairs. -/

/-- A JSON value as produced by `json.loads` / consumed by `json.dumps`
(`ensure_ascii=False`), with integer numbers. -/
inductive JValue where
  | null : JValue
  | bool (b : Bool) : JValue
  | num (n : Int) : JValue
  | str (s : String) : JValue
  | arr (xs : List JValue) : JValue
  | obj (m : List (String × JValue)) : JValue
deriving Repr, Inhabited

/-- `d.get(k)` on a Python dict built by `json.loads`: the value of the
key, or `None`. (`json.loads` keeps the last of duplicate keys; objects
handled here are built with distinct keys.) -/
def JValue.get : JValue → String → Option JValue
  | .obj m, k => (m.reverse.find? (fun kv => kv.1 = k)).map (·.2)
  | _, _ => none

/-! ## OAuth profile (`runner/auth/openai_oauth_pool.py`) -/

/-- `OAuthProfile` dataclass. `remaining` is a Python float used only in
comparisons, modelled as `Rat`. -/
structure OAuthProfile where
  profile : String
  accessToken : String
  refreshToken : String
  expiresAtMs : Int
  email : Option String := none
  accountId : Option String := none
  issuer : Option String := none
  clientId : Option String := none
  remaining : Option Rat := none
  resetAtMs : Option Int := none
  provider : Option String := none
  lastSeenAt : Option String := none
  rateLimitedUntilMs : Option Int := none
  disabled : Bool := false
  updatedAt : Option String := none
deriving Repr, DecidableEq, Inhabited

/-- `OAuthProfile.is_usable(at_ms)` with the clock passed explicitly.
`self.rate_limited_until_ms or 0` maps `None` (and `0`) to `0`. -/
def OAuthProfile.is_usable (p : OAuthProfile) (at_ms : Int) : Bool :=
  if p.disabled then false
  else decide ((p.rateLimitedUntilMs.getD 0) ≤ at_ms)

/-- `OAuthProfile.is_expired(at_ms)`. -/
def OAuthProfile.is_expired (p : OAuthProfile) (at_ms : Int) : Bool :=
  decide (p.expiresAtMs ≤ at_ms + 30000)

/-- `OAuthProfile.effective_email()`: `self.email or self.profile`
(`None` and `""` are falsy). -/
def OAuthProfile.effective_email (p : OAuthProfile) : String :=
  match p.email with
  | some e => if e = "" then p.profile else e
  | none => p.profile

/-- `OAuthProfile.effective_remaining()`: `1e18` when unknown
(`1e18 = 10^18` is exactly representable as a double; the
`float(self.remaining)` conversion is the identity on a float). -/
def OAuthProfile.effective_remaining (p : OAuthProfile) : Rat :=
  p.remaining.getD ((10 : Rat) ^ (18 : Nat))

/-- `OAuthProfile.effective_reset_at_ms()`. -/
def OAuthProfile.effective_reset_at_ms (p : OAuthProfile) : Int :=
  match p.resetAtMs with
  | some v => if v > 0 then v else
      match p.rateLimitedUntilMs with
      | some w => if w > 0 then w else (10 : Int) ^ (18 : Nat)
      | none => (10 : Int) ^ (18 : Nat)
  | none =>
      match p.rateLimitedUntilMs with
      | some w => if w > 0 then w else (10 : Int) ^ (18 : Nat)
      | none => (10 : Int) ^ (18 : Nat)

/-- The sort key `(effective_remaining, effective_reset_at_ms,
effective_email)` used by `choose_profile` and `rotate_after`. -/
def OAuthProfile.sort_key (p : OAuthProfile) : Rat × Int × List Char :=
  (p.effective_remaining, p.effective_reset_at_ms, p.effective_email.data)

/-- Python `<` on the 3-tuples of sort keys (lexicographic). -/
def keyLt (a b : Rat × Int × List Char) : Bool :=
  if a.1 < b.1 then true
  else if b.1 < a.1 then false
  else if a.2.1 < b.2.1 then true
  else if b.2.1 < a.2.1 then false
  else strLt a.2.2 b.2.2

/-- The strict comparison `sorted(usable, key=…)` orders profiles by. -/
def profLt (p q : OAuthProfile) : Bool := keyLt p.sort_key q.sort_key

/-! ## OAuth pool -/

/-- `OAuthPool` dataclass. The `profiles` dict preserves insertion order
and, by construction in `from_json`/`upsert_profile`, keys each profile
by its own `profile` field (spec invariant P1), so it is modelled as a
list of profiles looked up by that field. -/
structure OAuthPool where
  version : Int
  provider : String
  updated_at : String
  selection_strategy : String
  pinned_profile : Option String
  last_used_profile : Option String
  profiles : List OAuthProfile
  issuer : Option String := none
  client_id : Option String := none
  model : Option String := none
  codex_endpoint : Option String := none
deriving Repr, DecidableEq, Inhabited

/-- `OAuthPool.empty()` (the `updatedAt` timestamp is passed in). -/
def OAuthPool.empty (now_iso : String) : OAuthPool where
  version := 1
  provider := "openai.codex.oauth.pool"
  updated_at := now_iso
  selection_strategy := "sticky"
  pinned_profile := none
  last_used_profile := none
  profiles := []

/-- Dict lookup `self.profiles[name]` / `name in self.profiles`,
via invariant P1 (map key = `profile` field). -/
def OAuthPool.find_profile (pool : OAuthPool) (name : String) : Option OAuthProfile :=
  pool.profiles.find? (fun p => p.profile == name)

/-- The structured errors `choose_profile` / `rotate_after` /
`load_pool` raise (`RuntimeError`s in the source, discriminated here by
which `raise` fired). -/
inductive PoolError where
  | profileNotFound (name : String)
  | pinnedNotFound (name : String)
  | allDisabled
  | allRateLimited (nextResetAtMs : Int) (email : String)
  | noneUsable
  | noRotateTarget
  | invalidPoolFile
  | badPoolField
  | unsupportedVersion
deriving Repr, DecidableEq

/-- `(self.selection_strategy or "sticky").strip().lower()`. -/
def OAuthPool.strategy_normalized (pool : OAuthPool) : String :=
  pyLower (pyStrip
    (if pool.selection_strategy = "" then "sticky" else pool.selection_strategy))

/-- The profiles usable at `at_ms`, in dict (insertion) order. -/
def OAuthPool.usable_at (pool : OAuthPool) (at_ms : Int) : List OAuthProfile :=
  pool.profiles.filter (fun p => p.is_usable at_ms)

/-- The sticky shortcut of `choose_profile` (step before computing
`usable`): under strategy `sticky`, a usable `lastUsedProfile` short
circuits selection. `some r` when the shortcut returns `r`. -/
def OAuthPool.sticky_shortcut (pool : OAuthPool) (at_ms : Int) : Option String :=
  if pool.strategy_normalized = "sticky" then
    match pyTruthy pool.last_used_profile with
    | some lup =>
      match pool.find_profile lup with
      | some p => if p.is_usable at_ms then some p.profile else none
      | none => none
    | none => none
  else none

/-- The round-robin branch of `choose_profile`: under strategy
`round-robin` with a truthy `lastUsedProfile` among the sorted usable
names, the successor (with wrap-around) is returned. -/
def OAuthPool.round_robin_pick (pool : OAuthPool) (at_ms : Int) : Option String :=
  if pool.strategy_normalized = "round-robin" then
    match pyTruthy pool.last_used_profile with
    | some lup =>
      let names := (pySorted profLt (pool.usable_at at_ms)).map (·.profile)
      if names.contains lup then
        match names.findIdx? (fun n => n == lup) with
        | some i => some (names.getD ((i + 1) % names.length) "")
        | none => none
      else none
    | none => none
  else none

/-- The structured error raised when no profile is usable: all-disabled,
all-rate-limited (with the soonest reset and its email, computed by
`min` over all profiles), or the general case. -/
def OAuthPool.no_usable_error (pool : OAuthPool) (at_ms : Int) : PoolError :=
  let disabledL := (pool.profiles.filter (fun p => p.disabled)).map (·.profile)
  let limitedL := (pool.profiles.filter
    (fun p => decide ((p.rateLimitedUntilMs.getD 0) > at_ms))).map (·.profile)
  if !disabledL.isEmpty && disabledL.length == pool.profiles.length then
    .allDisabled
  else if !limitedL.isEmpty && limitedL.length == pool.profiles.length then
    match pyMinBy (fun p q =>
        keyLt (p.effective_reset_at_ms, 0, p.effective_email.data)
              (q.effective_reset_at_ms, 0, q.effective_email.data))
        pool.profiles with
    | some w => .allRateLimited w.effective_reset_at_ms w.effective_email
    | none => .noneUsable
  else .noneUsable

/-- `OAuthPool.choose_profile(explicit, at_ms)`, clock explicit. -/
def OAuthPool.choose_profile (pool : OAuthPool) (explicit : Option String)
    (at_ms : Int) : Except PoolError String :=
  match pyTruthy explicit with
  | some e =>
    if (pool.find_profile e).isSome then .ok e else .error (.profileNotFound e)
  | none =>
  match pyTruthy pool.pinned_profile with
  | some pp =>
    if (pool.find_profile pp).isSome then .ok pp else .error (.pinnedNotFound pp)
  | none =>
    match pool.sticky_shortcut at_ms with
    | some r => .ok r
    | none =>
      let usable := pool.usable_at at_ms
      if usable.isEmpty then
        .error (pool.no_usable_error at_ms)
      else
        match pool.round_robin_pick at_ms with
        | some r => .ok r
        | none =>
          match pySorted profLt usable with
          | p :: _ => .ok p.profile
          | [] => .error .noneUsable

/-- `OAuthPool.rotate_after(current, explicit)`; `is_usable()` with no
argument reads the ambient clock, passed here as `at_ms`. -/
def OAuthPool.rotate_after (pool : OAuthPool) (current : String)
    (explicit : Option String) (at_ms : Int) : Except PoolError String :=
  match pyTruthy explicit with
  | some e => .ok e
  | none =>
    let usable := pool.profiles.filter (fun p => p.is_usable at_ms)
    if usable.isEmpty then .error .noRotateTarget
    else
      let ranked := pySorted profLt usable
      let ranked_profiles := ranked.map (·.profile)
      if !(ranked_profiles.contains current) then
        match ranked_profiles with
        | r :: _ => .ok r
        | [] => .error .noRotateTarget
      else
        match ranked_profiles.find? (fun n => n != current) with
        | some r => .ok r
        | none => .ok current

/-- `OAuthPool.mark_used(profile)`, timestamp explicit. -/
def OAuthPool.mark_used (pool : OAuthPool) (profile : String)
    (now_iso : String) : OAuthPool :=
  { pool with last_used_profile := some profile, updated_at := now_iso }

/-- `OAuthPool.mark_rate_limited(profile, until_ms)`: clamps the new
rate-limit stamp to `max(until_ms, now_ms())`; no-op when the profile is
unknown. The clock (`now_ms`, `now_iso`) is passed explicitly. -/
def OAuthPool.mark_rate_limited (pool : OAuthPool) (profile : String)
    (until_ms now_ms : Int) (now_iso : String) : OAuthPool :=
  match pool.find_profile profile with
  | none => pool
  | some _ =>
    { pool with
      profiles := pool.profiles.map (fun p =>
        if p.profile == profile then
          { p with rateLimitedUntilMs := some (max until_ms now_ms),
                   updatedAt := some now_iso }
        else p),
      updated_at := now_iso }

/-! ## Pool deserialization and persistence
(`from_json`, `load_pool`, `upsert_profile`) -/

/-- Python truthiness of a JSON value (`or` fallbacks in `from_json`). -/
def pyFalsy : JValue → Bool
  | .null => true
  | .bool b => !b
  | .num n => n == 0
  | .str s => s == ""
  | .arr xs => xs.isEmpty
  | .obj m => m.isEmpty

/-- `x or d` on an optional JSON value: missing/falsy falls back. -/
def pyOrJ (x : Option JValue) (d : JValue) : JValue :=
  match x with
  | some v => if pyFalsy v then d else v
  | none => d

/-- Python `int(<decimal literal>)`: optional sign and digits
(whitespace already stripped; exotic literal forms such as underscores
are outside this embedding). -/
def pyParseInt (s : List Char) : Option Int :=
  let digits (l : List Char) : Option Int :=
    if l.isEmpty || !(l.all (fun c => c.isDigit)) then none
    else some (l.foldl (fun acc c => acc * 10 + (c.toNat - '0'.toNat : Int)) 0)
  match s with
  | '-' :: rest => (digits rest).map (fun n => -n)
  | '+' :: rest => digits rest
  | _ => digits s

/-- Python `int(x)` on a JSON value; `TypeError`/`ValueError` become a
structured error. (`isinstance(True, int)` holds in Python.) -/
def pyIntOf : JValue → Except PoolError Int
  | .num n => .ok n
  | .bool b => .ok (if b then 1 else 0)
  | .str s => match pyParseInt (pyStrip s).data with
    | some n => .ok n
    | none => .error .badPoolField
  | _ => .error .badPoolField

/-- Python `str(x)` on a JSON value (container `repr` shapes never arise
on the embedded paths and are represented by a placeholder). -/
def pyStrOf : JValue → String
  | .str s => s
  | .num n => toString n
  | .bool b => if b then "True" else "False"
  | .null => "None"
  | .arr _ => "<list>"
  | .obj _ => "<dict>"

/-- `obj.get(k) if isinstance(obj.get(k), str) else None`. -/
def jStrField (obj : JValue) (k : String) : Option String :=
  match obj.get k with
  | some (.str s) => some s
  | _ => none

/-- `obj.get(k) if isinstance(obj.get(k), str) and obj.get(k) else None`
(the string must also be nonempty). -/
def jStrFieldNE (obj : JValue) (k : String) : Option String :=
  match obj.get k with
  | some (.str s) => if s = "" then none else some s
  | _ => none

/-- `int(obj.get(k)) if isinstance(obj.get(k), int) else None`
(`bool` is an `int` in Python). -/
def jIntField (obj : JValue) (k : String) : Option Int :=
  match obj.get k with
  | some (.num n) => some n
  | some (.bool b) => some (if b then 1 else 0)
  | _ => none

/-- `float(obj.get(k)) if isinstance(obj.get(k), (int, float)) else None`
(JSON floats are outside this embedding; integers convert exactly). -/
def jRatField (obj : JValue) (k : String) : Option Rat :=
  match obj.get k with
  | some (.num n) => some (n : Rat)
  | some (.bool b) => some (if b then 1 else 0)
  | _ => none

/-- `OAuthProfile.from_json(obj)`; the `int(… or 0)` coercions can raise
on malformed input, hence `Except`. -/
def OAuthProfile.from_json (obj : JValue) : Except PoolError OAuthProfile := do
  let expiresAtMs ← pyIntOf (pyOrJ (obj.get "expiresAtMs") (.num 0))
  return {
    profile := pyStrOf (pyOrJ (obj.get "profile") (.str ""))
    email := jStrFieldNE obj "email"
    accountId := jStrField obj "accountId"
    issuer := jStrField obj "issuer"
    clientId := jStrField obj "clientId"
    accessToken := pyStrOf (pyOrJ (obj.get "accessToken") (.str ""))
    refreshToken := pyStrOf (pyOrJ (obj.get "refreshToken") (.str ""))
    expiresAtMs := expiresAtMs
    remaining := jRatField obj "remaining"
    resetAtMs := jIntField obj "resetAtMs"
    provider := jStrFieldNE obj "provider"
    lastSeenAt := jStrFieldNE obj "lastSeenAt"
    rateLimitedUntilMs := jIntField obj "rateLimitedUntilMs"
    disabled := !(pyFalsy (pyOrJ (obj.get "disabled") (.bool false)))
    updatedAt := jStrField obj "updatedAt" }

/-- `self.profiles[p.profile] = p` on an insertion-ordered dict:
replace the first entry with the same name in place, else append. -/
def listUpsert (l : List OAuthProfile) (p : OAuthProfile) : List OAuthProfile :=
  if l.any (fun q => q.profile == p.profile) then
    l.map (fun q => if q.profile == p.profile then p else q)
  else l ++ [p]

/-- The `for k, v in profs.items()` loop of `OAuthPool.from_json`:
non-dict entries are skipped, `{"profile": k, **v}` merges the dict key
under the entry (an explicit `profile` in `v` wins), and profiles with a
falsy `profile` are dropped. -/
def poolProfilesOfJson (profs : List (String × JValue)) :
    Except PoolError (List OAuthProfile) :=
  profs.foldlM (fun acc kv =>
    match kv.2 with
    | .obj m => do
      let p ← OAuthProfile.from_json (.obj (("profile", .str kv.1) :: m))
      if p.profile = "" then return acc else return listUpsert acc p
    | _ => return acc) []

/-- `OAuthPool.from_json(obj)`; `now_iso` feeds the `updatedAt`
fallback. -/
def OAuthPool.from_json (now_iso : String) (obj : JValue) :
    Except PoolError OAuthPool := do
  let selection : JValue :=
    match obj.get "selection" with
    | some (.obj m) => .obj m
    | _ => .obj []
  let profs : List (String × JValue) :=
    match obj.get "profiles" with
    | some (.obj m) => m
    | _ => []
  let profiles ← poolProfilesOfJson profs
  let version ← pyIntOf (pyOrJ (obj.get "version") (.num 1))
  return {
    version := version
    provider := pyStrOf (pyOrJ (obj.get "provider") (.str "openai.codex.oauth.pool"))
    updated_at := pyStrOf (pyOrJ (obj.get "updatedAt") (.str now_iso))
    issuer := jStrField obj "issuer"
    client_id := jStrField obj "clientId"
    model := jStrField obj "model"
    codex_endpoint := jStrField obj "codexEndpoint"
    selection_strategy := pyStrOf (pyOrJ (selection.get "strategy") (.str "sticky"))
    pinned_profile := jStrField selection "pinnedProfile"
    last_used_profile := jStrField selection "lastUsedProfile"
    profiles := profiles }

/-- `load_pool(path)`: `none` models a missing file (fresh empty pool);
`some d` is the parsed JSON document. A non-object document is rejected;
nothing here inspects the version. -/
def load_pool (now_iso : String) (file : Option JValue) :
    Except PoolError OAuthPool :=
  match file with
  | none => .ok (OAuthPool.empty now_iso)
  | some d =>
    match d with
    | .obj _ => OAuthPool.from_json now_iso d
    | _ => .error .invalidPoolFile

/-- The optional pool-level fields `upsert_profile` may overwrite. -/
structure PoolFields where
  issuer : Option String := none
  clientId : Option String := none
  model : Option String := none
  codexEndpoint : Option String := none

/-- `pool_fields.get(k) or pool.f`: a falsy (missing or empty) new value
keeps the old one. -/
def pyOrOptStr (a b : Option String) : Option String :=
  match pyTruthy a with
  | some s => some s
  | none => b

/-- `upsert_profile(path, profile, pool_fields)` on an already-loaded
pool (file I/O is the load result passed in; the save returns the new
pool). This is the only place in `openai_oauth_pool.py` that rejects a
version other than 1. -/
def upsert_profile (loaded : Except PoolError OAuthPool)
    (profile : OAuthProfile) (fields : PoolFields) (now_iso : String) :
    Except PoolError (OAuthPool × String) := do
  let pool ← loaded
  if pool.version ≠ 1 then
    .error .unsupportedVersion
  else
    let pool := { pool with
      issuer := pyOrOptStr fields.issuer pool.issuer
      client_id := pyOrOptStr fields.clientId pool.client_id
      model := pyOrOptStr fields.model pool.model
      codex_endpoint := pyOrOptStr fields.codexEndpoint pool.codex_endpoint
      profiles := listUpsert pool.profiles profile }
    let pool := pool.mark_used profile.profile now_iso
    return (pool, profile.profile)

/-- The caller-side guard in `OpenAICodexOAuthProvider.chat`:
`profile = pool.profiles.get(selected); if not profile: raise …`. -/
def chat_select_guard (pool : OAuthPool) (selected : String) :
    Except String OAuthProfile :=
  match pool.find_profile selected with
  | some p => .ok p
  | none => .error ("Selected OAuth profile missing: " ++ selected)

/-! ## Facts about the stable sort and the total order -/

theorem insertOrd_perm (lt : α → α → Bool) (x : α) (l : List α) :
    List.Perm (insertOrd lt x l) (x :: l) := by
  induction l with
  | nil => simp [insertOrd]
  | cons y ys ih =>
    simp only [insertOrd]
    split
    · exact ((ih.cons y).trans (List.Perm.swap x y ys))
    · exact List.Perm.refl _

theorem pySorted_perm (lt : α → α → Bool) (l : List α) :
    List.Perm (pySorted lt l) l := by
  induction l with
  | nil => simp [pySorted]
  | cons x xs ih =>
    simpa [pySorted] using ((insertOrd_perm lt x _).trans (ih.cons x))

theorem insertOrd_pairwise (lt : α → α → Bool)
    (hasym : ∀ a b, lt a b = true → lt b a = false)
    (hneg : ∀ a b c, lt a b = false → lt b c = false → lt a c = false)
    (x : α) (l : List α)
    (hl : l.Pairwise (fun a b => lt b a = false)) :
    (insertOrd lt x l).Pairwise (fun a b => lt b a = false) := by
  induction l with
  | nil => simp [insertOrd]
  | cons y ys ih =>
    rw [List.pairwise_cons] at hl
    simp only [insertOrd]
    split
    · rename_i hyx
      rw [List.pairwise_cons]
      refine ⟨?_, ih hl.2⟩
      intro z hz
      rcases List.mem_cons.mp ((insertOrd_perm lt x ys).mem_iff.mp hz) with hzx | hzys
      · subst hzx; exact hasym _ _ hyx
      · exact hl.1 z hzys
    · rename_i hyx
      rw [Bool.not_eq_true] at hyx
      rw [List.pairwise_cons]
      refine ⟨?_, List.pairwise_cons.mpr hl⟩
      intro z hz
      rcases List.mem_cons.mp hz with hzy | hzys
      · exact hzy ▸ hyx
      · exact hneg z y x (hl.1 z hzys) hyx

theorem pySorted_pairwise (lt : α → α → Bool)
    (hasym : ∀ a b, lt a b = true → lt b a = false)
    (hneg : ∀ a b c, lt a b = false → lt b c = false → lt a c = false)
    (l : List α) :
    (pySorted lt l).Pairwise (fun a b => lt b a = false) := by
  induction l with
  | nil => simp [pySorted]
  | cons x xs ih =>
    simpa [pySorted] using insertOrd_pairwise lt hasym hneg x _ ih

theorem lt_irrefl_of_asymm (lt : α → α → Bool)
    (hasym : ∀ a b, lt a b = true → lt b a = false) (a : α) :
    lt a a = false := by
  cases h : lt a a
  · rfl
  · have hfalse := hasym a a h
    rw [h] at hfalse
    exact hfalse

/-- The head of the sorted list is minimal among the input. -/
theorem pySorted_head_min (lt : α → α → Bool)
    (hasym : ∀ a b, lt a b = true → lt b a = false)
    (hneg : ∀ a b c, lt a b = false → lt b c = false → lt a c = false)
    (l : List α) (p : α) (rest : List α)
    (hs : pySorted lt l = p :: rest) :
    ∀ q ∈ l, lt q p = false := by
  intro q hq
  have hmem : q ∈ pySorted lt l := (pySorted_perm lt l).mem_iff.mpr hq
  rw [hs] at hmem
  rcases List.mem_cons.mp hmem with hqp | hqrest
  · exact hqp ▸ lt_irrefl_of_asymm lt hasym p
  · have hpw := pySorted_pairwise lt hasym hneg l
    rw [hs, List.pairwise_cons] at hpw
    exact hpw.1 q hqrest

theorem strLt_asymm : ∀ a b : List Char, strLt a b = true → strLt b a = false
  | [], [] => by simp [strLt]
  | [], _ :: _ => by simp [strLt]
  | _ :: _, [] => by simp [strLt]
  | a :: as, b :: bs => by
    intro h
    simp only [strLt] at h ⊢
    split_ifs at h ⊢ <;>
      first
      | rfl
      | omega
      | (simp at h)
      | (exact strLt_asymm as bs h)

theorem strLt_negtrans : ∀ a b c : List Char,
    strLt a b = false → strLt b c = false → strLt a c = false
  | [], [], _ => by intro _ h2; exact h2
  | [], _ :: _, _ => by simp [strLt]
  | _ :: _, _, [] => by intro _ _; rfl
  | _ :: _, [], _ :: _ => by intro _ h2; simp [strLt] at h2
  | a :: as, b :: bs, c :: cs => by
    intro h1 h2
    simp only [strLt] at h1 h2 ⊢
    split_ifs at h1 h2 ⊢ <;>
      first
      | rfl
      | omega
      | (simp at h1)
      | (simp at h2)
      | (exact strLt_negtrans as bs cs h1 h2)

theorem strLt_conn : ∀ a b : List Char,
    strLt a b = false → strLt b a = false → a = b
  | [], [] => by intro _ _; rfl
  | [], _ :: _ => by simp [strLt]
  | _ :: _, [] => by simp [strLt]
  | a :: as, b :: bs => by
    intro h1 h2
    simp only [strLt] at h1 h2
    split_ifs at h1 h2 <;>
      first
      | (simp at h1)
      | (simp at h2)
      | omega
      | (rename_i hab hba
         have htn : a.toNat = b.toNat := by omega
         have hchar : a = b := by
           have hv := congrArg Char.ofNat htn
           rwa [Char.ofNat_toNat, Char.ofNat_toNat] at hv
         rw [hchar, strLt_conn as bs h1 h2])

theorem keyLt_asymm (a b : Rat × Int × List Char) :
    keyLt a b = true → keyLt b a = false := by
  intro h
  simp only [keyLt] at h ⊢
  split_ifs at h ⊢ <;>
    first
    | rfl
    | linarith
    | (simp at h)
    | (exact strLt_asymm _ _ h)

theorem keyLt_negtrans (a b c : Rat × Int × List Char) :
    keyLt a b = false → keyLt b c = false → keyLt a c = false := by
  intro h1 h2
  simp only [keyLt] at h1 h2 ⊢
  split_ifs at h1 h2 ⊢ <;>
    first
    | rfl
    | linarith
    | (simp at h1)
    | (simp at h2)
    | (exact strLt_negtrans _ _ _ h1 h2)

theorem profLt_asymm (p q : OAuthProfile) : profLt p q = true → profLt q p = false :=
  keyLt_asymm _ _

theorem profLt_negtrans (p q r : OAuthProfile) :
    profLt p q = false → profLt q r = false → profLt p r = false :=
  keyLt_negtrans _ _ _

/-- `strLt` is connex: two strings not below one another are equal. -/
theorem strLt_total_of_ne (a b : List Char) (hne : a ≠ b)
    (h : strLt a b = false) : strLt b a = true := by
  cases hba : strLt b a
  · exact absurd (strLt_conn a b h hba) hne
  · rfl

/-! ## C1 — deterministic selection by the total order -/

/-- **C1 (amended).** With no explicit profile, no pinned profile, the
sticky shortcut not applying, the round-robin successor rule not
applying, and at least one usable profile, `choose_profile` returns a
usable profile that is minimal under the total order (remaining asc,
resetAtMs asc, email asc); in particular, among usable profiles with
equal `effective_remaining` and `effective_reset_at_ms`, the returned
profile's `effective_email` is lexicographically smallest. -/
theorem choose_profile_sorted_min (pool : OAuthPool) (at_ms : Int)
    (hpin : pyTruthy pool.pinned_profile = none)
    (hsticky : pool.sticky_shortcut at_ms = none)
    (hrr : pool.round_robin_pick at_ms = none)
    (hne : pool.usable_at at_ms ≠ []) :
    ∃ p : OAuthProfile, p ∈ pool.usable_at at_ms ∧
      pool.choose_profile none at_ms = .ok p.profile ∧
      (∀ q ∈ pool.usable_at at_ms, profLt q p = false) ∧
      (∀ q ∈ pool.usable_at at_ms,
        q.effective_remaining = p.effective_remaining →
        q.effective_reset_at_ms = p.effective_reset_at_ms →
        q.effective_email ≠ p.effective_email →
        strLt p.effective_email.data q.effective_email.data = true) := by
  obtain ⟨p, rest, hsp⟩ :
      ∃ p rest, pySorted profLt (pool.usable_at at_ms) = p :: rest := by
    cases hsp : pySorted profLt (pool.usable_at at_ms) with
    | nil =>
      exfalso
      have hlen := (pySorted_perm profLt (pool.usable_at at_ms)).length_eq
      rw [hsp] at hlen
      exact hne (List.length_eq_zero.mp hlen.symm)
    | cons p rest => exact ⟨p, rest, rfl⟩
  have hmem : p ∈ pool.usable_at at_ms := by
    have : p ∈ pySorted profLt (pool.usable_at at_ms) := by
      rw [hsp]; exact List.mem_cons_self p rest
    exact (pySorted_perm profLt (pool.usable_at at_ms)).mem_iff.mp this
  have hmin : ∀ q ∈ pool.usable_at at_ms, profLt q p = false :=
    pySorted_head_min profLt profLt_asymm profLt_negtrans _ p rest hsp
  refine ⟨p, hmem, ?_, hmin, ?_⟩
  · have hemp : (pool.usable_at at_ms).isEmpty = false := by
      cases h : pool.usable_at at_ms with
      | nil => exact absurd h hne
      | cons u us => rfl
    have hex : pyTruthy (none : Option String) = none := rfl
    simp only [OAuthPool.choose_profile, hex, hpin, hsticky, hrr, hemp,
      Bool.false_eq_true, if_false, hsp]
  · intro q hq hrem hreset hemail
    have hq' := hmin q hq
    simp only [profLt, keyLt, OAuthProfile.sort_key, hrem, hreset,
      lt_irrefl, if_false] at hq'
    apply strLt_total_of_ne _ _ _ hq'
    intro hdata
    exact hemail (by
      have h1 : q.effective_email.data = p.effective_email.data := hdata
      cases hqe : q.effective_email with
      | mk d1 =>
        cases hpe : p.effective_email with
        | mk d2 =>
          rw [hqe, hpe] at h1
          simpa [hqe, hpe] using congrArg String.mk h1)

/-- A pool on which the frozen C1 is false: strategy `round-robin` with
a usable `lastUsedProfile` makes `choose_profile` return the successor
of the last-used profile in the sorted order, not the first. -/
def rrPool : OAuthPool where
  version := 1
  provider := "openai.codex.oauth.pool"
  updated_at := "2026-01-01T00:00:00Z"
  selection_strategy := "round-robin"
  pinned_profile := none
  last_used_profile := some "a"
  profiles :=
    [ { profile := "a", accessToken := "ta", refreshToken := "ra",
        expiresAtMs := 10 ^ 12, remaining := some 1 },
      { profile := "b", accessToken := "tb", refreshToken := "rb",
        expiresAtMs := 10 ^ 12, remaining := some 2 } ]

/-- **C1 counterexample.** On `rrPool` no explicit or pinned profile is
given and the sticky shortcut does not apply, profile `a` is usable and
strictly first in the total order, yet `choose_profile` returns `b`. -/
theorem choose_profile_round_robin_cex :
    pyTruthy rrPool.pinned_profile = none ∧
    rrPool.sticky_shortcut 0 = none ∧
    (∃ pa ∈ rrPool.usable_at 0, pa.profile = "a" ∧
      ∀ q ∈ rrPool.usable_at 0, q.profile ≠ "a" → profLt pa q = true) ∧
    rrPool.choose_profile none 0 = .ok "b" := by decide

/-- A sticky pool with two usable profiles tied on remaining and reset,
whose emails differ. -/
def tiePool : OAuthPool where
  version := 1
  provider := "openai.codex.oauth.pool"
  updated_at := "2026-01-01T00:00:00Z"
  selection_strategy := "sticky"
  pinned_profile := none
  last_used_profile := none
  profiles :=
    [ { profile := "p1", accessToken := "t1", refreshToken := "r1",
        expiresAtMs := 10 ^ 12, remaining := some 100,
        resetAtMs := some 5000, email := some "b@x" },
      { profile := "p2", accessToken := "t2", refreshToken := "r2",
        expiresAtMs := 10 ^ 12, remaining := some 100,
        resetAtMs := some 5000, email := some "a@x" } ]

/-- Witness for `choose_profile_sorted_min` at `tiePool`: the email
tie-break selects `p2` (`a@x` sorts before `b@x`). -/
theorem choose_profile_sorted_min_witness :
    (∃ p : OAuthProfile, p ∈ tiePool.usable_at 0 ∧
      tiePool.choose_profile none 0 = .ok p.profile ∧
      (∀ q ∈ tiePool.usable_at 0, profLt q p = false) ∧
      (∀ q ∈ tiePool.usable_at 0,
        q.effective_remaining = p.effective_remaining →
        q.effective_reset_at_ms = p.effective_reset_at_ms →
        q.effective_email ≠ p.effective_email →
        strLt p.effective_email.data q.effective_email.data = true)) ∧
    tiePool.choose_profile none 0 = .ok "p2" :=
  ⟨choose_profile_sorted_min tiePool 0 (by decide) (by decide) (by decide)
    (by decide), by decide⟩

/-! ## C2 — rate-limit persistence -/

/-- **C2 (amended).** After `mark_rate_limited(p, u)` called at clock
`now_ms`, the profile named `p` is not usable at any `T < u`; it is
usable at every `T ≥ max(u, now_ms)` provided it is not disabled (the
source clamps the stored stamp to `max(until_ms, now_ms())`, so
usability at `u ≤ T < now_ms` is not restored). -/
theorem mark_rate_limited_window (pool : OAuthPool) (name : String)
    (u now_ms : Int) (now_iso : String) (T : Int) (q : OAuthProfile)
    (hq : q ∈ (pool.mark_rate_limited name u now_ms now_iso).profiles)
    (hname : q.profile = name) :
    (T < u → q.is_usable T = false) ∧
    (q.disabled = false → u ≤ T → now_ms ≤ T → q.is_usable T = true) := by
  have hstamp : q.rateLimitedUntilMs = some (max u now_ms) := by
    unfold OAuthPool.mark_rate_limited at hq
    cases hf : pool.find_profile name with
    | none =>
      rw [hf] at hq
      have hnone := List.find?_eq_none.mp hf q hq
      rw [beq_iff_eq] at hnone
      exact absurd hname hnone
    | some witness =>
      rw [hf] at hq
      simp only [List.mem_map] at hq
      obtain ⟨orig, _, horig⟩ := hq
      by_cases hcase : (orig.profile == name) = true
      · rw [if_pos hcase] at horig
        rw [← horig]
      · rw [if_neg hcase] at horig
        rw [beq_iff_eq] at hcase
        rw [← horig] at hname
        exact absurd hname hcase
  constructor
  · intro hT
    simp only [OAuthProfile.is_usable, hstamp, Option.getD_some]
    split
    · rfl
    · simp only [decide_eq_false_iff_not, not_le]
      exact lt_of_lt_of_le hT (le_max_left u now_ms)
  · intro hdis hu hnow
    simp only [OAuthProfile.is_usable, hstamp, Option.getD_some, hdis,
      Bool.false_eq_true, if_false, decide_eq_true_eq]
    exact max_le hu hnow

/-- A one-profile pool for the C2 counterexample and witness. -/
def onePool : OAuthPool where
  version := 1
  provider := "openai.codex.oauth.pool"
  updated_at := "2026-01-01T00:00:00Z"
  selection_strategy := "sticky"
  pinned_profile := none
  last_used_profile := none
  profiles :=
    [ { profile := "a", accessToken := "ta", refreshToken := "ra",
        expiresAtMs := 10 ^ 12 } ]

/-- **C2 counterexample.** `mark_rate_limited("a", 5)` at clock
`now_ms = 10` stores `max(5, 10) = 10`, so at `T = 7 ≥ u = 5` the
non-disabled profile is still not usable, contradicting the claim that
it is usable at every `T ≥ u`. -/
theorem mark_rate_limited_cex :
    ((onePool.mark_rate_limited "a" 5 10 "t").find_profile "a").map
        (fun p => p.is_usable 7) = some false ∧
    (onePool.find_profile "a").map (fun p => p.disabled) = some false := by
  decide

/-- Witness for `mark_rate_limited_window`: marking at clock 3 with
`u = 5` makes the profile unusable at `T = 4` and usable at `T = 6`. -/
theorem mark_rate_limited_window_witness :
    let q : OAuthProfile :=
      { profile := "a", accessToken := "ta", refreshToken := "ra",
        expiresAtMs := 10 ^ 12, rateLimitedUntilMs := some 5,
        updatedAt := some "t" }
    ((4 : Int) < 5 → q.is_usable 4 = false) ∧
    (q.disabled = false → (5 : Int) ≤ 6 → (3 : Int) ≤ 6 → q.is_usable 6 = true) := by
  have h := mark_rate_limited_window onePool "a" 5 3 "t" 4
    { profile := "a", accessToken := "ta", refreshToken := "ra",
      expiresAtMs := 10 ^ 12, rateLimitedUntilMs := some 5,
      updatedAt := some "t" } (by decide) (by decide)
  have h6 := mark_rate_limited_window onePool "a" 5 3 "t" 6
    { profile := "a", accessToken := "ta", refreshToken := "ra",
      expiresAtMs := 10 ^ 12, rateLimitedUntilMs := some 5,
      updatedAt := some "t" } (by decide) (by decide)
  exact ⟨h.1, h6.2⟩

/-! ## C3 — rotation picks the best alternative -/

theorem strContains_iff (l : List String) (a : String) :
    l.contains a = true ↔ a ∈ l := by
  simp [List.contains, List.elem_iff]

/-- In a list sorted by the total order, the first profile whose name
differs from `current` is minimal among all profiles named differently
from `current`. -/
theorem sorted_first_alt (current : String) :
    ∀ l : List OAuthProfile,
      l.Pairwise (fun a b => profLt b a = false) →
      ∀ r, (l.map (·.profile)).find? (fun n => n != current) = some r →
      ∃ p ∈ l, p.profile = r ∧ r ≠ current ∧
        ∀ q ∈ l, q.profile ≠ current → profLt q p = false := by
  intro l
  induction l with
  | nil => intro _ r hr; simp at hr
  | cons x xs ih =>
    intro hpw r hfind
    rw [List.pairwise_cons] at hpw
    rw [List.map_cons, List.find?_cons] at hfind
    by_cases hx : (x.profile != current) = true
    · rw [hx] at hfind
      obtain rfl : x.profile = r := Option.some.inj hfind
      refine ⟨x, List.mem_cons_self x xs, rfl, ?_, ?_⟩
      · simpa using hx
      · intro q hq _
        rcases List.mem_cons.mp hq with rfl | hqxs
        · exact lt_irrefl_of_asymm profLt profLt_asymm q
        · exact hpw.1 q hqxs
    · rw [Bool.not_eq_true] at hx
      rw [hx] at hfind
      have hxcur : x.profile = current := by
        simpa using hx
      obtain ⟨p, hpmem, hpr, hrne, hpmin⟩ := ih hpw.2 r hfind
      refine ⟨p, List.mem_cons_of_mem x hpmem, hpr, hrne, ?_⟩
      intro q hq hqne
      rcases List.mem_cons.mp hq with rfl | hqxs
      · exact absurd hxcur hqne
      · exact hpmin q hqxs hqne

/-- **C3 (amended).** With no explicit argument and at least one usable
profile, `rotate_after(current)` returns the best usable profile other
than `current` under the total order; if `current` is the only usable
profile it returns `current`. (With no usable profile at all it raises
instead of returning `current`.) -/
theorem rotate_after_picks_best (pool : OAuthPool) (current : String)
    (at_ms : Int) (hne : pool.usable_at at_ms ≠ []) :
    ((∀ q ∈ pool.usable_at at_ms, q.profile = current) →
        pool.rotate_after current none at_ms = .ok current) ∧
    ((∃ q ∈ pool.usable_at at_ms, q.profile ≠ current) →
        ∃ p ∈ pool.usable_at at_ms, p.profile ≠ current ∧
          pool.rotate_after current none at_ms = .ok p.profile ∧
          ∀ q ∈ pool.usable_at at_ms, q.profile ≠ current → profLt q p = false) := by
  have hemp : (pool.usable_at at_ms).isEmpty = false := by
    cases h : pool.usable_at at_ms with
    | nil => exact absurd h hne
    | cons u us => rfl
  obtain ⟨p0, rest, hsp⟩ :
      ∃ p0 rest, pySorted profLt (pool.usable_at at_ms) = p0 :: rest := by
    cases hsp : pySorted profLt (pool.usable_at at_ms) with
    | nil =>
      exfalso
      have hlen := (pySorted_perm profLt (pool.usable_at at_ms)).length_eq
      rw [hsp] at hlen
      exact hne (List.length_eq_zero.mp hlen.symm)
    | cons p0 rest => exact ⟨p0, rest, rfl⟩
  have hsortmem : ∀ q, q ∈ pySorted profLt (pool.usable_at at_ms) ↔
      q ∈ pool.usable_at at_ms :=
    fun q => (pySorted_perm profLt (pool.usable_at at_ms)).mem_iff
  have hrot : pool.rotate_after current none at_ms =
      (if !(((pySorted profLt (pool.usable_at at_ms)).map (·.profile)).contains current) then
        match (pySorted profLt (pool.usable_at at_ms)).map (·.profile) with
        | r :: _ => .ok r
        | [] => .error .noRotateTarget
      else
        match ((pySorted profLt (pool.usable_at at_ms)).map (·.profile)).find?
            (fun n => n != current) with
        | some r => .ok r
        | none => .ok current) := by
    have hfilter : List.filter (fun p => p.is_usable at_ms) pool.profiles =
        pool.usable_at at_ms := rfl
    simp only [OAuthPool.rotate_after, pyTruthy, hfilter, hemp,
      Bool.false_eq_true, if_false]
  constructor
  · intro hall
    have hcon : ((pySorted profLt (pool.usable_at at_ms)).map (·.profile)).contains
        current = true := by
      have hp0 : p0 ∈ pySorted profLt (pool.usable_at at_ms) := by
        rw [hsp]; exact List.mem_cons_self p0 rest
      have hp0c : p0.profile = current := hall p0 ((hsortmem p0).mp hp0)
      have : current ∈ (pySorted profLt (pool.usable_at at_ms)).map (·.profile) := by
        exact List.mem_map.mpr ⟨p0, hp0, hp0c⟩
      exact (strContains_iff _ _).mpr this
    have hfind : ((pySorted profLt (pool.usable_at at_ms)).map (·.profile)).find?
        (fun n => n != current) = none := by
      rw [List.find?_eq_none]
      intro n hn
      obtain ⟨q, hq, rfl⟩ := List.mem_map.mp hn
      simp [hall q ((hsortmem q).mp hq)]
    rw [hrot, hcon]
    simp [hfind]
  · intro ⟨q0, hq0mem, hq0ne⟩
    by_cases hcon : ((pySorted profLt (pool.usable_at at_ms)).map (·.profile)).contains
        current = true
    · have hfindsome : ∃ r, ((pySorted profLt (pool.usable_at at_ms)).map
          (·.profile)).find? (fun n => n != current) = some r := by
        have hq0' : q0.profile ∈ (pySorted profLt (pool.usable_at at_ms)).map
            (·.profile) :=
          List.mem_map.mpr ⟨q0, (hsortmem q0).mpr hq0mem, rfl⟩
        cases hf : ((pySorted profLt (pool.usable_at at_ms)).map (·.profile)).find?
            (fun n => n != current) with
        | some r => exact ⟨r, rfl⟩
        | none =>
          exfalso
          have := List.find?_eq_none.mp hf q0.profile hq0'
          simp [hq0ne] at this
      obtain ⟨r, hfind⟩ := hfindsome
      obtain ⟨p, hpmem, hppr, hrne, hpmin⟩ :=
        sorted_first_alt current (pySorted profLt (pool.usable_at at_ms))
          (pySorted_pairwise profLt profLt_asymm profLt_negtrans _) r hfind
      refine ⟨p, (hsortmem p).mp hpmem, hppr ▸ hrne, ?_, ?_⟩
      · rw [hrot, hcon, hfind]
        simp [hppr]
      · intro q hq hqne
        exact hpmin q ((hsortmem q).mpr hq) hqne
    · have hp0ne : p0.profile ≠ current := by
        intro hc
        apply hcon
        have : current ∈ (pySorted profLt (pool.usable_at at_ms)).map (·.profile) := by
          refine List.mem_map.mpr ⟨p0, ?_, hc⟩
          rw [hsp]; exact List.mem_cons_self p0 rest
        exact (strContains_iff _ _).mpr this
      refine ⟨p0, (hsortmem p0).mp (by rw [hsp]; exact List.mem_cons_self p0 rest),
        hp0ne, ?_, ?_⟩
      · rw [hrot]
        rw [Bool.not_eq_true] at hcon
        rw [hcon]
        simp [hsp]
      · intro q hq _
        exact pySorted_head_min profLt profLt_asymm profLt_negtrans _ p0 rest hsp q hq

/-- A pool whose only profile is disabled, for the C3 counterexample. -/
def disabledPool : OAuthPool where
  version := 1
  provider := "openai.codex.oauth.pool"
  updated_at := "2026-01-01T00:00:00Z"
  selection_strategy := "sticky"
  pinned_profile := none
  last_used_profile := none
  profiles :=
    [ { profile := "a", accessToken := "ta", refreshToken := "ra",
        expiresAtMs := 10 ^ 12, disabled := true } ]

/-- **C3 counterexample.** On a pool whose single profile `a` is
disabled there is no alternative to `current = "a"`, yet
`rotate_after("a")` raises (`No usable OAuth profiles available to
rotate to`) instead of returning `"a"`. -/
theorem rotate_after_no_usable_cex :
    disabledPool.find_profile "a" ≠ none ∧
    disabledPool.usable_at 0 = [] ∧
    disabledPool.rotate_after "a" none 0 = .error .noRotateTarget := by
  decide

/-- Witness for `rotate_after_picks_best` at `tiePool` (both usable,
`current = "p2"` is the sorted head, so the alternative `p1` wins). -/
theorem rotate_after_picks_best_witness :
    ((∀ q ∈ tiePool.usable_at 0, q.profile = "p2") →
        tiePool.rotate_after "p2" none 0 = .ok "p2") ∧
    ((∃ q ∈ tiePool.usable_at 0, q.profile ≠ "p2") →
        ∃ p ∈ tiePool.usable_at 0, p.profile ≠ "p2" ∧
          tiePool.rotate_after "p2" none 0 = .ok p.profile ∧
          ∀ q ∈ tiePool.usable_at 0, q.profile ≠ "p2" → profLt q p = false) :=
  rotate_after_picks_best tiePool "p2" 0 (by decide)

/-! ## C4 — pool file version handling -/

/-- **C4 (amended).** `load_pool` itself accepts any integer version:
`from_json` coerces `version` with `int(obj.get("version") or 1)` (so a
falsy `0` becomes `1`) and never rejects. The `version == 1` check is
enforced by callers — `upsert_profile` here (and the provider's
`_load_pool_or_single`) — which raise on any other version. -/
theorem load_pool_accepts_other_versions (n : Int) (hn : n ≠ 0)
    (now_iso : String) :
    load_pool now_iso (some (.obj [("version", .num n)])) =
      .ok { version := n, provider := "openai.codex.oauth.pool",
            updated_at := now_iso, selection_strategy := "sticky",
            pinned_profile := none, last_used_profile := none,
            profiles := [] } ∧
    (n ≠ 1 → ∀ (prof : OAuthProfile) (fields : PoolFields),
      upsert_profile (load_pool now_iso (some (.obj [("version", .num n)])))
        prof fields now_iso = .error .unsupportedVersion) := by
  have hbeq : (n == 0) = false := by
    simp [hn]
  have hload : load_pool now_iso (some (.obj [("version", .num n)])) =
      .ok { version := n, provider := "openai.codex.oauth.pool",
            updated_at := now_iso, selection_strategy := "sticky",
            pinned_profile := none, last_used_profile := none,
            profiles := [] } := by
    simp [load_pool, OAuthPool.from_json, poolProfilesOfJson, JValue.get,
      pyOrJ, pyFalsy, hbeq, pyIntOf, pyStrOf, jStrField, List.find?,
      Bind.bind, Except.bind, pure, Except.pure]
  refine ⟨hload, ?_⟩
  intro hn1 prof fields
  rw [hload]
  simp [upsert_profile, hn1, Bind.bind, Except.bind]

/-- **C4 counterexample.** A pool file with `version: 2` loads without
error (the claim says it is rejected on load). -/
theorem load_pool_version_two_cex :
    load_pool "T" (some (.obj [("version", .num 2)])) =
      .ok { version := 2, provider := "openai.codex.oauth.pool",
            updated_at := "T", selection_strategy := "sticky",
            pinned_profile := none, last_used_profile := none,
            profiles := [] } := by
  decide

/-- Witness for `load_pool_accepts_other_versions` at `n = 7`. -/
theorem load_pool_accepts_other_versions_witness :
    load_pool "T" (some (.obj [("version", .num 7)])) =
      .ok { version := 7, provider := "openai.codex.oauth.pool",
            updated_at := "T", selection_strategy := "sticky",
            pinned_profile := none, last_used_profile := none,
            profiles := [] } ∧
    ((7 : Int) ≠ 1 → ∀ (prof : OAuthProfile) (fields : PoolFields),
      upsert_profile (load_pool "T" (some (.obj [("version", .num 7)])))
        prof fields "T" = .error .unsupportedVersion) :=
  load_pool_accepts_other_versions 7 (by decide) "T"

/-! ## C10 — explicit rotation targets are not validated -/

/-- **C10.** `rotate_after(current, explicit)` with a truthy `explicit`
returns it unchanged, with no membership check against the pool —
unlike `choose_profile`, which raises `OAuth profile not found in pool`
for an unknown explicit profile; an unknown rotation target is only
caught later by the caller's `Selected OAuth profile missing` guard in
`OpenAICodexOAuthProvider.chat`. -/
theorem rotate_after_explicit_bypasses_pool (pool : OAuthPool)
    (current e : String) (at_ms : Int) (he : e ≠ "") :
    pool.rotate_after current (some e) at_ms = .ok e ∧
    (pool.find_profile e = none →
      pool.choose_profile (some e) at_ms = .error (.profileNotFound e) ∧
      chat_select_guard pool e =
        .error ("Selected OAuth profile missing: " ++ e)) := by
  refine ⟨?_, ?_⟩
  · simp [OAuthPool.rotate_after, pyTruthy, he]
  · intro hnf
    constructor
    · simp [OAuthPool.choose_profile, pyTruthy, he, hnf]
    · simp [chat_select_guard, hnf]

/-- Witness for `rotate_after_explicit_bypasses_pool`: `onePool` has no
profile `ghost`, yet rotation to it succeeds while selection raises. -/
theorem rotate_after_explicit_bypasses_pool_witness :
    onePool.rotate_after "a" (some "ghost") 0 = .ok "ghost" ∧
    (onePool.find_profile "ghost" = none →
      onePool.choose_profile (some "ghost") 0 =
        .error (.profileNotFound "ghost") ∧
      chat_select_guard onePool "ghost" =
        .error ("Selected OAuth profile missing: " ++ "ghost")) :=
  rotate_after_explicit_bypasses_pool onePool "a" "ghost" 0 (by decide)

/-! ## C7 — evidence writer byte budget (`run_smoke.py`, `EvidenceWriter`)

`append` serializes the event to one line; only the byte lengths matter
for the budget logic, so an append is modelled by the byte length of its
line (including the trailing newline) together with the byte length of
the `evidence.truncated` JSON that would be written instead (without
newline — the source appends `"\n"` separately), which depends on the
current timestamp and is therefore per-call. -/

/-- The writer's mutable state: the events file size (the `stat` the
source reads back before each append) and the `_disabled` latch. -/
structure EvState where
  size : Nat
  disabled : Bool
deriving Repr, DecidableEq

/-- What one `append` wrote. -/
inductive WriteKind where
  | event : WriteKind
  | truncated : WriteKind
deriving Repr, DecidableEq, BEq

/-- One `EvidenceWriter.append(obj)` call. The `max_bytes <= 0` early
return inside the over-budget branch is dead code (that branch requires
`max_bytes > 0`) and is subsumed here. -/
def ew_append (max_bytes : Int) (st : EvState) (lineLen truncLen : Nat) :
    EvState × Option WriteKind :=
  if st.disabled then (st, none)
  else if max_bytes > 0 ∧ (st.size + lineLen : Int) > max_bytes then
    if (st.size + truncLen + 1 : Int) ≤ max_bytes then
      ({ size := st.size + truncLen + 1, disabled := true }, some .truncated)
    else ({ st with disabled := true }, none)
  else ({ st with size := st.size + lineLen }, some .event)

/-- A run of appends: each stream element is
`(line byte length, truncated-marker byte length)`. -/
def ew_run (max_bytes : Int) (st : EvState) :
    List (Nat × Nat) → EvState × List WriteKind
  | [] => (st, [])
  | (l, t) :: rest =>
    let step := ew_append max_bytes st l t
    let next := ew_run max_bytes step.1 rest
    match step.2 with
    | none => next
    | some k => (next.1, k :: next.2)

theorem ew_append_none_disabled (max_bytes : Int) (st : EvState) (l t : Nat)
    (h : (ew_append max_bytes st l t).2 = none) :
    (ew_append max_bytes st l t).1.disabled = true := by
  unfold ew_append at h ⊢
  split_ifs at h ⊢ <;> first | rfl | assumption | simp at h

theorem ew_append_truncated_disabled (max_bytes : Int) (st : EvState)
    (l t : Nat) (h : (ew_append max_bytes st l t).2 = some .truncated) :
    (ew_append max_bytes st l t).1.disabled = true := by
  unfold ew_append at h ⊢
  split_ifs at h ⊢ with h1 h2 h3 <;> first | rfl | simp at h

theorem ew_append_size_le (max_bytes : Int) (hB : 0 < max_bytes)
    (st : EvState) (l t : Nat) (hsz : (st.size : Int) ≤ max_bytes) :
    ((ew_append max_bytes st l t).1.size : Int) ≤ max_bytes := by
  unfold ew_append
  split_ifs with h1 h2 h3
  · exact hsz
  · simpa using h3
  · exact hsz
  · push_neg at h2
    simpa using h2 hB

theorem ew_append_disabled_id (max_bytes : Int) (st : EvState) (l t : Nat)
    (h : st.disabled = true) : ew_append max_bytes st l t = (st, none) := by
  unfold ew_append
  rw [if_pos h]

/-- A disabled writer drops everything for the rest of the run. -/
theorem ew_run_disabled (max_bytes : Int) :
    ∀ (stream : List (Nat × Nat)) (st : EvState), st.disabled = true →
      ew_run max_bytes st stream = (st, []) := by
  intro stream
  induction stream with
  | nil => intro st _; rfl
  | cons head rest ih =>
    intro st hd
    obtain ⟨l, t⟩ := head
    simp only [ew_run, ew_append_disabled_id max_bytes st l t hd]
    exact ih st hd

/-- Sizes never exceed a positive budget. -/
theorem ew_run_size_le (max_bytes : Int) (hB : 0 < max_bytes) :
    ∀ (stream : List (Nat × Nat)) (st : EvState),
      (st.size : Int) ≤ max_bytes →
      ((ew_run max_bytes st stream).1.size : Int) ≤ max_bytes := by
  intro stream
  induction stream with
  | nil => intro st h; exact h
  | cons head rest ih =>
    intro st hsz
    obtain ⟨l, t⟩ := head
    have hstep := ew_append_size_le max_bytes hB st l t hsz
    simp only [ew_run]
    cases hw : (ew_append max_bytes st l t).2 with
    | none => exact ih _ hstep
    | some k => exact ih _ hstep

/-- At most one truncation marker, and nothing is written after it. -/
theorem ew_run_truncated_last (max_bytes : Int) :
    ∀ (stream : List (Nat × Nat)) (st : EvState),
      (ew_run max_bytes st stream).2.count .truncated ≤ 1 ∧
      (∀ pre post, (ew_run max_bytes st stream).2 = pre ++ .truncated :: post →
        post = []) := by
  intro stream
  induction stream with
  | nil =>
    intro st
    refine ⟨by simp [ew_run], ?_⟩
    intro pre post h
    simp only [ew_run] at h
    exact absurd h.symm (List.append_ne_nil_of_right_ne_nil pre (by simp))
  | cons head rest ih =>
    intro st
    obtain ⟨l, t⟩ := head
    simp only [ew_run]
    cases hw : (ew_append max_bytes st l t).2 with
    | none => exact ih _
    | some k =>
      cases k with
      | truncated =>
        have hd := ew_append_truncated_disabled max_bytes st l t hw
        rw [ew_run_disabled max_bytes rest _ hd]
        refine ⟨by simp [List.count_cons]; decide, ?_⟩
        intro pre post h
        cases pre with
        | nil => simpa using h
        | cons a as =>
          rw [List.cons_append] at h
          have h2 := (List.cons.injEq .. ▸ h).2
          exact absurd h2.symm (List.append_ne_nil_of_right_ne_nil as (by simp))
      | event =>
        have ihs := ih (ew_append max_bytes st l t).1
        refine ⟨by simpa [List.count_cons] using ihs.1, ?_⟩
        intro pre post h
        cases pre with
        | nil => exact absurd (List.cons.injEq .. ▸ h).1 (by simp)
        | cons a as =>
          rw [List.cons_append] at h
          exact ihs.2 as post (List.cons.injEq .. ▸ h).2

/-- **C7.** For every positive byte budget `B` and every append stream,
the evidence file never exceeds `B` bytes (at every prefix of the run);
at most one `evidence.truncated` marker is ever written (only if it
fits, since the bound covers it); and once the writer latches, nothing
follows the marker — every subsequent append is dropped. -/
theorem evidence_writer_budget (B : Int) (hB : 0 < B)
    (stream : List (Nat × Nat)) :
    (∀ k, ((ew_run B ⟨0, false⟩ (stream.take k)).1.size : Int) ≤ B) ∧
    (ew_run B ⟨0, false⟩ stream).2.count .truncated ≤ 1 ∧
    (∀ pre post, (ew_run B ⟨0, false⟩ stream).2 = pre ++ .truncated :: post →
      post = []) := by
  refine ⟨?_, (ew_run_truncated_last B stream ⟨0, false⟩).1,
    (ew_run_truncated_last B stream ⟨0, false⟩).2⟩
  intro k
  exact ew_run_size_le B hB (stream.take k) ⟨0, false⟩ (by simpa using le_of_lt hB)

/-! ## Redaction (`run_smoke.py`, `redact_text` / `redact_obj`)

`str.replace` and the `Bearer\s+[A-Za-z0-9._-]+` substitution are
modelled on `List Char`. `\s` is modelled by its ASCII fragment (the
texts redacted here are JSON over ASCII identifiers); since the
whitespace and token classes are disjoint, the greedy scan
without backtracking below is exactly what `re.sub` computes. -/

/-- `p` is a prefix of `t`. -/
def leadsWith : List Char → List Char → Bool
  | [], _ => true
  | _ :: _, [] => false
  | a :: as, b :: bs => a == b && leadsWith as bs

/-- `p` occurs as a contiguous substring of `t` (Python `in` /
`str.find() != -1`). -/
def occursInB (p : List Char) : List Char → Bool
  | [] => p.isEmpty
  | c :: rest => leadsWith p (c :: rest) || occursInB p rest

/-- `p` occurs as a contiguous substring of `t`, as a proposition. -/
def OccursIn (p t : List Char) : Prop := ∃ u v, t = u ++ p ++ v

/-- The scan of Python `str.replace(old, new)` for nonempty `old`:
leftmost, non-overlapping, replaces every occurrence. -/
def pyReplaceGo (p R : List Char) : List Char → List Char
  | [] => []
  | c :: rest =>
    if h : p ≠ [] ∧ leadsWith p (c :: rest) = true then
      R ++ pyReplaceGo p R ((c :: rest).drop p.length)
    else
      c :: pyReplaceGo p R rest
termination_by t => t.length
decreasing_by
  · simp only [List.length_drop, List.length_cons]
    have : 0 < p.length := List.length_pos.mpr h.1
    omega
  · simp only [List.length_cons]
    omega

/-- Python `t.replace(p, R)`; an empty pattern interleaves `R`
everywhere (never exercised: `redact_text` skips empty secrets). -/
def pyReplace (p R t : List Char) : List Char :=
  if p = [] then R ++ t.flatMap (fun c => c :: R)
  else pyReplaceGo p R t

/-- The literal `Bearer` of the redaction regex. -/
def bearerLit : List Char := "Bearer".data

/-- The replacement text `Bearer <redacted>`. -/
def bearerRepl : List Char := "Bearer <redacted>".data

/-- `"<redacted>"`, the replacement for secrets. -/
def redactedChars : List Char := "<redacted>".data

/-- `\s` (ASCII fragment). -/
def isRegexSpace (c : Char) : Bool :=
  c = ' ' || c = '\t' || c = '\n' || c = '\r' || c = '\x0b' || c = '\x0c'

/-- The token class `[A-Za-z0-9._-]`. -/
def isTokenChar (c : Char) : Bool :=
  ('A' ≤ c && c ≤ 'Z') || ('a' ≤ c && c ≤ 'z') || ('0' ≤ c && c ≤ '9') ||
    c = '.' || c = '_' || c = '-'

/-- Length of the regex match `Bearer\s+[A-Za-z0-9._-]+` anchored at the
head of `t`, if any (greedy; the character classes are disjoint from
each other and from `Bearer`'s last letter, so greediness is exact). -/
def bearerMatchLen (t : List Char) : Option Nat :=
  if leadsWith bearerLit t then
    if ((t.drop 6).takeWhile isRegexSpace).isEmpty then none
    else if (((t.drop 6).drop ((t.drop 6).takeWhile isRegexSpace).length).takeWhile
        isTokenChar).isEmpty then none
    else some (6 + ((t.drop 6).takeWhile isRegexSpace).length +
      (((t.drop 6).drop ((t.drop 6).takeWhile isRegexSpace).length).takeWhile
        isTokenChar).length)
  else none

theorem bearerMatchLen_pos (t : List Char) (n : Nat)
    (h : bearerMatchLen t = some n) : 1 ≤ n := by
  unfold bearerMatchLen at h
  split_ifs at h with h1 h2 h3 <;>
    first
    | (have hn := Option.some.inj h; omega)
    | (simp at h)

/-- `re.sub(r"Bearer\s+[A-Za-z0-9._-]+", "Bearer <redacted>", t)`:
leftmost matches, non-overlapping, scanned left to right. -/
def bearerSub : List Char → List Char
  | [] => []
  | c :: rest =>
    match hm : bearerMatchLen (c :: rest) with
    | some n => bearerRepl ++ bearerSub ((c :: rest).drop n)
    | none => c :: bearerSub rest
termination_by t => t.length
decreasing_by
  · simp only [List.length_drop, List.length_cons]
    have := bearerMatchLen_pos _ _ hm
    omega
  · simp

/-- One iteration of the secret-replacement loop of `redact_text`:
`if s: text = text.replace(s, "<redacted>")`. -/
def redactStep (acc : List Char) (s : String) : List Char :=
  if s ≠ "" then pyReplace s.data redactedChars acc else acc

/-- `redact_text(text, secrets)`: replace each nonempty secret, then
rewrite Bearer tokens. -/
def redact_text (secrets : List String) (text : List Char) : List Char :=
  bearerSub (secrets.foldl redactStep text)

/-- The special keys whose values are replaced wholesale. -/
def isSpecialKey (k : String) : Bool :=
  pyLower k == "authorization" || pyLower k == "api_key" || pyLower k == "apikey"

mutual

/-- `redact_obj(obj, secrets)`. -/
def redact_obj (secrets : List String) : JValue → JValue
  | .str s => .str ⟨redact_text secrets s.data⟩
  | .arr xs => .arr (redactList secrets xs)
  | .obj m => .obj (redactPairs secrets m)
  | .null => .null
  | .bool b => .bool b
  | .num n => .num n

def redactList (secrets : List String) : List JValue → List JValue
  | [] => []
  | x :: xs => redact_obj secrets x :: redactList secrets xs

def redactPairs (secrets : List String) :
    List (String × JValue) → List (String × JValue)
  | [] => []
  | (k, v) :: rest =>
    (if isSpecialKey k then (k, .str "<redacted>")
     else (k, redact_obj secrets v)) :: redactPairs secrets rest

end

/-! ## JSON serialization (`json.dumps(..., ensure_ascii=False)`)

Both the evidence writer and `encode_message` serialize with
`ensure_ascii=False` and the default separators `", "` / `": "`. -/

/-- Lowercase hex digit. -/
def hexDigit (n : Nat) : Char :=
  if n < 10 then Char.ofNat ('0'.toNat + n) else Char.ofNat ('a'.toNat + n - 10)

/-- The escape `json.dumps` applies to one character
(`ensure_ascii=False`): `"` and `\` are escaped, control characters get
short escapes or `\u00xx`, everything else passes through. -/
def jsonEscapeChar (c : Char) : List Char :=
  if c = '"' then ['\\', '"']
  else if c = '\\' then ['\\', '\\']
  else if c = '\n' then ['\\', 'n']
  else if c = '\r' then ['\\', 'r']
  else if c = '\t' then ['\\', 't']
  else if c.toNat = 8 then ['\\', 'b']
  else if c.toNat = 12 then ['\\', 'f']
  else if c.toNat < 32 then
    ['\\', 'u', '0', '0', hexDigit (c.toNat / 16), hexDigit (c.toNat % 16)]
  else [c]

/-- Decimal digits of a natural number, most significant first. -/
def natChars (n : Nat) : List Char :=
  if h : n < 10 then [Char.ofNat ('0'.toNat + n)]
  else natChars (n / 10) ++ [Char.ofNat ('0'.toNat + n % 10)]
decreasing_by
  have : 10 ≤ n := Nat.not_lt.mp h
  have h2 : 0 < n := by omega
  exact Nat.div_lt_self h2 (by omega)

/-- `json.dumps` of an integer. -/
def intChars (n : Int) : List Char :=
  if n < 0 then '-' :: natChars n.natAbs else natChars n.toNat

/-- A serialized JSON string: quotes around escaped characters. -/
def strChars (s : String) : List Char :=
  '"' :: (s.data.flatMap jsonEscapeChar ++ ['"'])

mutual

/-- `json.dumps(v, ensure_ascii=False)` (default separators). -/
def jsonDumps : JValue → List Char
  | .null => "null".data
  | .bool true => "true".data
  | .bool false => "false".data
  | .num n => intChars n
  | .str s => strChars s
  | .arr xs => '[' :: (dumpsElems xs ++ [']'])
  | .obj m => '\x7b' :: (dumpsMembers m ++ ['\x7d'])

def dumpsElems : List JValue → List Char
  | [] => []
  | [x] => jsonDumps x
  | x :: y :: rest => jsonDumps x ++ (", ".data ++ dumpsElems (y :: rest))

def dumpsMembers : List (String × JValue) → List Char
  | [] => []
  | [(k, v)] => strChars k ++ (": ".data ++ jsonDumps v)
  | (k, v) :: m2 :: rest =>
    strChars k ++ (": ".data ++ jsonDumps v) ++
      (", ".data ++ dumpsMembers (m2 :: rest))

end

/-- Witness for `evidence_writer_budget` with budget 10 and a stream
whose third line would overflow (so a marker of length 5+1 is written
and the rest is dropped). -/
theorem evidence_writer_budget_witness :
    (0 : Int) < 10 ∧
    ((∀ k, ((ew_run 10 ⟨0, false⟩ ([(4, 5), (4, 5), (4, 5), (4, 5)].take k)).1.size : Int) ≤ 10) ∧
     (ew_run 10 ⟨0, false⟩ [(4, 5), (4, 5), (4, 5), (4, 5)]).2.count .truncated ≤ 1 ∧
     (∀ pre post, (ew_run 10 ⟨0, false⟩ [(4, 5), (4, 5), (4, 5), (4, 5)]).2 =
        pre ++ .truncated :: post → post = [])) :=
  ⟨by decide, evidence_writer_budget 10 (by decide) [(4, 5), (4, 5), (4, 5), (4, 5)]⟩

end Workbench

namespace Workbench

/-! ## C8 — redaction completeness -/

/-- `s` occurs somewhere in `v` as a string **value** (array element or
map value, at any depth) — map keys are deliberately not string-value
positions, mirroring the traversal of `redact_obj`. -/
inductive StrValue : JValue → String → Prop where
  | str (s : String) : StrValue (.str s) s
  | arr {x : JValue} {xs : List JValue} {s : String} :
      x ∈ xs → StrValue x s → StrValue (.arr xs) s
  | obj {k : String} {v : JValue} {m : List (String × JValue)} {s : String} :
      (k, v) ∈ m → StrValue v s → StrValue (.obj m) s

/-- The conditions under which secret replacement is complete: nonempty,
no `<`, `>` or whitespace characters, and not a substring of the
replacement text `Bearer <redacted>` (hence not of `<redacted>`). -/
def GoodSecret (s : String) : Prop :=
  s ≠ "" ∧
  (∀ c ∈ s.data, c ≠ '<' ∧ c ≠ '>' ∧ isRegexSpace c = false) ∧
  occursInB s.data bearerRepl = false

theorem leadsWith_iff (p t : List Char) :
    leadsWith p t = true ↔ ∃ w, t = p ++ w := by
  induction p generalizing t with
  | nil => simp [leadsWith]
  | cons a as ih =>
    cases t with
    | nil => simp [leadsWith]
    | cons b bs =>
      simp only [leadsWith, Bool.and_eq_true, beq_iff_eq, ih]
      constructor
      · rintro ⟨rfl, w, rfl⟩
        exact ⟨w, rfl⟩
      · rintro ⟨w, hw⟩
        obtain ⟨rfl, rfl⟩ : b = a ∧ bs = as ++ w := by
          have h1 := (List.cons.injEq .. ▸ hw).1
          have h2 := (List.cons.injEq .. ▸ hw).2
          exact ⟨h1, h2⟩
        exact ⟨rfl, w, rfl⟩

theorem occursInB_iff (p t : List Char) :
    occursInB p t = true ↔ OccursIn p t := by
  induction t with
  | nil =>
    simp only [occursInB, OccursIn, List.isEmpty_iff]
    constructor
    · rintro rfl; exact ⟨[], [], rfl⟩
    · rintro ⟨u, v, huv⟩
      rcases List.append_eq_nil.mp huv.symm with ⟨h1, h2⟩
      exact (List.append_eq_nil.mp h1).2
  | cons c rest ih =>
    simp only [occursInB, Bool.or_eq_true, leadsWith_iff, ih]
    constructor
    · rintro (⟨w, hw⟩ | ⟨u, v, rfl⟩)
      · exact ⟨[], w, by simpa using hw⟩
      · exact ⟨c :: u, v, rfl⟩
    · rintro ⟨u, v, huv⟩
      cases u with
      | nil => exact Or.inl ⟨v, by simpa using huv⟩
      | cons u0 us =>
        right
        refine ⟨us, v, ?_⟩
        have := (List.cons.injEq .. ▸ huv).2
        exact this

theorem occurs_sub (p m u v : List Char) (h : OccursIn p m) :
    OccursIn p (u ++ m ++ v) := by
  obtain ⟨x, y, rfl⟩ := h
  exact ⟨u ++ x, y ++ v, by simp⟩

theorem occurs_drop (p t : List Char) (n : Nat) (h : OccursIn p (t.drop n)) :
    OccursIn p t := by
  have h2 := occurs_sub p (t.drop n) (t.take n) [] h
  simpa using h2

theorem occurs_tail (p : List Char) (c : Char) (rest : List Char)
    (h : OccursIn p rest) : OccursIn p (c :: rest) := by
  obtain ⟨x, y, rfl⟩ := h
  exact ⟨c :: x, y, rfl⟩

/-- Decompose an occurrence in a concatenation: inside the left part,
inside the right part, or spanning the seam. -/
theorem occurs_append (p a b : List Char) (h : OccursIn p (a ++ b)) :
    OccursIn p a ∨ OccursIn p b ∨
      ∃ p₁ p₂, p = p₁ ++ p₂ ∧ p₁ ≠ [] ∧ p₂ ≠ [] ∧
        (∃ u, a = u ++ p₁) ∧ (∃ v, b = p₂ ++ v) := by
  obtain ⟨u, v, huv⟩ := h
  rcases List.append_eq_append_iff.mp huv with ⟨w, hw1, hw2⟩ | ⟨w, hw1, hw2⟩
  · -- u ++ p = a ++ w, b = w ++ v
    rcases List.append_eq_append_iff.mp hw1 with ⟨y, hy1, hy2⟩ | ⟨y, hy1, hy2⟩
    · -- a = u ++ y, p = y ++ w
      by_cases hy0 : y = []
      · subst hy0
        refine Or.inr (Or.inl ⟨[], v, ?_⟩)
        simp only [List.nil_append] at hy2
        rw [hw2, hy2]
        simp
      · by_cases hw0 : w = []
        · subst hw0
          refine Or.inl ⟨u, [], ?_⟩
          rw [List.append_nil] at hy2
          rw [hy1, hy2, List.append_nil]
        · exact Or.inr (Or.inr ⟨y, w, hy2, hy0, hw0, ⟨u, hy1⟩, ⟨v, hw2⟩⟩)
    · -- u = a ++ y, w = y ++ p
      refine Or.inr (Or.inl ⟨y, v, ?_⟩)
      rw [hw2, hy2]
  · -- a = (u ++ p) ++ w, v = w ++ b
    exact Or.inl ⟨u, w, hw1⟩

/-- Split an occurrence at the head of a list: either the pattern is a
prefix or it occurs in the tail. -/
theorem occurs_cons (p : List Char) (c : Char) (rest : List Char)
    (h : OccursIn p (c :: rest)) :
    (∃ w, c :: rest = p ++ w) ∨ OccursIn p rest := by
  obtain ⟨u, v, huv⟩ := h
  cases u with
  | nil => exact Or.inl ⟨v, by simpa using huv⟩
  | cons u0 us =>
    right
    exact ⟨us, v, (List.cons.injEq .. ▸ huv).2⟩

theorem mem_of_getLast?_eq : ∀ (l : List Char) (a : Char),
    l.getLast? = some a → a ∈ l
  | [], a => by simp
  | [x], a => by
    intro h
    simp only [List.getLast?_singleton, Option.some.injEq] at h
    simp [h]
  | x :: y :: rest, a => by
    intro h
    rw [List.getLast?_cons_cons] at h
    exact List.mem_cons_of_mem x (mem_of_getLast?_eq (y :: rest) a h)

/-- A nonempty suffix of a list contains the list's last element. -/
theorem last_mem_of_suffix (R u p₁ : List Char) (ch : Char)
    (hR : R = u ++ p₁) (hne : p₁ ≠ []) (hlast : R.getLast? = some ch) :
    ch ∈ p₁ := by
  subst hR
  rw [List.getLast?_append_of_ne_nil u hne] at hlast
  exact mem_of_getLast?_eq p₁ ch hlast

/-- Split a prefix of a concatenation: either it sits inside the left
part, or it extends it. -/
theorem prefix_cut (A X q w : List Char) (h : A ++ X = q ++ w) :
    (∃ w2, A = q ++ w2) ∨ (∃ u, q = A ++ u ∧ ∃ w2, X = u ++ w2) := by
  rcases List.append_eq_append_iff.mp h with ⟨a', h1, h2⟩ | ⟨c', h1, h2⟩
  · exact Or.inr ⟨a', h1, w, h2⟩
  · exact Or.inl ⟨c', h1⟩

theorem occurs_in_redacted_bearer (p : List Char)
    (h : OccursIn p redactedChars) : OccursIn p bearerRepl := by
  have he : "Bearer ".data ++ redactedChars ++ [] = bearerRepl := by decide
  have h2 := occurs_sub p redactedChars ("Bearer ".data) [] h
  obtain ⟨x, y, hxy⟩ := h2
  exact ⟨x, y, by rw [← he, hxy]⟩

theorem occurs_nil (p : List Char) (h : OccursIn p []) : p = [] := by
  obtain ⟨u, v, huv⟩ := h
  rcases List.append_eq_nil.mp huv.symm with ⟨h1, _⟩
  exact (List.append_eq_nil.mp h1).2

/-- A prefix of `pyReplaceGo p "<redacted>" t` that avoids `<` is a
prefix of `t` itself (the replacement blocks all start with `<`). -/
theorem starts_pyReplaceGo (p : List Char) :
    ∀ t, ∀ q, '<' ∉ q → (∃ w, pyReplaceGo p redactedChars t = q ++ w) →
      ∃ w, t = q ++ w := by
  intro t
  induction t using pyReplaceGo.induct (p := p) (R := redactedChars) with
  | case1 =>
    intro q _ ⟨w, hw⟩
    simp only [pyReplaceGo] at hw
    rcases List.append_eq_nil.mp hw.symm with ⟨rfl, rfl⟩
    exact ⟨[], rfl⟩
  | case2 c rest h ih =>
    intro q hq ⟨w, hw⟩
    rw [pyReplaceGo, dif_pos h] at hw
    cases q with
    | nil => exact ⟨c :: rest, rfl⟩
    | cons q0 qs =>
      exfalso
      have hred : redactedChars = '<' :: "redacted>".data := by decide
      rw [hred, List.cons_append, List.cons_append] at hw
      have := (List.cons.injEq .. ▸ hw).1
      exact hq (this ▸ List.mem_cons_self q0 qs)
  | case3 c rest h ih =>
    intro q hq ⟨w, hw⟩
    rw [pyReplaceGo, dif_neg h] at hw
    cases q with
    | nil => exact ⟨c :: rest, rfl⟩
    | cons q0 qs =>
      rw [List.cons_append] at hw
      have h1 := (List.cons.injEq .. ▸ hw).1
      have h2 := (List.cons.injEq .. ▸ hw).2
      obtain ⟨w2, hw2⟩ := ih qs (fun hm => hq (List.mem_cons_of_mem q0 hm)) ⟨w, h2⟩
      exact ⟨w2, by rw [hw2, h1, List.cons_append]⟩

/-- After `t.replace(p, "<redacted>")`, the pattern `p` no longer
occurs, provided `p` avoids `<`/`>` and is not itself a substring of
`<redacted>`. -/
theorem pyReplaceGo_no_self (p : List Char) (hp : p ≠ [])
    (hlt : '<' ∉ p) (hgt : '>' ∉ p) (hR : ¬ OccursIn p redactedChars) :
    ∀ t, ¬ OccursIn p (pyReplaceGo p redactedChars t) := by
  intro t
  induction t using pyReplaceGo.induct (p := p) (R := redactedChars) with
  | case1 =>
    intro hocc
    simp only [pyReplaceGo] at hocc
    exact hp (occurs_nil p hocc)
  | case2 c rest h ih =>
    intro hocc
    rw [pyReplaceGo, dif_pos h] at hocc
    rcases occurs_append p _ _ hocc with hin | hin | ⟨p₁, p₂, hsplit, hne1, _, ⟨u, hu⟩, _⟩
    · exact hR hin
    · exact ih hin
    · have hmem : '>' ∈ p₁ :=
        last_mem_of_suffix redactedChars u p₁ '>' hu hne1 (by decide)
      exact hgt (hsplit ▸ List.mem_append.mpr (Or.inl hmem))
  | case3 c rest h ih =>
    intro hocc
    rw [pyReplaceGo, dif_neg h] at hocc
    rcases occurs_cons p c _ hocc with ⟨w, hw⟩ | hin
    · cases p with
      | nil => exact hp rfl
      | cons p0 ps =>
        rw [List.cons_append] at hw
        have h1 := (List.cons.injEq .. ▸ hw).1
        have h2 := (List.cons.injEq .. ▸ hw).2
        obtain ⟨w2, hw2⟩ := starts_pyReplaceGo (p0 :: ps) rest ps
          (fun hm => hlt (List.mem_cons_of_mem p0 hm)) ⟨w, h2⟩
        apply h
        refine ⟨hp, (leadsWith_iff _ _).mpr ⟨w2, ?_⟩⟩
        rw [hw2, h1, List.cons_append]
    · exact ih hin

/-- Replacing any (other) pattern cannot introduce an occurrence of a
string `q` that was absent, provided `q` avoids `<`/`>` and is not a
substring of `<redacted>`. -/
theorem pyReplaceGo_preserves (p q : List Char)
    (hlt : '<' ∉ q) (hgt : '>' ∉ q) (hR : ¬ OccursIn q redactedChars) :
    ∀ t, ¬ OccursIn q t → ¬ OccursIn q (pyReplaceGo p redactedChars t) := by
  intro t
  induction t using pyReplaceGo.induct (p := p) (R := redactedChars) with
  | case1 =>
    intro habs hocc
    rw [pyReplaceGo] at hocc
    exact habs hocc
  | case2 c rest h ih =>
    intro habs hocc
    rw [pyReplaceGo, dif_pos h] at hocc
    rcases occurs_append q _ _ hocc with hin | hin | ⟨p₁, p₂, hsplit, hne1, _, ⟨u, hu⟩, _⟩
    · exact hR hin
    · exact ih (fun hd => habs (occurs_drop q _ _ hd)) hin
    · have hmem : '>' ∈ p₁ :=
        last_mem_of_suffix redactedChars u p₁ '>' hu hne1 (by decide)
      exact hgt (hsplit ▸ List.mem_append.mpr (Or.inl hmem))
  | case3 c rest h ih =>
    intro habs hocc
    rw [pyReplaceGo, dif_neg h] at hocc
    rcases occurs_cons q c _ hocc with ⟨w, hw⟩ | hin
    · cases q with
      | nil => exact habs ⟨[], c :: rest, rfl⟩
      | cons q0 qs =>
        rw [List.cons_append] at hw
        have h1 := (List.cons.injEq .. ▸ hw).1
        have h2 := (List.cons.injEq .. ▸ hw).2
        obtain ⟨w2, hw2⟩ := starts_pyReplaceGo p rest qs
          (fun hm => hlt (List.mem_cons_of_mem q0 hm)) ⟨w, h2⟩
        exact habs ⟨[], w2, by rw [hw2, h1]; simp⟩
    · exact ih (fun hd => habs (occurs_tail q c rest hd)) hin

/-- A space-free prefix of `Bearer <redacted>` (possibly extended) is a
prefix of the literal `Bearer`. -/
theorem bearer_prefix_nospace (q w : List Char) (hq : bearerRepl = q ++ w)
    (hsp : ' ' ∉ q) : ∃ w2, bearerLit = q ++ w2 := by
  have hqtake : q = bearerRepl.take q.length := by
    rw [hq, List.take_left]
  by_cases hk : q.length ≤ 6
  · have hlit : bearerRepl.take q.length = bearerLit.take q.length := by
      have hsplit : bearerRepl = bearerLit ++ " <redacted>".data := by decide
      rw [hsplit, List.take_append_of_le_length (by simpa using hk)]
    have hfin : bearerLit = q ++ bearerLit.drop q.length := by
      conv_lhs => rw [← List.take_append_drop q.length bearerLit]
      rw [← hlit, ← hqtake]
    exact ⟨bearerLit.drop q.length, hfin⟩
  · exfalso
    apply hsp
    have h7 : ' ' ∈ bearerRepl.take 7 := by decide
    have htt : bearerRepl.take 7 = (bearerRepl.take q.length).take 7 := by
      rw [List.take_take]
      congr 1
      omega
    rw [htt, ← hqtake] at h7
    exact List.take_subset 7 q h7

theorem bearerMatchLen_some_starts (t : List Char) (n : Nat)
    (h : bearerMatchLen t = some n) : ∃ w, t = bearerLit ++ w := by
  unfold bearerMatchLen at h
  split_ifs at h with h1
  all_goals first | (exact (leadsWith_iff _ _).mp h1) | (simp at h)

/-- A space-free prefix of `bearerSub t` is a prefix of `t` itself. -/
theorem starts_bearerSub :
    ∀ t, ∀ q, ' ' ∉ q → (∃ w, bearerSub t = q ++ w) → ∃ w, t = q ++ w := by
  intro t
  induction t using bearerSub.induct with
  | case1 =>
    intro q _ ⟨w, hw⟩
    simp only [bearerSub] at hw
    rcases List.append_eq_nil.mp hw.symm with ⟨rfl, rfl⟩
    exact ⟨[], rfl⟩
  | case2 c rest n hm ih =>
    intro q hq ⟨w, hw⟩
    rw [bearerSub, hm] at hw
    rcases prefix_cut bearerRepl _ q w hw with ⟨w2, hw2⟩ | ⟨u, hu, _⟩
    · obtain ⟨w3, hw3⟩ := bearer_prefix_nospace q w2 hw2 hq
      obtain ⟨w4, hw4⟩ := bearerMatchLen_some_starts (c :: rest) n hm
      exact ⟨w3 ++ w4, by rw [hw4, hw3, List.append_assoc]⟩
    · exfalso
      apply hq
      rw [hu]
      exact List.mem_append.mpr (Or.inl (by decide))
  | case3 c rest hm ih =>
    intro q hq ⟨w, hw⟩
    rw [bearerSub, hm] at hw
    cases q with
    | nil => exact ⟨c :: rest, rfl⟩
    | cons q0 qs =>
      rw [List.cons_append] at hw
      have h1 := (List.cons.injEq .. ▸ hw).1
      have h2 := (List.cons.injEq .. ▸ hw).2
      obtain ⟨w2, hw2⟩ := ih qs (fun hmem => hq (List.mem_cons_of_mem q0 hmem)) ⟨w, h2⟩
      exact ⟨w2, by rw [hw2, h1, List.cons_append]⟩

/-- The Bearer substitution cannot introduce an occurrence of a string
`q` that was absent, provided `q` has no space or `>` and is not a
substring of `Bearer <redacted>`. -/
theorem bearerSub_preserves (q : List Char) (hsp : ' ' ∉ q) (hgt : '>' ∉ q)
    (hBR : ¬ OccursIn q bearerRepl) :
    ∀ t, ¬ OccursIn q t → ¬ OccursIn q (bearerSub t) := by
  intro t
  induction t using bearerSub.induct with
  | case1 =>
    intro habs hocc
    rw [bearerSub] at hocc
    exact habs hocc
  | case2 c rest n hm ih =>
    intro habs hocc
    rw [bearerSub, hm] at hocc
    rcases occurs_append q _ _ hocc with hin | hin | ⟨p₁, p₂, hsplit, hne1, _, ⟨u, hu⟩, _⟩
    · exact hBR hin
    · exact ih (fun hd => habs (occurs_drop q _ _ hd)) hin
    · have hmem : '>' ∈ p₁ :=
        last_mem_of_suffix bearerRepl u p₁ '>' hu hne1 (by decide)
      exact hgt (hsplit ▸ List.mem_append.mpr (Or.inl hmem))
  | case3 c rest hm ih =>
    intro habs hocc
    rw [bearerSub, hm] at hocc
    rcases occurs_cons q c _ hocc with ⟨w, hw⟩ | hin
    · cases q with
      | nil => exact habs ⟨[], c :: rest, rfl⟩
      | cons q0 qs =>
        rw [List.cons_append] at hw
        have h1 := (List.cons.injEq .. ▸ hw).1
        have h2 := (List.cons.injEq .. ▸ hw).2
        obtain ⟨w2, hw2⟩ := starts_bearerSub rest qs
          (fun hmem => hsp (List.mem_cons_of_mem q0 hmem)) ⟨w, h2⟩
        exact habs ⟨[], w2, by rw [hw2, h1]; simp⟩
    · exact ih (fun hd => habs (occurs_tail q c rest hd)) hin

/-- **C8 counterexample.** Map keys are not redacted: with the known
secret `tok123`, redacting `{"tok123": "x"}` leaves the key intact, and
the serialized result still contains the secret, contradicting the
claimed completeness of redaction over the serialized value. -/
theorem redact_obj_key_cex :
    occursInB "tok123".data
      (jsonDumps (redact_obj ["tok123"] (.obj [("tok123", .str "x")]))) = true ∧
    "tok123" ≠ "" := by
  decide

end Workbench

namespace Workbench

instance (s : String) : Decidable (GoodSecret s) := by
  unfold GoodSecret
  infer_instance

theorem good_secret_facts (s : String) (hg : GoodSecret s) :
    s.data ≠ [] ∧ '<' ∉ s.data ∧ '>' ∉ s.data ∧ ' ' ∉ s.data ∧
    ¬ OccursIn s.data redactedChars ∧ ¬ OccursIn s.data bearerRepl := by
  obtain ⟨hne, hchars, hbr⟩ := hg
  have hnocc : ¬ OccursIn s.data bearerRepl := by
    intro hocc
    have hb := (occursInB_iff _ _).mpr hocc
    rw [hbr] at hb
    exact Bool.noConfusion hb
  refine ⟨?_, ?_, ?_, ?_, ?_, hnocc⟩
  · intro hc
    apply hne
    cases s with
    | mk data => simp_all
  · intro hm; exact ((hchars _ hm).1) rfl
  · intro hm; exact ((hchars _ hm).2.1) rfl
  · intro hm
    have hsp := (hchars _ hm).2.2
    simp [isRegexSpace] at hsp
  · intro hocc; exact hnocc (occurs_in_redacted_bearer _ hocc)

theorem redactStep_preserves (sOther : String) (q : List Char)
    (hlt : '<' ∉ q) (hgt : '>' ∉ q) (hR : ¬ OccursIn q redactedChars)
    (t : List Char) (habs : ¬ OccursIn q t) :
    ¬ OccursIn q (redactStep t sOther) := by
  unfold redactStep
  split_ifs with hs
  · have hdata : sOther.data ≠ [] := by
      intro hc
      apply hs
      cases sOther with
      | mk data => simp_all
    rw [pyReplace, if_neg hdata]
    exact pyReplaceGo_preserves sOther.data q hlt hgt hR t habs
  · exact habs

theorem foldl_redactStep_preserves (l : List String) (q : List Char)
    (hlt : '<' ∉ q) (hgt : '>' ∉ q) (hR : ¬ OccursIn q redactedChars) :
    ∀ t, ¬ OccursIn q t → ¬ OccursIn q (l.foldl redactStep t) := by
  induction l with
  | nil => intro t habs; exact habs
  | cons s rest ih =>
    intro t habs
    rw [List.foldl_cons]
    exact ih _ (redactStep_preserves s q hlt hgt hR t habs)

theorem foldl_redactStep_eliminates (l : List String)
    (hgood : ∀ s ∈ l, GoodSecret s) :
    ∀ t, ∀ sec ∈ l, ¬ OccursIn sec.data (l.foldl redactStep t) := by
  induction l with
  | nil => intro t sec hsec; exact absurd hsec (List.not_mem_nil sec)
  | cons s rest ih =>
    intro t sec hsec
    rw [List.foldl_cons]
    obtain ⟨hne, hlt, hgt, _, hR, _⟩ :=
      good_secret_facts sec (hgood sec hsec)
    rcases List.mem_cons.mp hsec with rfl | hrest
    · have hstep : ¬ OccursIn sec.data (redactStep t sec) := by
        unfold redactStep
        rw [if_pos (fun hc => hne (by simpa using congrArg String.data hc)),
          pyReplace, if_neg hne]
        exact pyReplaceGo_no_self sec.data hne hlt hgt hR t
      exact foldl_redactStep_preserves rest sec.data hlt hgt hR _ hstep
    · exact ih (fun s2 h2 => hgood s2 (List.mem_cons_of_mem s h2)) _ sec hrest

/-- `redact_text` removes every occurrence of every good secret. -/
theorem redact_text_no_secret (secrets : List String)
    (hgood : ∀ s ∈ secrets, GoodSecret s) (t : List Char) :
    ∀ sec ∈ secrets, ¬ OccursIn sec.data (redact_text secrets t) := by
  intro sec hsec
  obtain ⟨_, _, hgt, hsp, _, hBR⟩ := good_secret_facts sec (hgood sec hsec)
  unfold redact_text
  exact bearerSub_preserves sec.data hsp hgt hBR _
    (foldl_redactStep_eliminates secrets hgood t sec hsec)

end Workbench

namespace Workbench

theorem redactList_mem (secrets : List String) :
    ∀ (xs : List JValue) (x : JValue), x ∈ redactList secrets xs →
      ∃ y ∈ xs, x = redact_obj secrets y := by
  intro xs
  induction xs with
  | nil => intro x hx; rw [redactList] at hx; exact absurd hx (List.not_mem_nil x)
  | cons y ys ih =>
    intro x hx
    rw [redactList] at hx
    rcases List.mem_cons.mp hx with rfl | hx2
    · exact ⟨y, List.mem_cons_self y ys, rfl⟩
    · obtain ⟨z, hz, hz2⟩ := ih x hx2
      exact ⟨z, List.mem_cons_of_mem y hz, hz2⟩

theorem redactPairs_mem (secrets : List String) :
    ∀ (m : List (String × JValue)) (k : String) (v' : JValue),
      (k, v') ∈ redactPairs secrets m →
      (isSpecialKey k = true ∧ v' = .str "<redacted>") ∨
      (∃ v0, (k, v0) ∈ m ∧ v' = redact_obj secrets v0) := by
  intro m
  induction m with
  | nil =>
    intro k v' h
    rw [redactPairs] at h
    exact absurd h (List.not_mem_nil _)
  | cons kv rest ih =>
    intro k v' h
    obtain ⟨k0, v0⟩ := kv
    rw [redactPairs] at h
    rcases List.mem_cons.mp h with heq | h2
    · by_cases hsp : isSpecialKey k0 = true
      · rw [if_pos hsp] at heq
        have hk := (Prod.mk.injEq .. ▸ heq).1
        have hv := (Prod.mk.injEq .. ▸ heq).2
        exact Or.inl ⟨hk ▸ hsp, hv⟩
      · rw [if_neg hsp] at heq
        have hk := (Prod.mk.injEq .. ▸ heq).1
        have hv := (Prod.mk.injEq .. ▸ heq).2
        exact Or.inr ⟨v0, hk ▸ List.mem_cons_self _ _, hv⟩
    · rcases ih k v' h2 with hl | ⟨w, hw, hw2⟩
      · exact Or.inl hl
      · exact Or.inr ⟨w, List.mem_cons_of_mem _ hw, hw2⟩

theorem redactPairs_special (secrets : List String) :
    ∀ (m : List (String × JValue)) (k : String) (val : JValue),
      (k, val) ∈ m → isSpecialKey k = true →
      (k, JValue.str "<redacted>") ∈ redactPairs secrets m := by
  intro m
  induction m with
  | nil => intro k val h _; exact absurd h (List.not_mem_nil _)
  | cons kv rest ih =>
    intro k val h hsp
    obtain ⟨k0, v0⟩ := kv
    rw [redactPairs]
    rcases List.mem_cons.mp h with heq | h2
    · have hk := (Prod.mk.injEq .. ▸ heq).1
      subst hk
      rw [if_pos hsp]
      exact List.mem_cons_self _ _
    · exact List.mem_cons_of_mem _ (ih k val h2 hsp)

/-- Every string value of a redacted value is free of every good
secret. -/
theorem strvalue_redact (secrets : List String)
    (hgood : ∀ s ∈ secrets, GoodSecret s) :
    ∀ (w : JValue) (out : String), StrValue w out →
      ∀ v, w = redact_obj secrets v →
        ∀ sec ∈ secrets, ¬ OccursIn sec.data out.data := by
  intro w out hsv
  induction hsv with
  | str s =>
    intro v hv sec hsec
    cases v with
    | str s0 =>
      rw [redact_obj] at hv
      have hs : s = (⟨redact_text secrets s0.data⟩ : String) :=
        JValue.str.injEq .. ▸ hv
      rw [hs]
      exact redact_text_no_secret secrets hgood s0.data sec hsec
    | null => rw [redact_obj] at hv; exact absurd hv (by simp)
    | bool b => rw [redact_obj] at hv; exact absurd hv (by simp)
    | num n => rw [redact_obj] at hv; exact absurd hv (by simp)
    | arr xs => rw [redact_obj] at hv; exact absurd hv (by simp)
    | obj m => rw [redact_obj] at hv; exact absurd hv (by simp)
  | arr hmem hsub ih =>
    intro v hv sec hsec
    cases v with
    | arr ys =>
      rw [redact_obj] at hv
      have hxs := JValue.arr.injEq .. ▸ hv
      obtain ⟨y, _, hy2⟩ := redactList_mem secrets ys _ (hxs ▸ hmem)
      exact ih y hy2 sec hsec
    | str s0 => rw [redact_obj] at hv; exact absurd hv (by simp)
    | null => rw [redact_obj] at hv; exact absurd hv (by simp)
    | bool b => rw [redact_obj] at hv; exact absurd hv (by simp)
    | num n => rw [redact_obj] at hv; exact absurd hv (by simp)
    | obj m => rw [redact_obj] at hv; exact absurd hv (by simp)
  | obj hmem hsub ih =>
    intro v hv sec hsec
    cases v with
    | obj m0 =>
      rw [redact_obj] at hv
      have hm := JValue.obj.injEq .. ▸ hv
      rcases redactPairs_mem secrets m0 _ _ (hm ▸ hmem) with ⟨_, hval⟩ | ⟨v0, _, hval⟩
      · rename_i k x s _
        rw [hval] at hsub
        cases hsub with
        | str =>
          obtain ⟨_, _, _, _, hR, _⟩ := good_secret_facts sec (hgood sec hsec)
          exact hR
      · exact ih v0 hval sec hsec
    | str s0 => rw [redact_obj] at hv; exact absurd hv (by simp)
    | null => rw [redact_obj] at hv; exact absurd hv (by simp)
    | bool b => rw [redact_obj] at hv; exact absurd hv (by simp)
    | num n => rw [redact_obj] at hv; exact absurd hv (by simp)
    | arr xs => rw [redact_obj] at hv; exact absurd hv (by simp)

end Workbench

namespace Workbench

/-! ### No Bearer-token match survives the substitution -/

/-- `t` contains no match of `Bearer\s+[A-Za-z0-9._-]+` at any
position. -/
def bearerFree : List Char → Bool
  | [] => true
  | c :: rest => (bearerMatchLen (c :: rest)).isNone && bearerFree rest

/-- No position inside the replacement text can start a match, whatever
follows it (position 0 dies at the `<` after the space, later positions
die on the first letter), so the block is transparent to the check. -/
theorem bearerFree_append_repl (X : List Char) :
    bearerFree (bearerRepl ++ X) = bearerFree X := rfl

theorem takeWhile_all_stop (pred : Char → Bool) :
    ∀ (sp : List Char), (∀ x ∈ sp, pred x = true) →
      ∀ (d : Char) (w : List Char), pred d = false →
        (sp ++ d :: w).takeWhile pred = sp := by
  intro sp
  induction sp with
  | nil =>
    intro _ d w hd
    simp [List.takeWhile, hd]
  | cons x xs ih =>
    intro hall d w hd
    rw [List.cons_append, List.takeWhile_cons, hall x (List.mem_cons_self x xs),
      ih (fun y hy => hall y (List.mem_cons_of_mem x hy)) d w hd]
    simp

theorem drop_after_takeWhile (p : Char → Bool) :
    ∀ l : List Char, l.drop (l.takeWhile p).length = l.dropWhile p := by
  intro l
  induction l with
  | nil => rfl
  | cons x xs ih =>
    by_cases hx : p x
    · rw [List.takeWhile_cons, if_pos hx, List.dropWhile_cons_of_pos hx,
        List.length_cons, List.drop_succ_cons]
      exact ih
    · rw [List.takeWhile_cons, if_neg hx, List.dropWhile_cons_of_neg hx]
      rfl

theorem token_not_space (d : Char) (h : isTokenChar d = true) :
    isRegexSpace d = false := by
  cases hsp : isRegexSpace d
  · rfl
  · exfalso
    have h6 : d = ' ' ∨ d = '\t' ∨ d = '\n' ∨ d = '\r' ∨ d = '\x0b' ∨ d = '\x0c' := by
      by_contra hcon
      push_neg at hcon
      obtain ⟨h1, h2, h3, h4, h5, h6⟩ := hcon
      simp [isRegexSpace, h1, h2, h3, h4, h5, h6] at hsp
    rcases h6 with rfl | rfl | rfl | rfl | rfl | rfl <;> simp [isTokenChar] at h

/-- Assemble a match from its components. -/
theorem mkMatch (sp w : List Char) (d : Char) (hne : sp ≠ [])
    (hsp : ∀ x ∈ sp, isRegexSpace x = true) (hd : isTokenChar d = true) :
    ∃ n, bearerMatchLen (bearerLit ++ (sp ++ d :: w)) = some n := by
  have hdrop : (bearerLit ++ (sp ++ d :: w)).drop 6 = sp ++ d :: w := by
    have h6 : (6 : Nat) = bearerLit.length := by decide
    rw [h6, List.drop_left]
  have htw : (sp ++ d :: w).takeWhile isRegexSpace = sp :=
    takeWhile_all_stop isRegexSpace sp hsp d w (token_not_space d hd)
  have hdrop2 : (sp ++ d :: w).drop sp.length = d :: w := List.drop_left sp (d :: w)
  refine ⟨6 + sp.length + ((d :: w).takeWhile isTokenChar).length, ?_⟩
  unfold bearerMatchLen
  rw [if_pos ((leadsWith_iff _ _).mpr ⟨sp ++ d :: w, rfl⟩)]
  rw [hdrop, htw, hdrop2]
  rw [if_neg (by simpa [List.isEmpty_iff] using hne)]
  rw [if_neg (by simp [List.takeWhile_cons, hd])]

/-- Decompose a successful match into literal, spaces and first token
character. -/
theorem matchStructure (t : List Char) (n : Nat)
    (h : bearerMatchLen t = some n) :
    ∃ sp d w, t = bearerLit ++ (sp ++ d :: w) ∧ sp ≠ [] ∧
      (∀ x ∈ sp, isRegexSpace x = true) ∧ isTokenChar d = true := by
  obtain ⟨w0, rfl⟩ := bearerMatchLen_some_starts t n h
  have hdrop : (bearerLit ++ w0).drop 6 = w0 := by
    have h6 : (6 : Nat) = bearerLit.length := by decide
    rw [h6, List.drop_left]
  unfold bearerMatchLen at h
  rw [hdrop, if_pos ((leadsWith_iff _ _).mpr ⟨w0, rfl⟩),
    drop_after_takeWhile isRegexSpace w0] at h
  have hsplit := List.takeWhile_append_dropWhile isRegexSpace w0
  split_ifs at h with h2 h3
  all_goals try simp at h
  cases hw1 : w0.dropWhile isRegexSpace with
  | nil =>
    rw [hw1] at h3
    simp [List.takeWhile] at h3
  | cons d w2 =>
    have hd : isTokenChar d = true := by
      by_contra hd
      rw [hw1, List.takeWhile_cons, if_neg (by simpa using hd)] at h3
      simp at h3
    refine ⟨w0.takeWhile isRegexSpace, d, w2, ?_, ?_, ?_, hd⟩
    · conv_lhs => rw [← hsplit, hw1]
    · simpa [List.isEmpty_iff] using h2
    · intro x hx
      exact List.mem_takeWhile_imp hx

/-- Split a prefix of `bearerSub t`: either it is a prefix of `t`, or it
ends inside (or engulfing) a replacement block sitting at a match
position of `t`. -/
theorem starts_bearerSub_split :
    ∀ t q, (∃ w, bearerSub t = q ++ w) →
      (∃ w, t = q ++ w) ∨
      (∃ q₁ u, q = q₁ ++ u ∧ u ≠ [] ∧
        ((∃ w2, bearerRepl = u ++ w2) ∨ (∃ w3, u = bearerRepl ++ w3)) ∧
        (∃ w4, t = q₁ ++ w4 ∧ ∃ n2, bearerMatchLen w4 = some n2)) := by
  intro t
  induction t using bearerSub.induct with
  | case1 =>
    intro q ⟨w, hw⟩
    simp only [bearerSub] at hw
    rcases List.append_eq_nil.mp hw.symm with ⟨rfl, rfl⟩
    exact Or.inl ⟨[], rfl⟩
  | case2 c rest n hm ih =>
    intro q ⟨w, hw⟩
    rw [bearerSub, hm] at hw
    rcases prefix_cut bearerRepl _ q w hw with ⟨w2, hw2⟩ | ⟨u, hu, w2, hw2⟩
    · by_cases hq0 : q = []
      · subst hq0
        exact Or.inl ⟨c :: rest, rfl⟩
      · exact Or.inr ⟨[], q, (List.nil_append q).symm, hq0, Or.inl ⟨w2, hw2⟩,
          c :: rest, (List.nil_append _).symm, n, hm⟩
    · refine Or.inr ⟨[], q, (List.nil_append q).symm, ?_, Or.inr ⟨u, hu⟩,
        c :: rest, (List.nil_append _).symm, n, hm⟩
      rw [hu]
      intro hc
      exact absurd (List.append_eq_nil.mp hc).1 (by decide)
  | case3 c rest hm ih =>
    intro q ⟨w, hw⟩
    rw [bearerSub, hm] at hw
    cases q with
    | nil => exact Or.inl ⟨c :: rest, rfl⟩
    | cons q0 qs =>
      rw [List.cons_append] at hw
      have h1 := (List.cons.injEq .. ▸ hw).1
      have h2 := (List.cons.injEq .. ▸ hw).2
      rcases ih qs ⟨w, h2⟩ with ⟨w3, hw3⟩ |
        ⟨q₁, u, hsplit, hune, hrepl, w4, hw4, n2, hm2⟩
      · exact Or.inl ⟨w3, by rw [hw3, h1, List.cons_append]⟩
      · exact Or.inr ⟨q0 :: q₁, u, by rw [hsplit, List.cons_append], hune, hrepl,
          w4, by rw [hw4, h1, List.cons_append], n2, hm2⟩

theorem snoc_split (A C : List Char) (b : Char) (l₂ : List Char) (d : Char)
    (h : A ++ b :: l₂ = C ++ [d]) (hb : b ∉ C) :
    A = C ∧ b = d ∧ l₂ = [] := by
  rcases List.append_eq_append_iff.mp h with ⟨y, hy1, hy2⟩ | ⟨y, hy1, hy2⟩
  · cases y with
    | nil =>
      rw [List.append_nil] at hy1
      have hbd := (List.cons.injEq .. ▸ hy2).1
      have hl := (List.cons.injEq .. ▸ hy2).2
      exact ⟨hy1.symm, hbd, hl⟩
    | cons y0 ys =>
      exfalso
      have hb0 := (List.cons.injEq .. ▸ hy2).1
      apply hb
      rw [hy1, ← hb0]
      exact List.mem_append.mpr (Or.inr (List.mem_cons_self b ys))
  · cases y with
    | nil =>
      rw [List.append_nil] at hy1
      simp only [List.nil_append] at hy2
      have hbd := (List.cons.injEq .. ▸ hy2).1
      have hl := (List.cons.injEq .. ▸ hy2).2
      exact ⟨hy1, hbd.symm, hl.symm⟩
    | cons y0 ys =>
      exfalso
      have hlen := congrArg List.length hy2
      simp at hlen

end Workbench

namespace Workbench

/-- A position that did not match cannot start matching after the tail
is rewritten. -/
theorem bearerSub_no_new_match (c : Char) (rest : List Char)
    (hm : bearerMatchLen (c :: rest) = none) :
    bearerMatchLen (c :: bearerSub rest) = none := by
  cases hsome : bearerMatchLen (c :: bearerSub rest) with
  | none => rfl
  | some n =>
    exfalso
    obtain ⟨sp, d, w, hshape, hspne, hspall, hdtok⟩ := matchStructure _ n hsome
    have hlit : bearerLit = 'B' :: "earer".data := by decide
    rw [hlit, List.cons_append] at hshape
    have hc : c = 'B' := (List.cons.injEq .. ▸ hshape).1
    have hrest : bearerSub rest = "earer".data ++ (sp ++ d :: w) :=
      (List.cons.injEq .. ▸ hshape).2
    have hq : ∃ w0, bearerSub rest = ("earer".data ++ (sp ++ [d])) ++ w0 :=
      ⟨w, by rw [hrest]; simp⟩
    rcases starts_bearerSub_split rest _ hq with ⟨w0, hw0⟩ |
      ⟨q₁, u, hsplit, hune, hrepl, w4, hw4, n2, hm2⟩
    · -- the whole prefix was copied from `rest`
      obtain ⟨n3, hn3⟩ := mkMatch sp w0 d hspne hspall hdtok
      rw [hc] at hm
      have hshape2 : ('B' :: rest) = bearerLit ++ (sp ++ d :: w0) := by
        rw [hw0, hlit]
        simp
      rw [hshape2, hn3] at hm
      exact Option.noConfusion hm
    · rcases hrepl with ⟨w2, hw2⟩ | ⟨w3, hw3⟩
      · -- `u` is a nonempty prefix of the replacement, so starts with B
        cases u with
        | nil => exact hune rfl
        | cons u0 us =>
          have hu0 : u0 = 'B' := by
            have hBR : bearerRepl = 'B' :: "earer <redacted>".data := by decide
            rw [hBR] at hw2
            exact ((List.cons.injEq .. ▸ hw2).1).symm
          subst hu0
          have hBnot : 'B' ∉ "earer".data ++ sp := by
            intro hmem
            rcases List.mem_append.mp hmem with h1 | h1
            · exact absurd h1 (by decide)
            · have hs := hspall _ h1
              simp [isRegexSpace] at hs
          have hsplit2 : q₁ ++ 'B' :: us = ("earer".data ++ sp) ++ [d] := by
            rw [← hsplit]
            simp
          obtain ⟨hq₁, hBd, hus⟩ := snoc_split q₁ ("earer".data ++ sp) 'B' us d hsplit2 hBnot
          obtain ⟨w5, hw5⟩ := bearerMatchLen_some_starts w4 n2 hm2
          have hw4B : w4 = 'B' :: ("earer".data ++ w5) := by
            rw [hw5, hlit, List.cons_append]
          obtain ⟨n3, hn3⟩ := mkMatch sp ("earer".data ++ w5) 'B' hspne hspall (by decide)
          rw [hc] at hm
          have hshape2 : ('B' :: rest) = bearerLit ++ (sp ++ 'B' :: ("earer".data ++ w5)) := by
            rw [hw4, hq₁, hw4B, hlit]
            simp
          rw [hshape2, hn3] at hm
          exact Option.noConfusion hm
      · -- `u` engulfs the replacement, so `<` would sit inside the prefix
        have hqlt : '<' ∉ "earer".data ++ (sp ++ [d]) := by
          intro hmem
          rcases List.mem_append.mp hmem with h1 | h1
          · exact absurd h1 (by decide)
          · rcases List.mem_append.mp h1 with h2 | h2
            · have hs := hspall _ h2
              simp [isRegexSpace] at hs
            · rcases List.mem_singleton.mp h2 with rfl
              simp [isTokenChar] at hdtok
        apply hqlt
        rw [hsplit, hw3]
        have hmem : '<' ∈ bearerRepl := by decide
        exact List.mem_append.mpr (Or.inr (List.mem_append.mpr (Or.inl hmem)))

/-- After `bearerSub`, no Bearer-token match remains anywhere. -/
theorem bearerFree_bearerSub : ∀ t, bearerFree (bearerSub t) = true := by
  intro t
  induction t using bearerSub.induct with
  | case1 => simp [bearerSub, bearerFree]
  | case2 c rest n hm ih =>
    rw [bearerSub, hm, bearerFree_append_repl]
    exact ih
  | case3 c rest hm ih =>
    rw [bearerSub, hm, bearerFree, bearerSub_no_new_match c rest hm]
    simpa using ih

end Workbench

namespace Workbench

/-- Every string value of a redacted value is free of Bearer-token
matches. -/
theorem strvalue_redact_bearer (secrets : List String) :
    ∀ (w : JValue) (out : String), StrValue w out →
      ∀ v, w = redact_obj secrets v → bearerFree out.data = true := by
  intro w out hsv
  induction hsv with
  | str s =>
    intro v hv
    cases v with
    | str s0 =>
      rw [redact_obj] at hv
      have hs : s = (⟨redact_text secrets s0.data⟩ : String) :=
        JValue.str.injEq .. ▸ hv
      rw [hs]
      exact bearerFree_bearerSub _
    | null => rw [redact_obj] at hv; exact absurd hv (by simp)
    | bool b => rw [redact_obj] at hv; exact absurd hv (by simp)
    | num n => rw [redact_obj] at hv; exact absurd hv (by simp)
    | arr xs => rw [redact_obj] at hv; exact absurd hv (by simp)
    | obj m => rw [redact_obj] at hv; exact absurd hv (by simp)
  | arr hmem hsub ih =>
    intro v hv
    cases v with
    | arr ys =>
      rw [redact_obj] at hv
      have hxs := JValue.arr.injEq .. ▸ hv
      obtain ⟨y, _, hy2⟩ := redactList_mem secrets ys _ (hxs ▸ hmem)
      exact ih y hy2
    | str s0 => rw [redact_obj] at hv; exact absurd hv (by simp)
    | null => rw [redact_obj] at hv; exact absurd hv (by simp)
    | bool b => rw [redact_obj] at hv; exact absurd hv (by simp)
    | num n => rw [redact_obj] at hv; exact absurd hv (by simp)
    | obj m => rw [redact_obj] at hv; exact absurd hv (by simp)
  | obj hmem hsub ih =>
    intro v hv
    cases v with
    | obj m0 =>
      rw [redact_obj] at hv
      have hm := JValue.obj.injEq .. ▸ hv
      rcases redactPairs_mem secrets m0 _ _ (hm ▸ hmem) with ⟨_, hval⟩ | ⟨v0, _, hval⟩
      · rw [hval] at hsub
        cases hsub with
        | str => decide
      · exact ih v0 hval
    | str s0 => rw [redact_obj] at hv; exact absurd hv (by simp)
    | null => rw [redact_obj] at hv; exact absurd hv (by simp)
    | bool b => rw [redact_obj] at hv; exact absurd hv (by simp)
    | num n => rw [redact_obj] at hv; exact absurd hv (by simp)
    | arr xs => rw [redact_obj] at hv; exact absurd hv (by simp)

/-- **C8 (amended).** For known secrets that are nonempty, contain no
`<`, `>` or whitespace, and are not substrings of `Bearer <redacted>`:
after redaction no string value anywhere in the result contains any
secret, and no string value contains a `Bearer\s+[A-Za-z0-9._-]+`
match; map entries whose key lowercases to `authorization`, `api_key`
or `apikey` are replaced wholesale by `<redacted>` without descending.
Map keys themselves are not redacted (see the counterexample), so the
claimed guarantee over the whole serialized value does not hold. -/
theorem redact_obj_complete (secrets : List String)
    (hgood : ∀ s ∈ secrets, GoodSecret s) (v : JValue) :
    (∀ out, StrValue (redact_obj secrets v) out →
      (∀ sec ∈ secrets, ¬ OccursIn sec.data out.data) ∧
      bearerFree out.data = true) ∧
    (∀ m k val, v = .obj m → (k, val) ∈ m → isSpecialKey k = true →
      redact_obj secrets v = .obj (redactPairs secrets m) ∧
      (k, JValue.str "<redacted>") ∈ redactPairs secrets m) := by
  constructor
  · intro out hsv
    exact ⟨strvalue_redact secrets hgood _ out hsv v rfl,
      strvalue_redact_bearer secrets _ out hsv v rfl⟩
  · intro m k val hv hmem hsp
    subst hv
    exact ⟨by rw [redact_obj], redactPairs_special secrets m k val hmem hsp⟩

/-- Witness for `redact_obj_complete` with secret `sk9` and a value
carrying the secret in a normal entry and an `authorization` entry. -/
theorem redact_obj_complete_witness :
    (∀ out, StrValue (redact_obj ["sk9"]
        (.obj [("authorization", .str "sk9"), ("x", .str "A sk9 B")])) out →
      (∀ sec ∈ ["sk9"], ¬ OccursIn sec.data out.data) ∧
      bearerFree out.data = true) ∧
    (∀ m k val, (JValue.obj [("authorization", .str "sk9"), ("x", .str "A sk9 B")]) = .obj m →
      (k, val) ∈ m → isSpecialKey k = true →
      redact_obj ["sk9"] (.obj [("authorization", .str "sk9"), ("x", .str "A sk9 B")]) =
        .obj (redactPairs ["sk9"] m) ∧
      (k, JValue.str "<redacted>") ∈ redactPairs ["sk9"] m) :=
  redact_obj_complete ["sk9"] (by decide)
    (.obj [("authorization", .str "sk9"), ("x", .str "A sk9 B")])

end Workbench

namespace Workbench

/-! ## JSON parsing (`json.loads`)

A recursive-descent parser for the JSON fragment of `JValue` (strict
mode: raw control characters in strings are rejected, `NaN`-style
extensions and floats are outside the fragment and fail). The fuel is
structural and decremented on every recursive call; `jsonLoads` passes
more than enough for its input. -/

/-- JSON whitespace accepted between tokens. -/
def jsonWs (c : Char) : Bool :=
  c = ' ' || c = '\t' || c = '\n' || c = '\r'

def parseHexDigit (c : Char) : Option Nat :=
  if '0' ≤ c ∧ c ≤ '9' then some (c.toNat - '0'.toNat)
  else if 'a' ≤ c ∧ c ≤ 'f' then some (c.toNat - 'a'.toNat + 10)
  else if 'A' ≤ c ∧ c ≤ 'F' then some (c.toNat - 'A'.toNat + 10)
  else none

/-- Parse the body of a JSON string after the opening quote, returning
the contents and what follows the closing quote. Lone-surrogate
`\uXXXX` escapes are outside the embedding (they produce unpaired
surrogates, which `Char` cannot carry). -/
def parseStringBody (fuel0 : Nat) (l : List Char) : Option (List Char × List Char) :=
  match fuel0 with
  | 0 => none
  | fuel + 1 =>
    match l with
    | [] => none
    | c :: rest =>
    if c = '"' then some ([], rest)
    else if c = '\\' then
      match rest with
      | [] => none
      | e :: r0 =>
        if e = '"' then (parseStringBody fuel r0).map (fun p => ('"' :: p.1, p.2))
        else if e = '\\' then (parseStringBody fuel r0).map (fun p => ('\\' :: p.1, p.2))
        else if e = '/' then (parseStringBody fuel r0).map (fun p => ('/' :: p.1, p.2))
        else if e = 'b' then (parseStringBody fuel r0).map (fun p => ('\x08' :: p.1, p.2))
        else if e = 'f' then (parseStringBody fuel r0).map (fun p => ('\x0c' :: p.1, p.2))
        else if e = 'n' then (parseStringBody fuel r0).map (fun p => ('\n' :: p.1, p.2))
        else if e = 'r' then (parseStringBody fuel r0).map (fun p => ('\x0d' :: p.1, p.2))
        else if e = 't' then (parseStringBody fuel r0).map (fun p => ('\t' :: p.1, p.2))
        else if e = 'u' then
          match r0 with
          | h1 :: h2 :: h3 :: h4 :: r =>
            match parseHexDigit h1, parseHexDigit h2, parseHexDigit h3, parseHexDigit h4 with
            | some d1, some d2, some d3, some d4 =>
              if h : (((d1 * 16 + d2) * 16 + d3) * 16 + d4).isValidChar then
                (parseStringBody fuel r).map
                  (fun p => (Char.ofNatAux (((d1 * 16 + d2) * 16 + d3) * 16 + d4) h :: p.1, p.2))
              else none
            | _, _, _, _ => none
          | _ => none
        else none
    else if c.toNat < 32 then none
    else (parseStringBody fuel rest).map (fun p => (c :: p.1, p.2))

/-- Parse an unsigned JSON integer (no leading zeros; a following `.`,
`e` or `E` would make it a float, outside the fragment). -/
def parseNatNum (s : List Char) : Option (Nat × List Char) :=
  match s with
  | [] => none
  | c :: rest =>
    if c = '0' then
      match rest with
      | d :: _ =>
        if d.isDigit || d = '.' || d = 'e' || d = 'E' then none
        else some (0, rest)
      | [] => some (0, [])
    else if c.isDigit then
      let digits := (c :: rest).takeWhile Char.isDigit
      let after := (c :: rest).drop digits.length
      match after with
      | d :: _ =>
        if d = '.' || d = 'e' || d = 'E' then none
        else some (digits.foldl (fun acc ch => acc * 10 + (ch.toNat - '0'.toNat)) 0, after)
      | [] => some (digits.foldl (fun acc ch => acc * 10 + (ch.toNat - '0'.toNat)) 0, after)
    else none

def parseIntNum (s : List Char) : Option (Int × List Char) :=
  match s with
  | '-' :: rest => (parseNatNum rest).map (fun p => (-(p.1 : Int), p.2))
  | _ => (parseNatNum s).map (fun p => ((p.1 : Int), p.2))

mutual

/-- Parse one JSON value (leading whitespace allowed). -/
def parseValue (fuel0 : Nat) (input : List Char) : Option (JValue × List Char) :=
  match fuel0 with
  | 0 => none
  | fuel + 1 =>
    match input.dropWhile jsonWs with
    | [] => none
    | c :: rest =>
      if c = 'n' then
        if leadsWith "ull".data rest then some (.null, rest.drop 3) else none
      else if c = 't' then
        if leadsWith "rue".data rest then some (.bool true, rest.drop 3) else none
      else if c = 'f' then
        if leadsWith "alse".data rest then some (.bool false, rest.drop 4) else none
      else if c = '"' then
        (parseStringBody (rest.length + 1) rest).map
          (fun p => (.str ⟨p.1⟩, p.2))
      else if c = '[' then
        match (rest.dropWhile jsonWs) with
        | ']' :: r2 => some (.arr [], r2)
        | _ => (parseElems fuel rest).map (fun p => (.arr p.1, p.2))
      else if c = '\x7b' then
        match (rest.dropWhile jsonWs) with
        | '\x7d' :: r2 => some (.obj [], r2)
        | _ => (parseMembers fuel rest).map (fun p => (.obj p.1, p.2))
      else if c = '-' || c.isDigit then
        (parseIntNum (c :: rest)).map (fun p => (.num p.1, p.2))
      else none

/-- Parse comma-separated array elements up to the closing `]`. -/
def parseElems (fuel0 : Nat) (input : List Char) : Option (List JValue × List Char) :=
  match fuel0 with
  | 0 => none
  | fuel + 1 => do
    let (v, r1) ← parseValue fuel input
    match r1.dropWhile jsonWs with
    | ',' :: r2 => (parseElems fuel r2).map (fun p => (v :: p.1, p.2))
    | ']' :: r2 => some ([v], r2)
    | _ => none

/-- Parse comma-separated object members up to the closing brace. -/
def parseMembers (fuel0 : Nat) (input : List Char) :
    Option (List (String × JValue) × List Char) :=
  match fuel0 with
  | 0 => none
  | fuel + 1 =>
    match input.dropWhile jsonWs with
    | '"' :: r0 => do
      let (k, r1) ← parseStringBody (r0.length + 1) r0
      match r1.dropWhile jsonWs with
      | ':' :: r2 => do
        let (v, r3) ← parseValue fuel r2
        match r3.dropWhile jsonWs with
        | ',' :: r4 => (parseMembers fuel r4).map (fun p => ((⟨k⟩, v) :: p.1, p.2))
        | '\x7d' :: r4 => some ([(⟨k⟩, v)], r4)
        | _ => none
      | _ => none
    | _ => none

end

/-- `d[k] = v` on an insertion-ordered dict: an existing key keeps its
position and takes the new value, a new key goes to the end. -/
def dictInsert (m : List (String × JValue)) (k : String) (v : JValue) :
    List (String × JValue) :=
  if m.any (fun kv => kv.1 == k) then
    m.map (fun kv => if kv.1 == k then (kv.1, v) else kv)
  else m ++ [(k, v)]

/-- Python `dict` construction from parsed members: insertion order with
last-wins values for duplicate keys (the first occurrence keeps its
position). -/
def dedupMembers (pairs : List (String × JValue)) : List (String × JValue) :=
  pairs.foldl (fun m kv => dictInsert m kv.1 kv.2) []

mutual

/-- `json.loads` builds dicts bottom-up, so duplicate keys collapse
last-wins at every level. -/
def jsonDictify : JValue → JValue
  | .obj m => .obj (dedupMembers (jsonDictifyPairs m))
  | .arr xs => .arr (jsonDictifyList xs)
  | .null => .null
  | .bool b => .bool b
  | .num n => .num n
  | .str s => .str s

def jsonDictifyList : List JValue → List JValue
  | [] => []
  | x :: xs => jsonDictify x :: jsonDictifyList xs

def jsonDictifyPairs : List (String × JValue) → List (String × JValue)
  | [] => []
  | (k, v) :: rest => (k, jsonDictify v) :: jsonDictifyPairs rest

end

/-- `json.loads(s)` on the embedded fragment: parse one value with
surrounding whitespace, requiring the input to be consumed. -/
def jsonLoads (s : String) : Option JValue :=
  match parseValue (2 * s.data.length + 2) s.data with
  | some (v, rest) => if (rest.dropWhile jsonWs).isEmpty then some (jsonDictify v) else none
  | none => none

end Workbench

namespace Workbench

/-! ## `run_smoke.py` dispatch loop

The model covers `parse_tool_json` and the `for step in range(args.max_steps)`
loop of `main()`. Events are the `evidence.append` calls made inside the
loop and the `run.error` append of the surrounding `except` handler
(pre-loop events such as `provider.doctor` are outside the model).
External effects — `provider.chat`, `call_tool`, `load_registry_mapping`
and the upload-id extraction — are supplied by a `LoopEnv`: an `Except`
result models the call either returning text (serialized for messages)
or raising. Tool `arguments` flow only into those external calls and
event payloads, never into control flow, and are not tracked. -/

/-- `parse_tool_json`: strip, try `json.loads`, else retry on the
slice from the first `\x7b` to the last `\x7d`; `none` means the
exception propagates. -/
def parse_tool_json (text : String) : Option JValue :=
  let t := pyStrip text
  match jsonLoads t with
  | some v => some v
  | none =>
    match t.data.findIdx? (fun x => x = '\x7b'),
          (t.data.reverse.findIdx? (fun x => x = '\x7d')).map
            (fun i => t.data.length - 1 - i) with
    | some s, some e =>
      if s < e then jsonLoads ⟨(t.data.drop s).take (e + 1 - s)⟩ else none
    | _, _ => none

/-- `"final" in call` for each runtime type `call` can have; `.error`
is the `TypeError` raised by `in` on a non-container. -/
def pyInKey (key : String) (v : JValue) : Except Unit Bool :=
  match v with
  | .obj m => .ok (m.any (fun kv => kv.1 == key))
  | .arr xs => .ok (xs.any (fun x => match x with | .str s => s == key | _ => false))
  | .str s => .ok (occursInB key.data s.data)
  | _ => .error ()

/-- `call["final"]` after membership succeeded: indexing a non-dict by
a string raises `TypeError`. -/
def pyIndexStr (v : JValue) (key : String) : Except Unit JValue :=
  match v with
  | .obj _ => .ok ((v.get key).getD .null)
  | _ => .error ()

/-- `call.get(k)`: only dicts have `.get`; anything else raises
`AttributeError`. -/
def pyDictGet (v : JValue) (key : String) : Except Unit (Option JValue) :=
  match v with
  | .obj _ => .ok (v.get key)
  | _ => .error ()

inductive LoopEvent where
  | llmRequest (step : Nat)
  | llmResponse (step : Nat)
  | llmParseError
  | runFinal
  | toolRejected (tool expectedTool : String)
  | toolCall (tool : String)
  | registryLoaded
  | runError
deriving DecidableEq, Repr

/-- Which `raise` (or propagated exception) ended the run; all of them
are caught by the outer `except` and recorded as a `run.error` event. -/
inductive RunError where
  | parseStrikes
  | finishStrikes
  | invalidToolCall
  | noToolsDiscovered
  | pyError
deriving DecidableEq, Repr

structure LoopEnv where
  /-- `provider.extract_text(provider.chat(...))` per step; `.error` is
  a raise inside the chat call. -/
  outputs : Nat → Except Unit String
  /-- serialized `resp` of `call_tool(registry, "workbench.registry.scan", ...)`. -/
  scanCall : Nat → Except Unit String
  /-- `tool_to_server` mapping produced by `load_registry_mapping()`:
  tool name to server name. -/
  scanLoad : Nat → Except Unit (List (String × String))
  /-- serialized `resp` of `call_tool` via `get_client_for_tool`;
  `.error` also covers a failed client lookup or spawn. -/
  toolCall : Nat → Except Unit String
  /-- workflow id extracted from an upload response, when present. -/
  uploadId : Nat → Option String

structure LoopState where
  messages : List (String × String)
  bad_outputs : Nat
  expected_i : Nat
  tool_calls_seen : List String
  tool_to_server : List (String × String)
  current_workflow_id : Option String
  events : List LoopEvent

def expectedScript : List String :=
  ["workbench.registry.scan", "workbench.workflow.upload",
   "workbench.workflow.status", "workbench.workflow.update",
   "workbench.workflow.status"]

inductive StepOutcome where
  | next
  | stop
  | fail (e : RunError)
deriving DecidableEq, Repr

/-- One iteration of the dispatch loop, in source order: `llm.request`
event, chat, `llm.response` event, parse (five-strike on failure),
`final` handling (five-strike before the script is done), tool-name
validation, wrong-tool rejection, then the `registry.scan` branch or a
generic tool call. -/
def runStep (env : LoopEnv) (step : Nat) (st : LoopState) : LoopState × StepOutcome :=
  let st := { st with events := st.events ++ [.llmRequest step] }
  match env.outputs step with
  | .error _ => (st, .fail .pyError)
  | .ok content =>
  let st := { st with events := st.events ++ [.llmResponse step] }
  match parse_tool_json content with
  | none =>
    let st := { st with events := st.events ++ [.llmParseError],
                        bad_outputs := st.bad_outputs + 1 }
    if st.bad_outputs ≥ 5 then (st, .fail .parseStrikes)
    else
      ({ st with messages := st.messages ++
        [("assistant", content), ("user", "steer:parse")] }, .next)
  | some call =>
  match pyInKey "final" call with
  | .error _ => (st, .fail .pyError)
  | .ok true =>
    if st.expected_i < expectedScript.length then
      let st := { st with bad_outputs := st.bad_outputs + 1 }
      if st.bad_outputs ≥ 5 then (st, .fail .finishStrikes)
      else
        ({ st with messages := st.messages ++
          [("assistant", content), ("user", "steer:early-final")] }, .next)
    else
      match pyIndexStr call "final" with
      | .error _ => (st, .fail .pyError)
      | .ok _ => ({ st with events := st.events ++ [.runFinal] }, .stop)
  | .ok false =>
  match pyDictGet call "tool" with
  | .error _ => (st, .fail .pyError)
  | .ok toolOpt =>
  match toolOpt with
  | some (.str tool) =>
    if tool = "" then (st, .fail .invalidToolCall)
    else if st.expected_i < expectedScript.length ∧
        tool ≠ expectedScript.getD st.expected_i "" then
      ({ st with
        events := st.events ++ [.toolRejected tool (expectedScript.getD st.expected_i "")],
        messages := st.messages ++ [("assistant", content), ("user", "steer:rejected")] },
       .next)
    else if tool = "workbench.registry.scan" then
      match env.scanCall step with
      | .error _ => (st, .fail .pyError)
      | .ok resp =>
        let st := { st with
          tool_calls_seen := st.tool_calls_seen ++ [tool],
          expected_i := min (st.expected_i + 1) expectedScript.length,
          events := st.events ++ [.toolCall tool] }
        match env.scanLoad step with
        | .error _ => (st, .fail .pyError)
        | .ok mapping =>
          ({ st with
            tool_to_server := mapping,
            events := st.events ++ [.registryLoaded],
            messages := st.messages ++
              [("assistant", content), ("user", resp), ("user", "discovered")] },
           .next)
    else if st.tool_to_server.isEmpty then (st, .fail .noToolsDiscovered)
    else
      match env.toolCall step with
      | .error _ => (st, .fail .pyError)
      | .ok resp =>
        ({ st with
          current_workflow_id :=
            if tool = "workbench.workflow.upload" then
              match env.uploadId step with
              | some wid => some wid
              | none => st.current_workflow_id
            else st.current_workflow_id,
          tool_calls_seen := st.tool_calls_seen ++ [tool],
          expected_i := min (st.expected_i + 1) expectedScript.length,
          events := st.events ++ [.toolCall tool],
          messages := st.messages ++ [("assistant", content), ("user", resp)] },
         .next)
  | _ => (st, .fail .invalidToolCall)

/-- Iterate `runStep` over the remaining range; an uncaught exception
appends the handler's `run.error` event and reports the cause. -/
def runLoop (env : LoopEnv) : Nat → Nat → LoopState → LoopState × Option RunError
  | 0, _, st => (st, none)
  | fuel + 1, step, st =>
    match runStep env step st with
    | (st', .next) => runLoop env fuel (step + 1) st'
    | (st', .stop) => (st', none)
    | (st', .fail e) => ({ st' with events := st'.events ++ [.runError] }, some e)

def initLoopState (messages : List (String × String)) : LoopState :=
  { messages := messages, bad_outputs := 0, expected_i := 0,
    tool_calls_seen := [], tool_to_server := [],
    current_workflow_id := none, events := [] }

/-- The whole `for step in range(args.max_steps)` loop with its
`try/except`, starting from the initial prompt messages. -/
def run_dispatch (env : LoopEnv) (max_steps : Nat)
    (messages : List (String × String)) : LoopState × Option RunError :=
  runLoop env max_steps 0 (initLoopState messages)

end Workbench

namespace Workbench

/-! ### C5/C6: five-strike accounting -/

/-- Events of one loop iteration whose model output fails to parse
(below the strike cap). -/
def parseFailBlock (step : Nat) : List LoopEvent :=
  [.llmRequest step, .llmResponse step, .llmParseError]

/-- Events of `k` consecutive parse-failure iterations starting at
`step`. -/
def parseFailTrace : Nat → Nat → List LoopEvent
  | _, 0 => []
  | step, k + 1 => parseFailBlock step ++ parseFailTrace (step + 1) k

/-- Events of one loop iteration whose output is a well-formed call to
the wrong tool, while the script is still at its first stage. -/
def rejectBlock (step : Nat) (tool : String) : List LoopEvent :=
  [.llmRequest step, .llmResponse step, .toolRejected tool "workbench.registry.scan"]

def rejectTrace (toolOf : Nat → String) : Nat → Nat → List LoopEvent
  | _, 0 => []
  | step, k + 1 => rejectBlock step (toolOf step) ++ rejectTrace toolOf (step + 1) k

/-- An environment whose model output never parses. -/
def AllParseFail (env : LoopEnv) : Prop :=
  ∀ i, ∃ c, env.outputs i = .ok c ∧ parse_tool_json c = none

/-- If every output fails to parse and `k` strikes remain before the
cap, the loop fails with the parse five-strike after exactly `k` more
iterations, appending `k` failure blocks and the handler's
`run.error`. -/
theorem runLoop_all_parse_fail (env : LoopEnv) (hfail : AllParseFail env) :
    ∀ (k : Nat) (fuel step : Nat) (st : LoopState),
      st.bad_outputs + k = 5 → 1 ≤ k → k ≤ fuel →
      ∃ stf, runLoop env fuel step st = (stf, some .parseStrikes) ∧
        stf.events = st.events ++ parseFailTrace step k ++ [.runError] := by
  intro k
  induction k with
  | zero => intro fuel step st _ h1 _; omega
  | succ k ih =>
    intro fuel step st hbad _ hfuel
    obtain ⟨f, rfl⟩ : ∃ f, fuel = f + 1 := ⟨fuel - 1, by omega⟩
    obtain ⟨c, hc, hp⟩ := hfail step
    by_cases hk : k = 0
    · subst hk
      have hstep :
          runStep env step st =
            ({ st with
                events := st.events ++ parseFailBlock step,
                bad_outputs := st.bad_outputs + 1 },
             .fail .parseStrikes) := by
        simp only [runStep, hc, hp]
        rw [if_pos (by simp; omega)]
        simp [parseFailBlock]
      refine ⟨{ st with
          events := (st.events ++ parseFailBlock step) ++ [.runError],
          bad_outputs := st.bad_outputs + 1 }, ?_, ?_⟩
      · simp only [runLoop, hstep]
      · simp [parseFailTrace, parseFailBlock]
    · have hstep :
          runStep env step st =
            ({ st with
                events := st.events ++ parseFailBlock step,
                bad_outputs := st.bad_outputs + 1,
                messages := st.messages ++ [("assistant", c), ("user", "steer:parse")] },
             .next) := by
        simp only [runStep, hc, hp]
        rw [if_neg (by simp; omega)]
        simp [parseFailBlock]
      obtain ⟨stf, hrun, hev⟩ :=
        ih f (step + 1)
          ({ st with
              events := st.events ++ parseFailBlock step,
              bad_outputs := st.bad_outputs + 1,
              messages := st.messages ++ [("assistant", c), ("user", "steer:parse")] })
          (by simp; omega) (by omega) (by omega)
      refine ⟨stf, ?_, ?_⟩
      · simp only [runLoop, hstep, hrun]
      · rw [hev]; simp [parseFailTrace, List.append_assoc]

end Workbench

namespace Workbench

def notJsonEnv : LoopEnv :=
  ⟨fun _ => .ok "not json", fun _ => .ok "", fun _ => .ok [], fun _ => .ok "", fun _ => none⟩

/-- C6 (amended). With every model output unparseable, the dispatch
loop raises the five-strike error during the fifth attempt (not the
sixth): exactly five `llm.request` events are logged, the evidence
trail is five parse-failure blocks, with five `llm.parse_error` events
and a final `run.error`. -/
theorem dispatch_parse_five_strikes (env : LoopEnv) (max_steps : Nat)
    (msgs : List (String × String))
    (h5 : 5 ≤ max_steps) (hfail : AllParseFail env) :
    ∃ stf, run_dispatch env max_steps msgs = (stf, some .parseStrikes) ∧
      stf.events = parseFailTrace 0 5 ++ [.runError] ∧
      stf.events.count .llmParseError = 5 ∧
      (stf.events.countP (fun e => match e with | .llmRequest _ => true | _ => false)) = 5 ∧
      stf.events.getLast? = some .runError := by
  obtain ⟨stf, hrun, hev⟩ :=
    runLoop_all_parse_fail env hfail 5 max_steps 0 (initLoopState msgs)
      (by simp [initLoopState]) (by omega) h5
  have hev' : stf.events = parseFailTrace 0 5 ++ [.runError] := by
    rw [hev]; simp [initLoopState]
  refine ⟨stf, hrun, hev', ?_, ?_, ?_⟩ <;> rw [hev'] <;> decide

/-- C6 witness: the S6 scenario, a stub returning `"not json"` on
every step with the default step cap. -/
theorem dispatch_parse_five_strikes_witness :
    ∃ stf, run_dispatch notJsonEnv 12 [] = (stf, some .parseStrikes) ∧
      stf.events = parseFailTrace 0 5 ++ [.runError] ∧
      stf.events.count .llmParseError = 5 ∧
      (stf.events.countP (fun e => match e with | .llmRequest _ => true | _ => false)) = 5 ∧
      stf.events.getLast? = some .runError :=
  dispatch_parse_five_strikes notJsonEnv 12 [] (by omega)
    (fun _ => ⟨"not json", rfl, rfl⟩)

/-- C6 counterexample to "raises on the sixth attempt": the `"not
json"` stub run raises after only five `llm.request` events — the
sixth attempt never happens — though the five `llm.parse_error`
events and the final `run.error` are as claimed. -/
theorem dispatch_sixth_attempt_cex :
    (run_dispatch notJsonEnv 12 []).2 = some .parseStrikes ∧
    ((run_dispatch notJsonEnv 12 []).1.events.countP
        (fun e => match e with | .llmRequest _ => true | _ => false)) = 5 ∧
    (run_dispatch notJsonEnv 12 []).1.events.count .llmParseError = 5 ∧
    (run_dispatch notJsonEnv 12 []).1.events.getLast? = some .runError := by
  decide

end Workbench

namespace Workbench

/-- `c` parses to a call without `"final"` whose `"tool"` entry is the
string `t`. -/
def mismatchOutput (c : String) (t : String) : Bool :=
  match parse_tool_json c with
  | some v =>
    (match pyInKey "final" v with | .ok false => true | _ => false) &&
    (match pyDictGet v "tool" with
     | .ok (some (.str s)) => s == t
     | _ => false)
  | none => false

/-- An environment whose model output is always a well-formed call to
a nonempty tool other than `workbench.registry.scan` (the first
required tool), so every iteration hits the wrong-tool branch. -/
def MismatchOnly (env : LoopEnv) (toolOf : Nat → String) : Prop :=
  ∀ i, ∃ c, env.outputs i = .ok c ∧ mismatchOutput c (toolOf i) = true ∧
    toolOf i ≠ "" ∧ toolOf i ≠ "workbench.registry.scan"

theorem countP_rejectTrace (toolOf : Nat → String) :
    ∀ (k step : Nat),
      ((rejectTrace toolOf step k).countP
        (fun e => match e with | .toolRejected _ _ => true | _ => false)) = k := by
  intro k
  induction k with
  | zero => intro step; simp [rejectTrace]
  | succ k ih =>
    intro step
    simp [rejectTrace, rejectBlock, List.countP_append, List.countP_cons, ih]

/-- If every output is a mismatched tool call and the script is still
at its first stage, the loop consumes all remaining steps without
raising: each iteration appends a rejection block and nothing touches
`bad_outputs`, `expected_i` or `tool_calls_seen`. -/
theorem runLoop_all_mismatch (env : LoopEnv) (toolOf : Nat → String)
    (hm : MismatchOnly env toolOf) :
    ∀ (fuel step : Nat) (st : LoopState), st.expected_i = 0 →
      ∃ stf, runLoop env fuel step st = (stf, none) ∧
        stf.events = st.events ++ rejectTrace toolOf step fuel ∧
        stf.bad_outputs = st.bad_outputs ∧
        stf.expected_i = 0 ∧
        stf.tool_calls_seen = st.tool_calls_seen := by
  intro fuel
  induction fuel with
  | zero =>
    intro step st h0
    exact ⟨st, rfl, by simp [rejectTrace], rfl, h0, rfl⟩
  | succ fuel ih =>
    intro step st h0
    obtain ⟨c, hc, hmm, htne, htns⟩ := hm step
    obtain ⟨v, hpc⟩ : ∃ v, parse_tool_json c = some v := by
      rw [mismatchOutput] at hmm
      cases hpc : parse_tool_json c with
      | none => rw [hpc] at hmm; simp at hmm
      | some v => exact ⟨v, rfl⟩
    simp only [mismatchOutput, hpc] at hmm
    have hfin : pyInKey "final" v = .ok false := by
      cases hfin : pyInKey "final" v with
      | error e => rw [hfin] at hmm; simp at hmm
      | ok b =>
        cases b with
        | false => rfl
        | true => rw [hfin] at hmm; simp at hmm
    rw [hfin] at hmm
    have hget : pyDictGet v "tool" = .ok (some (.str (toolOf step))) := by
      cases hget : pyDictGet v "tool" with
      | error e => rw [hget] at hmm; simp at hmm
      | ok o =>
        cases o with
        | none => rw [hget] at hmm; simp at hmm
        | some jv =>
          cases jv with
          | str s =>
            rw [hget] at hmm
            simp at hmm
            rw [hmm]
          | null => rw [hget] at hmm; simp at hmm
          | bool b => rw [hget] at hmm; simp at hmm
          | num n => rw [hget] at hmm; simp at hmm
          | arr xs => rw [hget] at hmm; simp at hmm
          | obj m => rw [hget] at hmm; simp at hmm
    have hstep :
        runStep env step st =
          ({ st with
              events := st.events ++ rejectBlock step (toolOf step),
              messages := st.messages ++ [("assistant", c), ("user", "steer:rejected")] },
           .next) := by
      simp only [runStep, hc, hpc, hfin, hget]
      rw [if_neg htne, if_pos ⟨by rw [h0]; decide, by rw [h0]; exact htns⟩]
      simp [rejectBlock, h0, expectedScript]
    obtain ⟨stf, hrun, hev, hbad, hexp, hseen⟩ :=
      ih (step + 1)
        ({ st with
            events := st.events ++ rejectBlock step (toolOf step),
            messages := st.messages ++ [("assistant", c), ("user", "steer:rejected")] })
        (by simp [h0])
    refine ⟨stf, ?_, ?_, ?_, hexp, ?_⟩
    · simp only [runLoop, hstep, hrun]
    · rw [hev]; simp [rejectTrace, List.append_assoc]
    · rw [hbad]
    · rw [hseen]

end Workbench

namespace Workbench

def wrongToolEnv : LoopEnv :=
  ⟨fun _ => .ok "\x7b\"tool\":\"workbench.workflow.status\",\"arguments\":\x7b\x7d\x7d",
   fun _ => .ok "", fun _ => .ok [], fun _ => .ok "", fun _ => none⟩

/-- C5 (amended). Tool mismatches do not count toward the five-strike
cap: only parse failures and premature finals increment
`bad_outputs`. A model that keeps proposing a well-formed call to the
wrong tool is steered with a `tool.rejected` event on every step, the
strike counter stays at zero, and the loop runs out of `max_steps`
without raising. -/
theorem dispatch_mismatch_no_strikes (env : LoopEnv) (toolOf : Nat → String)
    (max_steps : Nat) (msgs : List (String × String))
    (hm : MismatchOnly env toolOf) :
    ∃ stf, run_dispatch env max_steps msgs = (stf, none) ∧
      stf.bad_outputs = 0 ∧
      stf.events = rejectTrace toolOf 0 max_steps ∧
      ((stf.events.countP
          (fun e => match e with | .toolRejected _ _ => true | _ => false)) = max_steps) ∧
      stf.tool_calls_seen = [] := by
  obtain ⟨stf, hrun, hev, hbad, _, hseen⟩ :=
    runLoop_all_mismatch env toolOf hm max_steps 0 (initLoopState msgs) rfl
  have hev' : stf.events = rejectTrace toolOf 0 max_steps := by
    rw [hev]; simp [initLoopState]
  refine ⟨stf, hrun, ?_, hev', ?_, ?_⟩
  · rw [hbad]; rfl
  · rw [hev']; exact countP_rejectTrace toolOf max_steps 0
  · rw [hseen]; rfl

/-- C5 witness: twelve consecutive calls to
`workbench.workflow.status` while `workbench.registry.scan` is
required. -/
theorem dispatch_mismatch_no_strikes_witness :
    ∃ stf, run_dispatch wrongToolEnv 12 [] = (stf, none) ∧
      stf.bad_outputs = 0 ∧
      stf.events = rejectTrace (fun _ => "workbench.workflow.status") 0 12 ∧
      ((stf.events.countP
          (fun e => match e with | .toolRejected _ _ => true | _ => false)) = 12) ∧
      stf.tool_calls_seen = [] :=
  dispatch_mismatch_no_strikes wrongToolEnv (fun _ => "workbench.workflow.status") 12 []
    (fun _ =>
      ⟨"\x7b\"tool\":\"workbench.workflow.status\",\"arguments\":\x7b\x7d\x7d", rfl,
       show mismatchOutput
           "\x7b\"tool\":\"workbench.workflow.status\",\"arguments\":\x7b\x7d\x7d"
           "workbench.workflow.status" = true by decide,
       show ("workbench.workflow.status" : String) ≠ "" by decide,
       show ("workbench.workflow.status" : String) ≠ "workbench.registry.scan" by decide⟩)

/-- C5 counterexample: after twelve mismatched tool calls — far past
five — the loop has not raised, `bad_outputs` is still zero, and every
step only logged a `tool.rejected` event, refuting the claim that
mismatches feed the same five-strike cap as parse failures. -/
theorem dispatch_mismatch_cex :
    (run_dispatch wrongToolEnv 12 []).2 = none ∧
    (run_dispatch wrongToolEnv 12 []).1.bad_outputs = 0 ∧
    ((run_dispatch wrongToolEnv 12 []).1.events.count
        (.toolRejected "workbench.workflow.status" "workbench.registry.scan")) = 12 := by
  decide

end Workbench

namespace Workbench

/-! ## `mcp_stdio.py` framing (C9)

Bytes are `Nat`s below 256. `encode_message` serializes with
`json.dumps(obj, ensure_ascii=False)`, UTF-8 encodes, and prepends
`Content-Length: N\r\n\r\n`; `_try_parse_one` finds the first
`\r\n\r\n`, scans the header lines for `content-length`, slices the
body and strict-decodes + `json.loads` it (either of which can
raise). -/

/-- UTF-8 encoding of one scalar value. -/
def utf8EncodeChar (c : Char) : List Nat :=
  if c.toNat < 0x80 then [c.toNat]
  else if c.toNat < 0x800 then [0xC0 + c.toNat / 64, 0x80 + c.toNat % 64]
  else if c.toNat < 0x10000 then
    [0xE0 + c.toNat / 4096, 0x80 + c.toNat / 64 % 64, 0x80 + c.toNat % 64]
  else
    [0xF0 + c.toNat / 262144, 0x80 + c.toNat / 4096 % 64,
     0x80 + c.toNat / 64 % 64, 0x80 + c.toNat % 64]

def utf8Encode (s : List Char) : List Nat :=
  s.flatMap utf8EncodeChar

def utf8Cont (b : Nat) : Bool := 0x80 ≤ b ∧ b < 0xC0

/-- Strict UTF-8 decoding (`bytes.decode("utf-8")`): rejects overlong
forms, surrogates, out-of-range scalars and stray bytes. -/
def utf8Decode : List Nat → Option (List Char)
  | [] => some []
  | b :: rest =>
    if b < 0x80 then
      (utf8Decode rest).map (Char.ofNat b :: ·)
    else if b < 0xC2 then none
    else if b < 0xE0 then
      match rest with
      | [] => none
      | b1 :: r =>
        if utf8Cont b1 then
          (utf8Decode r).map (Char.ofNat ((b - 0xC0) * 64 + (b1 - 0x80)) :: ·)
        else none
    else if b < 0xF0 then
      match rest with
      | [] => none
      | b1 :: r =>
        match r with
        | [] => none
        | b2 :: r2 =>
          if utf8Cont b1 && utf8Cont b2 then
            if (b - 0xE0) * 4096 + (b1 - 0x80) * 64 + (b2 - 0x80) < 0x800 ∨
                (0xD800 ≤ (b - 0xE0) * 4096 + (b1 - 0x80) * 64 + (b2 - 0x80) ∧
                 (b - 0xE0) * 4096 + (b1 - 0x80) * 64 + (b2 - 0x80) < 0xE000) then none
            else
              (utf8Decode r2).map
                (Char.ofNat ((b - 0xE0) * 4096 + (b1 - 0x80) * 64 + (b2 - 0x80)) :: ·)
          else none
    else if b < 0xF5 then
      match rest with
      | [] => none
      | b1 :: r =>
        match r with
        | [] => none
        | b2 :: r2 =>
          match r2 with
          | [] => none
          | b3 :: r3 =>
            if utf8Cont b1 && utf8Cont b2 && utf8Cont b3 then
              if (b - 0xF0) * 262144 + (b1 - 0x80) * 4096 +
                  (b2 - 0x80) * 64 + (b3 - 0x80) < 0x10000 ∨
                  0x110000 ≤ (b - 0xF0) * 262144 + (b1 - 0x80) * 4096 +
                    (b2 - 0x80) * 64 + (b3 - 0x80) then none
              else
                (utf8Decode r3).map
                  (Char.ofNat ((b - 0xF0) * 262144 + (b1 - 0x80) * 4096 +
                    (b2 - 0x80) * 64 + (b3 - 0x80)) :: ·)
            else none
    else none

/-- `bytes.decode("utf-8", errors="replace")`: total, one U+FFFD per
maximal invalid subpart. -/
def utf8DecodeReplace : List Nat → List Char
  | [] => []
  | b :: rest =>
    if b < 0x80 then Char.ofNat b :: utf8DecodeReplace rest
    else if b < 0xC2 then '�' :: utf8DecodeReplace rest
    else if b < 0xE0 then
      match h1 : rest with
      | b1 :: r =>
        if utf8Cont b1 then
          Char.ofNat ((b - 0xC0) * 64 + (b1 - 0x80)) :: utf8DecodeReplace r
        else '�' :: utf8DecodeReplace rest
      | [] => ['�']
    else if b < 0xF0 then
      match h1 : rest with
      | b1 :: r =>
        if (if b = 0xE0 then 0xA0 ≤ b1 ∧ b1 < 0xC0
            else if b = 0xED then 0x80 ≤ b1 ∧ b1 < 0xA0
            else utf8Cont b1 = true) then
          match h2 : r with
          | b2 :: r2 =>
            if utf8Cont b2 then
              Char.ofNat ((b - 0xE0) * 4096 + (b1 - 0x80) * 64 + (b2 - 0x80)) ::
                utf8DecodeReplace r2
            else '�' :: utf8DecodeReplace r
          | [] => ['�']
        else '�' :: utf8DecodeReplace rest
      | [] => ['�']
    else if b < 0xF5 then
      match h1 : rest with
      | b1 :: r =>
        if (if b = 0xF0 then 0x90 ≤ b1 ∧ b1 < 0xC0
            else if b = 0xF4 then 0x80 ≤ b1 ∧ b1 < 0x90
            else utf8Cont b1 = true) then
          match h2 : r with
          | b2 :: r2 =>
            if utf8Cont b2 then
              match h3 : r2 with
              | b3 :: r3 =>
                if utf8Cont b3 then
                  Char.ofNat ((b - 0xF0) * 262144 + (b1 - 0x80) * 4096 +
                    (b2 - 0x80) * 64 + (b3 - 0x80)) :: utf8DecodeReplace r3
                else '�' :: utf8DecodeReplace r2
              | [] => ['�']
            else '�' :: utf8DecodeReplace r
          | [] => ['�']
        else '�' :: utf8DecodeReplace rest
      | [] => ['�']
    else '�' :: utf8DecodeReplace rest
termination_by l => l.length
decreasing_by all_goals (subst_vars; simp only [List.length_cons]; omega)

/-- `bytes.find(pat)`: index of the first occurrence. -/
def findSubIdx (pat : List Nat) : List Nat → Option Nat
  | [] => if pat.isEmpty then some 0 else none
  | b :: rest =>
    if pat.isPrefixOf (b :: rest) then some 0
    else (findSubIdx pat rest).map (· + 1)

/-- `str.split("\r\n")`. -/
def splitCRLF : List Char → List (List Char)
  | [] => [[]]
  | '\x0d' :: '\x0a' :: rest => [] :: splitCRLF rest
  | c :: rest =>
    match splitCRLF rest with
    | l :: ls => (c :: l) :: ls
    | [] => [[c]]

/-- `str.split(":", 1)`. -/
def splitColon1 (s : List Char) : List (List Char) :=
  match s.findIdx? (fun c => c = ':') with
  | none => [s]
  | some i => [s.take i, s.drop (i + 1)]

/-- Accumulate decimal digits with Python's single-underscore
grouping. -/
def digitsValGo (l : List Char) (acc : Nat) : Option Nat :=
  match l with
  | [] => some acc
  | c :: rest =>
    if c = '_' then
      match rest with
      | d :: rest2 =>
        if d.isDigit then digitsValGo rest2 (acc * 10 + (d.toNat - 48)) else none
      | [] => none
    else if c.isDigit then digitsValGo rest (acc * 10 + (c.toNat - 48))
    else none

/-- `int(s)` on a decimal string: optional surrounding whitespace and
sign, digits with underscore grouping; `none` is `ValueError`. -/
def pyIntStr (s : String) : Option Int :=
  match (pyStrip s).data with
  | [] => none
  | c :: rest =>
    if c = '+' then
      match rest with
      | [] => none
      | d :: rest2 =>
        if d.isDigit then (digitsValGo (d :: rest2) 0).map Int.ofNat else none
    else if c = '-' then
      match rest with
      | [] => none
      | d :: rest2 =>
        if d.isDigit then (digitsValGo (d :: rest2) 0).map (fun n => -(n : Int)) else none
    else if c.isDigit then (digitsValGo (c :: rest) 0).map Int.ofNat
    else none

/-- The header-line loop of `_try_parse_one`: skip lines without a
colon, and break at the first `content-length` key whether or not its
value parses. -/
def scanHeaderLines : List (List Char) → Option Int
  | [] => none
  | line :: rest =>
    match splitColon1 line with
    | [p0, p1] =>
      if pyLower (pyStrip ⟨p0⟩) = "content-length" then pyIntStr (pyStrip ⟨p1⟩)
      else scanHeaderLines rest
    | _ => scanHeaderLines rest

/-- Clamp a Python slice index to `[0, len]`. -/
def pySliceIdx (len : Nat) (i : Int) : Nat :=
  if i < 0 then (max ((len : Int) + i) 0).toNat else min i.toNat len

def encode_message (obj : JValue) : List Nat :=
  utf8Encode ("Content-Length: ".data ++ natChars (utf8Encode (jsonDumps obj)).length ++
    ['\x0d', '\x0a', '\x0d', '\x0a']) ++ utf8Encode (jsonDumps obj)

/-- `_try_parse_one(buffer)`; `.error` is an uncaught
`UnicodeDecodeError`/`JSONDecodeError` from the body. -/
def try_parse_one (buffer : List Nat) : Except Unit (Option JValue × List Nat) :=
  match findSubIdx [13, 10, 13, 10] buffer with
  | none => .ok (none, buffer)
  | some header_end =>
    let header_text := utf8DecodeReplace (buffer.take header_end)
    match scanHeaderLines (splitCRLF header_text) with
    | none => .ok (none, buffer)
    | some content_length =>
      let body_start : Int := (header_end : Int) + 4
      let body_end : Int := body_start + content_length
      if (buffer.length : Int) < body_end then .ok (none, buffer)
      else
        let s := pySliceIdx buffer.length body_start
        let e := pySliceIdx buffer.length body_end
        let body := (buffer.take e).drop s
        let rest := buffer.drop e
        match utf8Decode body with
        | none => .error ()
        | some chars =>
          match jsonLoads ⟨chars⟩ with
          | none => .error ()
          | some v => .ok (some v, rest)

mutual

/-- Well-formedness of a value as the image of a Python object: dict
keys are distinct at every level. -/
def jwf : JValue → Bool
  | .obj m => (m.map Prod.fst).Nodup && jwfPairs m
  | .arr xs => jwfList xs
  | .null => true
  | .bool _ => true
  | .num _ => true
  | .str _ => true

def jwfList : List JValue → Bool
  | [] => true
  | x :: xs => jwf x && jwfList xs

def jwfPairs : List (String × JValue) → Bool
  | [] => true
  | (_, v) :: rest => jwf v && jwfPairs rest

end

mutual

/-- Fuel consumed by `parseValue` on the output of `jsonDumps`. -/
def cnt : JValue → Nat
  | .arr xs => 1 + cntList xs
  | .obj m => 1 + cntPairs m
  | .null => 1
  | .bool _ => 1
  | .num _ => 1
  | .str _ => 1

def cntList : List JValue → Nat
  | [] => 0
  | x :: xs => cnt x + 1 + cntList xs

def cntPairs : List (String × JValue) → Nat
  | [] => 0
  | (_, v) :: rest => cnt v + 1 + cntPairs rest

end

end Workbench


namespace Workbench

theorem char_toNat_ofNat_valid (n : Nat) (hv : n.isValidChar) :
    (Char.ofNat n).toNat = n := by
  simp [Char.ofNat, hv, Char.toNat, Char.ofNatAux]
  rfl

theorem char_toNat_ofNat_small (n : Nat) (h : n < 0xD800) :
    (Char.ofNat n).toNat = n :=
  char_toNat_ofNat_valid n (Or.inl h)

theorem char_le_iff_toNat (a b : Char) : a ≤ b ↔ a.toNat ≤ b.toNat := Iff.rfl

theorem isDigit_of_toNat (c : Char) (h1 : 48 ≤ c.toNat) (h2 : c.toNat < 58) :
    c.isDigit = true := by
  have e0 : '0'.val.toNat = 48 := rfl
  have e9 : '9'.val.toNat = 57 := rfl
  have ec : c.toNat = c.val.toNat := rfl
  simp [Char.isDigit, decide_eq_true_eq, Char.le_def]
  constructor
  · show '0'.val.toNat ≤ c.val.toNat
    omega
  · show c.val.toNat ≤ '9'.val.toNat
    omega

theorem natChars_ne_nil (n : Nat) : natChars n ≠ [] := by
  rw [natChars]
  split <;> simp

theorem natChars_digits (n : Nat) :
    ∀ c ∈ natChars n, 48 ≤ c.toNat ∧ c.toNat < 58 := by
  induction n using natChars.induct with
  | case1 n h =>
    intro c hc
    rw [natChars, dif_pos h] at hc
    simp at hc
    subst hc
    have e0 : '0'.toNat = 48 := rfl
    rw [char_toNat_ofNat_small _ (by omega)]
    omega
  | case2 n h ih =>
    intro c hc
    rw [natChars, dif_neg h] at hc
    rcases List.mem_append.mp hc with h1 | h1
    · exact ih c h1
    · simp at h1
      subst h1
      have e0 : '0'.toNat = 48 := rfl
      rw [char_toNat_ofNat_small _ (by omega)]
      omega

/-- The digit-accumulating fold inverts `natChars`. -/
theorem natChars_val (n : Nat) :
    (natChars n).foldl (fun a c => a * 10 + (c.toNat - 48)) 0 = n := by
  induction n using natChars.induct with
  | case1 n h =>
    have e0 : '0'.toNat = 48 := rfl
    rw [natChars, dif_pos h]
    simp only [List.foldl]
    rw [char_toNat_ofNat_small _ (by omega)]
    omega
  | case2 n h ih =>
    have e0 : '0'.toNat = 48 := rfl
    rw [natChars, dif_neg h]
    rw [List.foldl_append, ih]
    simp only [List.foldl]
    rw [char_toNat_ofNat_small _ (by omega)]
    omega

theorem natChars_head_pos (n : Nat) (hn : 1 ≤ n) :
    ∀ c, (natChars n).head? = some c → c ≠ '0' := by
  induction n using natChars.induct with
  | case1 n h =>
    intro c hc
    rw [natChars, dif_pos h] at hc
    simp at hc
    subst hc
    intro hbad
    have e0 : '0'.toNat = 48 := rfl
    have := congrArg Char.toNat hbad
    rw [char_toNat_ofNat_small _ (by omega)] at this
    rw [e0] at this
    omega
  | case2 n h ih =>
    intro c hc
    rw [natChars, dif_neg h] at hc
    rcases hh : natChars (n / 10) with _ | ⟨d, ds⟩
    · exact absurd hh (natChars_ne_nil _)
    · rw [hh] at hc
      simp at hc
      subst hc
      exact ih (by omega) d (by rw [hh]; rfl)

theorem digitsValGo_digits :
    ∀ (ds : List Char) (acc : Nat), (∀ c ∈ ds, c.isDigit = true) →
      digitsValGo ds acc = some (ds.foldl (fun a c => a * 10 + (c.toNat - 48)) acc) := by
  intro ds
  induction ds with
  | nil => intro acc _; rfl
  | cons c rest ih =>
    intro acc hd
    have hc : c.isDigit = true := hd c (by simp)
    have hcu : c ≠ '_' := by
      intro hbad
      rw [hbad] at hc
      simp [Char.isDigit] at hc
    rw [digitsValGo.eq_def]
    simp only []
    rw [if_neg hcu, if_pos hc, ih _ (fun x hx => hd x (by simp [hx]))]
    rfl

theorem isDigit_toNat (c : Char) (h : c.isDigit = true) :
    48 ≤ c.toNat ∧ c.toNat < 58 := by
  have e0 : '0'.val.toNat = 48 := rfl
  have e9 : '9'.val.toNat = 57 := rfl
  have ec : c.toNat = c.val.toNat := rfl
  simp [Char.isDigit, decide_eq_true_eq, Char.le_def] at h
  obtain ⟨h1, h2⟩ := h
  have g1 : '0'.val.toNat ≤ c.val.toNat := h1
  have g2 : c.val.toNat ≤ '9'.val.toNat := h2
  omega

end Workbench

namespace Workbench

theorem char_ne_of_toNat (c d : Char) (h : c.toNat ≠ d.toNat) : c ≠ d :=
  fun hb => h (congrArg Char.toNat hb)

theorem pySpace_of_digitish (c : Char) (h : 33 ≤ c.toNat ∧ c.toNat < 127) :
    pySpace c = false := by
  simp only [pySpace, Bool.or_eq_false_iff, decide_eq_false_iff_not]
  refine ⟨⟨⟨⟨⟨?_, ?_⟩, ?_⟩, ?_⟩, ?_⟩, ?_⟩
  · exact char_ne_of_toNat _ _ (by have e : (' ').toNat = 32 := rfl; omega)
  · exact char_ne_of_toNat _ _ (by have e : ('\t').toNat = 9 := rfl; omega)
  · exact char_ne_of_toNat _ _ (by have e : ('\n').toNat = 10 := rfl; omega)
  · exact char_ne_of_toNat _ _ (by have e : ('\r').toNat = 13 := rfl; omega)
  · exact char_ne_of_toNat _ _ (by have e : ('\x0b').toNat = 11 := rfl; omega)
  · exact char_ne_of_toNat _ _ (by have e : ('\x0c').toNat = 12 := rfl; omega)

theorem dropWhile_nospace (ds : List Char) (h : ∀ c ∈ ds, pySpace c = false) :
    ds.dropWhile pySpace = ds := by
  cases ds with
  | nil => rfl
  | cons c rest => exact List.dropWhile_cons_of_neg (by simp [h c (by simp)])

theorem pyStrip_nospace (ds : List Char) (h : ∀ c ∈ ds, pySpace c = false) :
    pyStrip ⟨ds⟩ = ⟨ds⟩ := by
  rw [pyStrip]
  rw [show (String.mk ds).data = ds from rfl]
  rw [dropWhile_nospace ds h]
  rw [dropWhile_nospace ds.reverse (fun c hc => h c (List.mem_reverse.mp hc))]
  rw [List.reverse_reverse]

theorem pyStrip_space_cons (ds : List Char) (h : ∀ c ∈ ds, pySpace c = false) :
    pyStrip ⟨' ' :: ds⟩ = ⟨ds⟩ := by
  rw [pyStrip]
  rw [show (String.mk (' ' :: ds)).data = ' ' :: ds from rfl]
  rw [List.dropWhile_cons_of_pos (by simp [pySpace])]
  rw [dropWhile_nospace ds h]
  rw [dropWhile_nospace ds.reverse (fun c hc => h c (List.mem_reverse.mp hc))]
  rw [List.reverse_reverse]

/-- `int()` of the canonical decimal digits of `n` is `n`. -/
theorem pyIntStr_natChars (n : Nat) : pyIntStr ⟨natChars n⟩ = some n := by
  have hdig : ∀ c ∈ natChars n, c.isDigit = true := fun c hc =>
    isDigit_of_toNat c (natChars_digits n c hc).1 (natChars_digits n c hc).2
  have hns : ∀ c ∈ natChars n, pySpace c = false := fun c hc =>
    pySpace_of_digitish c ⟨by have := (natChars_digits n c hc).1; omega,
      by have := (natChars_digits n c hc).2; omega⟩
  rw [pyIntStr]
  rw [pyStrip_nospace _ hns]
  rcases hh : natChars n with _ | ⟨d, ds⟩
  · exact absurd hh (natChars_ne_nil _)
  · simp only []
    have hd : d.isDigit = true := hdig d (by rw [hh]; simp)
    have hdn := isDigit_toNat d hd
    rw [if_neg (char_ne_of_toNat d '+' (by have e : ('+').toNat = 43 := rfl; omega))]
    rw [if_neg (char_ne_of_toNat d '-' (by have e : ('-').toNat = 45 := rfl; omega))]
    rw [if_pos hd]
    rw [digitsValGo_digits _ _ (by rw [← hh]; exact hdig)]
    rw [← hh, natChars_val]
    rfl

end Workbench

namespace Workbench

theorem utf8Encode_ascii (s : List Char) (h : ∀ c ∈ s, c.toNat < 128) :
    utf8Encode s = s.map Char.toNat := by
  induction s with
  | nil => rfl
  | cons c rest ih =>
    have hc : c.toNat < 128 := h c (by simp)
    rw [utf8Encode, List.flatMap_cons]
    rw [show utf8EncodeChar c = [c.toNat] by rw [utf8EncodeChar]; simp [hc]]
    rw [show (List.cons c rest).map Char.toNat = c.toNat :: rest.map Char.toNat from rfl]
    rw [← ih (fun x hx => h x (by simp [hx]))]
    rfl

theorem utf8DecodeReplace_ascii (bs : List Nat) (h : ∀ b ∈ bs, b < 128) :
    utf8DecodeReplace bs = bs.map Char.ofNat := by
  induction bs with
  | nil => simp [utf8DecodeReplace]
  | cons b rest ih =>
    have hb : b < 128 := h b (by simp)
    rw [utf8DecodeReplace.eq_def]
    simp only [if_pos hb]
    rw [ih (fun x hx => h x (by simp [hx]))]
    rfl

theorem utf8_ascii_roundtrip (s : List Char) (h : ∀ c ∈ s, c.toNat < 128) :
    utf8DecodeReplace (utf8Encode s) = s := by
  rw [utf8Encode_ascii s h]
  rw [utf8DecodeReplace_ascii _ (by intro b hb; obtain ⟨c, hc, rfl⟩ := List.mem_map.mp hb; exact h c hc)]
  rw [List.map_map]
  have : (Char.ofNat ∘ Char.toNat) = id := funext (fun c => Char.ofNat_toNat c)
  rw [this, List.map_id]

theorem findSubIdx_sep (A ys : List Nat) (h : ∀ b ∈ A, b ≠ 13) :
    findSubIdx [13, 10, 13, 10] (A ++ 13 :: 10 :: 13 :: 10 :: ys) = some A.length := by
  induction A with
  | nil =>
    rw [List.nil_append, findSubIdx]
    rw [if_pos (by simp [List.isPrefixOf])]
    rfl
  | cons a A' ih =>
    have ha : a ≠ 13 := h a (by simp)
    rw [List.cons_append, findSubIdx]
    rw [if_neg (by
      simp [List.isPrefixOf]
      intro hbad
      exact absurd hbad.symm ha)]
    rw [ih (fun b hb => h b (by simp [hb]))]
    rfl

theorem splitCRLF_noCR (l : List Char) (h : ∀ c ∈ l, c ≠ '\x0d') :
    splitCRLF l = [l] := by
  induction l with
  | nil => rfl
  | cons c rest ih =>
    rw [splitCRLF.eq_def]
    split
    · rename_i heq
      exact List.noConfusion heq
    · rename_i heq
      injection heq with h1 h2
      exact absurd h1 (h c (by simp))
    · rename_i c' rest' heq
      injection heq with h1 h2
      subst h1
      subst h2
      rw [ih (fun x hx => h x (by simp [hx]))]

theorem splitColon1_header (ds : List Char) :
    splitColon1 ("Content-Length: ".data ++ ds) =
      ["Content-Length".data, ' ' :: ds] := rfl

/-- Scanning the single header line produced by `encode_message`
recovers the declared length. -/
theorem scanHeader_content (L : Nat) :
    scanHeaderLines ["Content-Length: ".data ++ natChars L] = some (L : Int) := by
  rw [scanHeaderLines, splitColon1_header]
  simp only []
  rw [if_pos (by rfl)]
  have hns : ∀ c ∈ natChars L, pySpace c = false := fun c hc =>
    pySpace_of_digitish c ⟨by have := (natChars_digits L c hc).1; omega,
      by have := (natChars_digits L c hc).2; omega⟩
  rw [pyStrip_space_cons _ hns, pyIntStr_natChars]
  rfl

end Workbench

namespace Workbench

set_option maxRecDepth 4096 in
set_option maxHeartbeats 2000000 in
theorem utf8Decode_encodeChar (c : Char) (bs : List Nat) :
    utf8Decode (utf8EncodeChar c ++ bs) = (utf8Decode bs).map (c :: ·) := by
  have hv : c.toNat < 0xD800 ∨ (0xDFFF < c.toNat ∧ c.toNat < 0x110000) := c.valid
  rw [utf8EncodeChar]
  by_cases h1 : c.toNat < 0x80
  · rw [if_pos h1]
    rw [List.cons_append, List.nil_append]
    rw [utf8Decode.eq_def]
    simp only []
    rw [if_pos h1, Char.ofNat_toNat]
  · rw [if_neg h1]
    by_cases h2 : c.toNat < 0x800
    · rw [if_pos h2]
      rw [List.cons_append, List.cons_append, List.nil_append]
      rw [utf8Decode.eq_def]
      simp only []
      rw [if_neg (by omega), if_neg (by omega), if_pos (by omega)]
      rw [if_pos (by simp [utf8Cont]; omega)]
      rw [show (0xC0 + c.toNat / 64 - 0xC0) * 64 + (0x80 + c.toNat % 64 - 0x80)
            = c.toNat by omega]
      rw [Char.ofNat_toNat]
    · rw [if_neg h2]
      by_cases h3 : c.toNat < 0x10000
      · rw [if_pos h3]
        rw [List.cons_append, List.cons_append, List.cons_append, List.nil_append]
        rw [utf8Decode.eq_def]
        simp only []
        rw [if_neg (by omega), if_neg (by omega), if_neg (by omega), if_pos (by omega)]
        rw [if_pos (by simp [utf8Cont]; omega)]
        rw [if_neg (by omega)]
        rw [show (0xE0 + c.toNat / 4096 - 0xE0) * 4096 +
              (0x80 + c.toNat / 64 % 64 - 0x80) * 64 + (0x80 + c.toNat % 64 - 0x80)
              = c.toNat by omega]
        rw [Char.ofNat_toNat]
      · rw [if_neg h3]
        rw [List.cons_append, List.cons_append, List.cons_append, List.cons_append,
          List.nil_append]
        rw [utf8Decode.eq_def]
        simp only []
        rw [if_neg (by omega), if_neg (by omega), if_neg (by omega), if_neg (by omega),
          if_pos (by omega)]
        rw [if_pos (by simp [utf8Cont]; omega)]
        rw [if_neg (by omega)]
        rw [show (0xF0 + c.toNat / 262144 - 0xF0) * 262144 +
              (0x80 + c.toNat / 4096 % 64 - 0x80) * 4096 +
              (0x80 + c.toNat / 64 % 64 - 0x80) * 64 + (0x80 + c.toNat % 64 - 0x80)
              = c.toNat by omega]
        rw [Char.ofNat_toNat]

theorem utf8Decode_encode_append (s : List Char) (bs : List Nat) :
    utf8Decode (utf8Encode s ++ bs) = (utf8Decode bs).map (fun t => s ++ t) := by
  induction s with
  | nil =>
    rw [utf8Encode, List.flatMap_nil, List.nil_append]
    cases utf8Decode bs <;> simp
  | cons c rest ih =>
    rw [utf8Encode, List.flatMap_cons, List.append_assoc]
    rw [show rest.flatMap utf8EncodeChar = utf8Encode rest from rfl]
    rw [utf8Decode_encodeChar, ih]
    cases utf8Decode bs <;> simp

theorem utf8Decode_encode (s : List Char) :
    utf8Decode (utf8Encode s) = some s := by
  have := utf8Decode_encode_append s []
  rw [List.append_nil] at this
  rw [this]
  simp [utf8Decode]

end Workbench

namespace Workbench

/-- What can legally follow a serialized value inside `jsonDumps`
output: end of input, a separating comma, or a closing bracket. -/
def sepOk (rest : List Char) : Bool :=
  match rest with
  | [] => true
  | c :: _ => c = ',' || c = ']' || c = '\x7d'

theorem takeWhile_append_all {p : Char → Bool} (a b : List Char)
    (ha : ∀ c ∈ a, p c = true) : (a ++ b).takeWhile p = a ++ b.takeWhile p := by
  induction a with
  | nil => rfl
  | cons c rest ih =>
    rw [List.cons_append, List.takeWhile_cons_of_pos (ha c (by simp))]
    rw [ih (fun x hx => ha x (by simp [hx]))]
    rw [List.cons_append]

theorem takeWhile_sepOk (rest : List Char) (h : sepOk rest = true) :
    rest.takeWhile Char.isDigit = [] := by
  cases rest with
  | nil => rfl
  | cons c t =>
    rw [List.takeWhile_cons_of_neg]
    rw [sepOk] at h
    simp at h
    rcases h with (h | h) | h <;>
      · subst h
        decide

theorem natChars_cons (k : Nat) :
    ∃ d ds, natChars k = d :: ds := by
  rcases h : natChars k with _ | ⟨d, ds⟩
  · exact absurd h (natChars_ne_nil k)
  · exact ⟨d, ds, rfl⟩

theorem natChars_zero : natChars 0 = ['0'] := by
  rw [natChars]
  rfl

theorem sepOk_cases (rest : List Char) (h : sepOk rest = true) :
    rest = [] ∨ ∃ c t, rest = c :: t ∧ (c = ',' ∨ c = ']' ∨ c = '\x7d') := by
  cases rest with
  | nil => exact Or.inl rfl
  | cons c t =>
    rw [sepOk] at h
    simp at h
    refine Or.inr ⟨c, t, rfl, ?_⟩
    tauto

theorem parseNatNum_natChars (k : Nat) (rest : List Char) (hrest : sepOk rest = true) :
    parseNatNum (natChars k ++ rest) = some (k, rest) := by
  by_cases hk : k = 0
  · subst hk
    rw [natChars_zero]
    rw [parseNatNum.eq_def]
    simp only [List.cons_append, List.nil_append]
    rcases sepOk_cases rest hrest with rfl | ⟨c, t, rfl, hc⟩
    · simp
    · simp only [if_true]
      rw [if_neg (by rcases hc with rfl | rfl | rfl <;> decide)]
  · obtain ⟨d, ds, hds⟩ := natChars_cons k
    have hdig : ∀ c ∈ natChars k, c.isDigit = true := fun c hc =>
      isDigit_of_toNat c (natChars_digits k c hc).1 (natChars_digits k c hc).2
    have hd : d.isDigit = true := hdig d (by rw [hds]; simp)
    have hd0 : d ≠ '0' := natChars_head_pos k (by omega) d (by rw [hds]; rfl)
    rw [hds, List.cons_append, parseNatNum.eq_def]
    simp only []
    rw [if_neg hd0, if_pos hd]
    rw [show d :: (ds ++ rest) = (d :: ds) ++ rest from rfl]
    rw [← hds]
    rw [takeWhile_append_all _ _ hdig, takeWhile_sepOk rest hrest, List.append_nil]
    rw [List.drop_left]
    rw [show ('0').toNat = 48 from rfl]
    rw [natChars_val]
    rcases sepOk_cases rest hrest with rfl | ⟨c, t, rfl, hc⟩
    · rfl
    · simp only []
      rw [if_neg (by rcases hc with rfl | rfl | rfl <;> decide)]

theorem parseIntNum_intChars (n : Int) (rest : List Char) (hrest : sepOk rest = true) :
    parseIntNum (intChars n ++ rest) = some (n, rest) := by
  rw [intChars]
  by_cases hn : n < 0
  · rw [if_pos hn]
    rw [List.cons_append, parseIntNum]
    rw [parseNatNum_natChars _ _ hrest]
    have habs : (n.natAbs : Int) = -n := Int.ofNat_natAbs_of_nonpos (le_of_lt hn)
    simp [habs]
  · rw [if_neg hn]
    have hne : ∀ (x : List Char) (t : List Char), natChars n.toNat ++ rest = x → x = '-' :: t → False := by
      intro x t hx hminus
      obtain ⟨d, ds, hds⟩ := natChars_cons n.toNat
      rw [hds] at hx
      rw [← hx] at hminus
      injection hminus with h1 _
      have := (natChars_digits n.toNat d (by rw [hds]; simp)).1
      have e : ('-').toNat = 45 := rfl
      rw [h1] at this
      omega
    rw [parseIntNum.eq_def]
    split
    · rename_i t heq
      exact (hne _ t heq rfl).elim
    · rw [parseNatNum_natChars _ _ hrest]
      simp
      omega

end Workbench

namespace Workbench

theorem parseHexDigit_hexDigit (m : Nat) (hm : m < 16) :
    parseHexDigit (hexDigit m) = some m := by
  interval_cases m <;> decide

set_option maxRecDepth 8192 in
set_option maxHeartbeats 4000000 in
/-- The serialized body of a JSON string re-parses to the original
characters, leaving what follows the closing quote. Each source
character costs one unit of fuel regardless of its escape length. -/
theorem parseStringBody_escape (s : List Char) : ∀ (fuel : Nat) (rest : List Char),
    s.length < fuel →
    parseStringBody fuel (s.flatMap jsonEscapeChar ++ ('"' :: rest)) = some (s, rest) := by
  induction s with
  | nil =>
    intro fuel rest hf
    obtain ⟨f, rfl⟩ : ∃ f, fuel = f + 1 := ⟨fuel - 1, by omega⟩
    rw [List.flatMap_nil, List.nil_append, parseStringBody.eq_def]
    simp only [reduceIte]
  | cons c cs ih =>
    intro fuel rest hf
    obtain ⟨f, rfl⟩ : ∃ f, fuel = f + 1 := ⟨fuel - 1, by omega⟩
    have hcs : cs.length < f := by simp at hf; omega
    rw [List.flatMap_cons, List.append_assoc]
    rw [jsonEscapeChar]
    by_cases h1 : c = '"'
    · rw [if_pos h1, List.cons_append, List.cons_append, List.nil_append, parseStringBody.eq_def]
      simp only [reduceIte]
      rw [ih f rest hcs, h1]
      rfl
    · rw [if_neg h1]
      by_cases h2 : c = '\\'
      · rw [if_pos h2, List.cons_append, List.cons_append, List.nil_append, parseStringBody.eq_def]
        simp only [reduceIte]
        rw [ih f rest hcs, h2]
        rfl
      · rw [if_neg h2]
        by_cases h3 : c = '\n'
        · rw [if_pos h3, List.cons_append, List.cons_append, List.nil_append, parseStringBody.eq_def]
          simp only [reduceIte]
          rw [ih f rest hcs, h3]
          rfl
        · rw [if_neg h3]
          by_cases h4 : c = '\x0d'
          · rw [if_pos h4, List.cons_append, List.cons_append, List.nil_append, parseStringBody.eq_def]
            simp only [reduceIte]
            rw [ih f rest hcs, h4]
            rfl
          · rw [if_neg h4]
            by_cases h5 : c = '\t'
            · rw [if_pos h5, List.cons_append, List.cons_append, List.nil_append, parseStringBody.eq_def]
              simp only [reduceIte]
              rw [ih f rest hcs, h5]
              rfl
            · rw [if_neg h5]
              by_cases h6 : c.toNat = 8
              · rw [if_pos h6, List.cons_append, List.cons_append, List.nil_append,
                  parseStringBody.eq_def]
                simp only [reduceIte]
                rw [ih f rest hcs]
                have hc8 : c = '\x08' := by
                  have hco := Char.ofNat_toNat c
                  rw [h6] at hco
                  exact hco.symm
                rw [hc8]
                rfl
              · rw [if_neg h6]
                by_cases h7 : c.toNat = 12
                · rw [if_pos h7, List.cons_append, List.cons_append, List.nil_append,
                    parseStringBody.eq_def]
                  simp only [reduceIte]
                  rw [ih f rest hcs]
                  have hc12 : c = '\x0c' := by
                    have hco := Char.ofNat_toNat c
                    rw [h7] at hco
                    exact hco.symm
                  rw [hc12]
                  rfl
                · rw [if_neg h7]
                  by_cases h8 : c.toNat < 32
                  · rw [if_pos h8]
                    rw [List.cons_append, List.cons_append, List.cons_append,
                      List.cons_append, List.cons_append, List.cons_append,
                      List.nil_append, parseStringBody.eq_def]
                    simp only [reduceIte]
                    rw [show parseHexDigit '0' = some 0 from rfl]
                    rw [parseHexDigit_hexDigit (c.toNat / 16) (by omega)]
                    rw [parseHexDigit_hexDigit (c.toNat % 16) (by omega)]
                    simp only []
                    rw [show ((0 * 16 + 0) * 16 + c.toNat / 16) * 16 + c.toNat % 16
                          = c.toNat by omega]
                    rw [dif_pos (Or.inl (by omega : c.toNat < 0xD800))]
                    rw [ih f rest hcs]
                    have hofn : Char.ofNatAux c.toNat (Or.inl (by omega)) = c := by
                      have hco := Char.ofNat_toNat c
                      rw [Char.ofNat] at hco
                      rw [dif_pos (Or.inl (by omega : c.toNat < 0xD800))] at hco
                      exact hco
                    rw [hofn]
                    rfl
                  · rw [if_neg h8]
                    rw [List.cons_append, List.nil_append, parseStringBody.eq_def]
                    simp only [reduceIte]
                    rw [if_neg h1, if_neg h2, if_neg h8]
                    rw [ih f rest hcs]
                    rfl

end Workbench

namespace Workbench

theorem dropWhile_ws_append (sp l : List Char) (hsp : ∀ c ∈ sp, jsonWs c = true) :
    (sp ++ l).dropWhile jsonWs = l.dropWhile jsonWs := by
  induction sp with
  | nil => rfl
  | cons c rest ih =>
    rw [List.cons_append, List.dropWhile_cons_of_pos (hsp c (by simp))]
    exact ih (fun x hx => hsp x (by simp [hx]))

theorem cnt_pos (v : JValue) : 1 ≤ cnt v := by
  cases v <;> simp [cnt]

theorem escape_len (s : List Char) :
    s.length ≤ (s.flatMap jsonEscapeChar).length := by
  induction s with
  | nil => simp
  | cons c rest ih =>
    rw [List.flatMap_cons, List.length_append, List.length_cons]
    have : 1 ≤ (jsonEscapeChar c).length := by
      rw [jsonEscapeChar]
      split_ifs <;> simp
    omega

theorem jsonDumps_null : jsonDumps .null = ['n', 'u', 'l', 'l'] := by
  rw [jsonDumps]

theorem jsonDumps_true : jsonDumps (.bool true) = ['t', 'r', 'u', 'e'] := by
  rw [jsonDumps]

theorem jsonDumps_false : jsonDumps (.bool false) = ['f', 'a', 'l', 's', 'e'] := by
  rw [jsonDumps]

theorem jsonDumps_num (n : Int) : jsonDumps (.num n) = intChars n := by
  rw [jsonDumps]

theorem jsonDumps_str (s : String) : jsonDumps (.str s) = strChars s := by
  rw [jsonDumps]

theorem jsonDumps_arr (xs : List JValue) :
    jsonDumps (.arr xs) = '[' :: (dumpsElems xs ++ [']']) := by
  rw [jsonDumps]

theorem jsonDumps_obj (m : List (String × JValue)) :
    jsonDumps (.obj m) = '\x7b' :: (dumpsMembers m ++ ['\x7d']) := by
  rw [jsonDumps]

theorem dumpsElems_nil : dumpsElems [] = [] := by
  rw [dumpsElems]

theorem dumpsElems_single (x : JValue) : dumpsElems [x] = jsonDumps x := by
  rw [dumpsElems]

theorem dumpsElems_cons2 (x y : JValue) (rest : List JValue) :
    dumpsElems (x :: y :: rest) = jsonDumps x ++ (", ".data ++ dumpsElems (y :: rest)) := by
  rw [dumpsElems]

theorem dumpsMembers_nil : dumpsMembers [] = [] := by
  rw [dumpsMembers]

theorem dumpsMembers_single (k : String) (v : JValue) :
    dumpsMembers [(k, v)] = strChars k ++ (": ".data ++ jsonDumps v) := by
  rw [dumpsMembers]

theorem dumpsMembers_cons2 (k : String) (v : JValue) (p : String × JValue)
    (rest : List (String × JValue)) :
    dumpsMembers ((k, v) :: p :: rest) =
      strChars k ++ (": ".data ++ jsonDumps v) ++ (", ".data ++ dumpsMembers (p :: rest)) := by
  rw [dumpsMembers]

/-- Serialized values start with a character that is neither JSON
whitespace nor a closing bracket. -/
theorem dumps_head (v : JValue) :
    ∃ c t, jsonDumps v = c :: t ∧ jsonWs c = false ∧ c ≠ ']' ∧ c ≠ '\x7d' := by
  cases v with
  | null => exact ⟨'n', _, jsonDumps_null, by decide, by decide, by decide⟩
  | bool b =>
    cases b with
    | true => exact ⟨'t', _, jsonDumps_true, by decide, by decide, by decide⟩
    | false => exact ⟨'f', _, jsonDumps_false, by decide, by decide, by decide⟩
  | str s => exact ⟨'"', _, jsonDumps_str s, by decide, by decide, by decide⟩
  | arr xs => exact ⟨'[', _, jsonDumps_arr xs, by decide, by decide, by decide⟩
  | obj m => exact ⟨'\x7b', _, jsonDumps_obj m, by decide, by decide, by decide⟩
  | num n =>
    rw [jsonDumps_num, intChars]
    by_cases hn : n < 0
    · rw [if_pos hn]
      exact ⟨'-', _, rfl, by decide, by decide, by decide⟩
    · rw [if_neg hn]
      obtain ⟨d, ds, hds⟩ := natChars_cons n.toNat
      have hd := natChars_digits n.toNat d (by rw [hds]; simp)
      refine ⟨d, ds, hds, ?_, ?_, ?_⟩
      · simp only [jsonWs, Bool.or_eq_false_iff, decide_eq_false_iff_not]
        refine ⟨⟨⟨?_, ?_⟩, ?_⟩, ?_⟩
        · exact char_ne_of_toNat _ _ (by have e : (' ').toNat = 32 := rfl; omega)
        · exact char_ne_of_toNat _ _ (by have e : ('\t').toNat = 9 := rfl; omega)
        · exact char_ne_of_toNat _ _ (by have e : ('\n').toNat = 10 := rfl; omega)
        · exact char_ne_of_toNat _ _ (by have e : ('\r').toNat = 13 := rfl; omega)
      · exact char_ne_of_toNat _ _ (by have e : (']').toNat = 93 := rfl; omega)
      · exact char_ne_of_toNat _ _ (by have e : ('\x7d').toNat = 125 := rfl; omega)

end Workbench

namespace Workbench

/-- A serialized value re-parses to itself: whitespace prefix, the
serialized form, then any legal continuation; and likewise for element
and member lists. Proven by induction on the fuel, which every
recursive parser call decrements. -/
theorem parse_dumps_main : ∀ (f : Nat),
    (∀ (v : JValue) (sp rest : List Char),
      (∀ c ∈ sp, jsonWs c = true) → sepOk rest = true → cnt v ≤ f →
      parseValue f (sp ++ (jsonDumps v ++ rest)) = some (v, rest)) ∧
    (∀ (xs : List JValue) (sp rest : List Char),
      xs ≠ [] → (∀ c ∈ sp, jsonWs c = true) → cntList xs ≤ f →
      parseElems f (sp ++ (dumpsElems xs ++ (']' :: rest))) = some (xs, rest)) ∧
    (∀ (m : List (String × JValue)) (sp rest : List Char),
      m ≠ [] → (∀ c ∈ sp, jsonWs c = true) → cntPairs m ≤ f →
      parseMembers f (sp ++ (dumpsMembers m ++ ('\x7d' :: rest))) = some (m, rest)) := by
  intro f
  induction f with
  | zero =>
    refine ⟨?_, ?_, ?_⟩
    · intro v sp rest _ _ hf
      have := cnt_pos v
      omega
    · intro xs sp rest hxs _ hf
      obtain ⟨x, xs', rfl⟩ : ∃ y ys, xs = y :: ys := by
        cases xs with
        | nil => exact absurd rfl hxs
        | cons y ys => exact ⟨y, ys, rfl⟩
      rw [cntList] at hf
      have := cnt_pos x
      omega
    · intro m sp rest hm _ hf
      obtain ⟨⟨k, v⟩, m', rfl⟩ : ∃ p ps, m = p :: ps := by
        cases m with
        | nil => exact absurd rfl hm
        | cons p ps => exact ⟨p, ps, rfl⟩
      rw [cntPairs] at hf
      have := cnt_pos v
      omega
  | succ f ih =>
    obtain ⟨ihv, ihe, ihm⟩ := ih
    refine ⟨?_, ?_, ?_⟩
    · intro v sp rest hsp hrest hf
      rw [parseValue.eq_def]
      simp only []
      rw [dropWhile_ws_append sp _ hsp]
      cases v with
      | null =>
        rw [jsonDumps_null, List.cons_append]
        rw [List.dropWhile_cons_of_neg (by decide)]
        simp only []
        rw [if_pos (by decide)]
        rw [show leadsWith "ull".data (['u', 'l', 'l'] ++ rest) = true from rfl]
        simp only [reduceIte]
        rw [show (['u', 'l', 'l'] ++ rest).drop 3 = rest from rfl]
      | bool b =>
        cases b with
        | true =>
          rw [jsonDumps_true, List.cons_append]
          rw [List.dropWhile_cons_of_neg (by decide)]
          simp only []
          rw [if_neg (by decide), if_pos (by decide)]
          rw [show leadsWith "rue".data (['r', 'u', 'e'] ++ rest) = true from rfl]
          simp only [reduceIte]
          rw [show (['r', 'u', 'e'] ++ rest).drop 3 = rest from rfl]
        | false =>
          rw [jsonDumps_false, List.cons_append]
          rw [List.dropWhile_cons_of_neg (by decide)]
          simp only []
          rw [if_neg (by decide), if_neg (by decide), if_pos (by decide)]
          rw [show leadsWith "alse".data (['a', 'l', 's', 'e'] ++ rest) = true from rfl]
          simp only [reduceIte]
          rw [show (['a', 'l', 's', 'e'] ++ rest).drop 4 = rest from rfl]
      | num n =>
        rw [jsonDumps_num, intChars]
        by_cases hn : n < 0
        · rw [if_pos hn, List.cons_append]
          rw [List.dropWhile_cons_of_neg (by decide)]
          simp only []
          rw [if_neg (by decide), if_neg (by decide), if_neg (by decide),
            if_neg (by decide), if_neg (by decide), if_neg (by decide), if_pos (by decide)]
          rw [show ('-' :: (natChars n.natAbs ++ rest) : List Char)
                = ('-' :: natChars n.natAbs) ++ rest from rfl]
          rw [show ('-' :: natChars n.natAbs : List Char) = intChars n from by
            rw [intChars, if_pos hn]]
          rw [parseIntNum_intChars n rest hrest]
          rfl
        · rw [if_neg hn]
          obtain ⟨d, ds, hds⟩ := natChars_cons n.toNat
          have hdn := natChars_digits n.toNat d (by rw [hds]; simp)
          have hws : jsonWs d = false := by
            simp only [jsonWs, Bool.or_eq_false_iff, decide_eq_false_iff_not]
            refine ⟨⟨⟨?_, ?_⟩, ?_⟩, ?_⟩
            · exact char_ne_of_toNat _ _ (by have e : (' ').toNat = 32 := rfl; omega)
            · exact char_ne_of_toNat _ _ (by have e : ('\t').toNat = 9 := rfl; omega)
            · exact char_ne_of_toNat _ _ (by have e : ('\n').toNat = 10 := rfl; omega)
            · exact char_ne_of_toNat _ _ (by have e : ('\r').toNat = 13 := rfl; omega)
          rw [hds, List.cons_append]
          rw [List.dropWhile_cons_of_neg (by simp [hws])]
          simp only []
          rw [if_neg (char_ne_of_toNat d 'n' (by have e : ('n').toNat = 110 := rfl; omega))]
          rw [if_neg (char_ne_of_toNat d 't' (by have e : ('t').toNat = 116 := rfl; omega))]
          rw [if_neg (char_ne_of_toNat d 'f' (by have e : ('f').toNat = 102 := rfl; omega))]
          rw [if_neg (char_ne_of_toNat d '"' (by have e : ('"').toNat = 34 := rfl; omega))]
          rw [if_neg (char_ne_of_toNat d '[' (by have e : ('[').toNat = 91 := rfl; omega))]
          rw [if_neg (char_ne_of_toNat d '\x7b'
            (by have e : ('\x7b').toNat = 123 := rfl; omega))]
          rw [if_pos (by
            rw [Bool.or_eq_true]
            right
            exact isDigit_of_toNat d hdn.1 hdn.2)]
          rw [show d :: (ds ++ rest) = (d :: ds) ++ rest from rfl, ← hds]
          rw [show natChars n.toNat = intChars n from by rw [intChars, if_neg hn]]
          rw [parseIntNum_intChars n rest hrest]
          rfl
      | str s =>
        rw [jsonDumps_str, strChars, List.cons_append]
        rw [List.dropWhile_cons_of_neg (by decide)]
        simp only []
        rw [if_neg (by decide), if_neg (by decide), if_neg (by decide), if_pos (by decide)]
        rw [show (s.data.flatMap jsonEscapeChar ++ ['"']) ++ rest
              = s.data.flatMap jsonEscapeChar ++ ('"' :: rest) from by
          rw [List.append_assoc]; rfl]
        rw [parseStringBody_escape s.data _ rest (by
          have h1 := escape_len s.data
          simp only [List.length_append, List.length_cons]
          omega)]
        rfl
      | arr xs =>
        rw [jsonDumps_arr, List.cons_append]
        rw [List.dropWhile_cons_of_neg (by decide)]
        simp only []
        rw [if_neg (by decide), if_neg (by decide), if_neg (by decide),
          if_neg (by decide), if_pos (by decide)]
        rw [show (dumpsElems xs ++ [']']) ++ rest = dumpsElems xs ++ (']' :: rest) from by
          rw [List.append_assoc]; rfl]
        cases xs with
        | nil =>
          rw [dumpsElems_nil, List.nil_append]
          rw [List.dropWhile_cons_of_neg (by decide)]
          rfl
        | cons x xs' =>
          obtain ⟨c, t, hct, hcw, hcb, _⟩ := dumps_head x
          obtain ⟨T, hT⟩ : ∃ T, dumpsElems (x :: xs') = c :: T := by
            cases xs' with
            | nil =>
              rw [dumpsElems_single, hct]
              exact ⟨t, rfl⟩
            | cons y zs =>
              rw [dumpsElems_cons2, hct, List.cons_append]
              exact ⟨_, rfl⟩
          rw [hT, List.cons_append]
          rw [List.dropWhile_cons_of_neg (by simp [hcw])]
          split
          · rename_i r2 heq
            injection heq with hc1 _
            exact absurd hc1 hcb
          · have := ihe (x :: xs') [] rest (by simp)
              (by intro c hc; simp at hc)
              (by rw [cnt] at hf; omega)
            rw [List.nil_append] at this
            rw [← List.cons_append, ← hT, this]
            rfl
      | obj m =>
        rw [jsonDumps_obj, List.cons_append]
        rw [List.dropWhile_cons_of_neg (by decide)]
        simp only []
        rw [if_neg (by decide), if_neg (by decide), if_neg (by decide),
          if_neg (by decide), if_neg (by decide), if_pos (by decide)]
        rw [show (dumpsMembers m ++ ['\x7d']) ++ rest
              = dumpsMembers m ++ ('\x7d' :: rest) from by
          rw [List.append_assoc]; rfl]
        cases m with
        | nil =>
          rw [dumpsMembers_nil, List.nil_append]
          rw [List.dropWhile_cons_of_neg (by decide)]
          rfl
        | cons p m' =>
          obtain ⟨k, v⟩ := p
          obtain ⟨T, hT⟩ : ∃ T, dumpsMembers ((k, v) :: m') = '"' :: T := by
            cases m' with
            | nil =>
              rw [dumpsMembers_single, strChars, List.cons_append]
              exact ⟨_, rfl⟩
            | cons q m2 =>
              rw [dumpsMembers_cons2, strChars, List.cons_append, List.cons_append]
              exact ⟨_, rfl⟩
          rw [hT, List.cons_append]
          rw [List.dropWhile_cons_of_neg (by decide)]
          split
          · rename_i r2 heq
            injection heq with hc1 _
            exact absurd hc1 (by decide)
          · have := ihm ((k, v) :: m') [] rest (by simp)
              (by intro c hc; simp at hc)
              (by rw [cnt] at hf; omega)
            rw [List.nil_append] at this
            rw [← List.cons_append, ← hT, this]
            rfl
    · intro xs sp rest hxs hsp hf
      obtain ⟨x, xs', rfl⟩ : ∃ y ys, xs = y :: ys := by
        cases xs with
        | nil => exact absurd rfl hxs
        | cons y ys => exact ⟨y, ys, rfl⟩
      have hx : cnt x ≤ f ∧ cntList xs' ≤ f := by
        rw [cntList] at hf
        have := cnt_pos x
        omega
      rw [parseElems.eq_def]
      simp only []
      cases xs' with
      | nil =>
        rw [dumpsElems_single]
        have hv := ihv x sp (']' :: rest) hsp (by rfl) (by omega)
        rw [hv]
        simp only [Option.bind_eq_bind, Option.some_bind]
        rw [List.dropWhile_cons_of_neg (by decide)]
        simp only [reduceIte]
      | cons y zs =>
        rw [dumpsElems_cons2]
        simp only [List.append_assoc, List.cons_append, List.singleton_append,
          List.nil_append]
        have hv := ihv x sp
          (',' :: (' ' :: (dumpsElems (y :: zs) ++ (']' :: rest)))) hsp (by rfl) (by omega)
        rw [hv]
        simp only [Option.bind_eq_bind, Option.some_bind]
        rw [List.dropWhile_cons_of_neg (by decide)]
        simp only [reduceIte]
        have hrec := ihe (y :: zs) [' '] rest (by simp)
          (by intro c hc; simp at hc; rw [hc]; rfl) (by
            rw [cntList] at hf
            omega)
        rw [show ([' '] ++ (dumpsElems (y :: zs) ++ (']' :: rest)))
              = ' ' :: (dumpsElems (y :: zs) ++ (']' :: rest)) from rfl] at hrec
        rw [hrec]
        rfl
    · intro m sp rest hm hsp hf
      obtain ⟨⟨k, v⟩, m', rfl⟩ : ∃ p ps, m = p :: ps := by
        cases m with
        | nil => exact absurd rfl hm
        | cons p ps => exact ⟨p, ps, rfl⟩
      have hx : cnt v ≤ f ∧ cntPairs m' ≤ f := by
        rw [cntPairs] at hf
        have := cnt_pos v
        omega
      rw [parseMembers.eq_def]
      simp only []
      cases m' with
      | nil =>
        rw [dumpsMembers_single, strChars]
        rw [List.append_assoc, List.append_assoc]
        rw [dropWhile_ws_append sp _ hsp]
        rw [List.cons_append]
        rw [List.dropWhile_cons_of_neg (by decide)]
        simp only []
        rw [show (k.data.flatMap jsonEscapeChar ++ ['"'])
                ++ (": ".data ++ (jsonDumps v ++ ('\x7d' :: rest)))
              = k.data.flatMap jsonEscapeChar
                ++ ('"' :: (':' :: (' ' :: (jsonDumps v ++ ('\x7d' :: rest))))) from by
          rw [List.append_assoc]
          rfl]
        rw [parseStringBody_escape k.data _ _ (by
          have h1 := escape_len k.data
          simp only [List.length_append, List.length_cons]
          omega)]
        simp only [Option.bind_eq_bind, Option.some_bind]
        rw [List.dropWhile_cons_of_neg (by decide)]
        simp only [reduceIte]
        have hv := ihv v [' '] ('\x7d' :: rest)
          (by intro c hc; simp at hc; rw [hc]; rfl) (by rfl) (by omega)
        rw [show ([' '] ++ (jsonDumps v ++ ('\x7d' :: rest)))
              = ' ' :: (jsonDumps v ++ ('\x7d' :: rest)) from rfl] at hv
        rw [hv]
        simp only [Option.bind_eq_bind, Option.some_bind]
        rw [List.dropWhile_cons_of_neg (by decide)]
        simp only [reduceIte]
      | cons q m2 =>
        rw [dumpsMembers_cons2, strChars]
        simp only [List.append_assoc, List.cons_append, List.singleton_append,
          List.nil_append]
        rw [dropWhile_ws_append sp _ hsp]
        rw [List.dropWhile_cons_of_neg (by decide)]
        simp only []
        rw [parseStringBody_escape k.data _ _ (by
          have h1 := escape_len k.data
          simp only [List.length_append, List.length_cons]
          omega)]
        simp only [Option.bind_eq_bind, Option.some_bind]
        rw [List.dropWhile_cons_of_neg (by decide)]
        simp only [reduceIte]
        have hv := ihv v [' ']
          (',' :: (' ' :: (dumpsMembers (q :: m2) ++ ('\x7d' :: rest))))
          (by intro c hc; simp at hc; rw [hc]; rfl) (by rfl) (by omega)
        rw [show ([' '] ++ (jsonDumps v
              ++ (',' :: (' ' :: (dumpsMembers (q :: m2) ++ ('\x7d' :: rest))))))
              = ' ' :: (jsonDumps v
                ++ (',' :: (' ' :: (dumpsMembers (q :: m2) ++ ('\x7d' :: rest))))) from rfl] at hv
        rw [hv]
        simp only [Option.bind_eq_bind, Option.some_bind]
        rw [List.dropWhile_cons_of_neg (by decide)]
        simp only [reduceIte]
        have hrec := ihm (q :: m2) [' '] rest (by simp)
          (by intro c hc; simp at hc; rw [hc]; rfl) (by
            rw [cntPairs] at hf
            omega)
        rw [show ([' '] ++ (dumpsMembers (q :: m2) ++ ('\x7d' :: rest)))
              = ' ' :: (dumpsMembers (q :: m2) ++ ('\x7d' :: rest)) from rfl] at hrec
        rw [hrec]
        rfl

theorem parse_dumps_val (v : JValue) (f : Nat) (sp rest : List Char)
    (hsp : ∀ c ∈ sp, jsonWs c = true) (hrest : sepOk rest = true) (hf : cnt v ≤ f) :
    parseValue f (sp ++ (jsonDumps v ++ rest)) = some (v, rest) := by
  obtain ⟨f2, rfl⟩ : ∃ f2, f = f2 + 1 := ⟨f - 1, by have := cnt_pos v; omega⟩
  exact (parse_dumps_main (f2 + 1)).1 v sp rest hsp hrest hf


end Workbench

namespace Workbench

theorem dictInsert_new (m : List (String × JValue)) (k : String) (v : JValue)
    (h : m.any (fun kv => kv.1 == k) = false) :
    dictInsert m k v = m ++ [(k, v)] := by
  rw [dictInsert, if_neg (by simp [h])]

theorem dedup_aux (m : List (String × JValue)) :
    ∀ acc, (m.map Prod.fst).Nodup →
      (∀ kk ∈ m.map Prod.fst, acc.any (fun kv => kv.1 == kk) = false) →
      m.foldl (fun d kv => dictInsert d kv.1 kv.2) acc = acc ++ m := by
  induction m with
  | nil => intro acc _ _; simp
  | cons p rest ih =>
    intro acc hnd hdisj
    obtain ⟨k, v⟩ := p
    have hnd' : (k :: rest.map Prod.fst).Nodup := by simpa using hnd
    obtain ⟨hk_notin, hnd_rest⟩ := List.nodup_cons.mp hnd'
    rw [List.foldl_cons]
    rw [dictInsert_new acc k v (hdisj k (by simp))]
    rw [ih (acc ++ [(k, v)]) hnd_rest ?_]
    · rw [List.append_assoc]
      rfl
    · intro kk hkk
      rw [List.any_append]
      simp only [Bool.or_eq_false_iff]
      constructor
      · exact hdisj kk (by simp only [List.map_cons]; exact List.mem_cons_of_mem _ hkk)
      · simp only [List.any_cons, List.any_nil, Bool.or_false]
        simp only [beq_eq_false_iff_ne]
        intro hbad
        exact hk_notin ((hbad.symm : kk = k) ▸ hkk)

theorem dedupMembers_nodup (m : List (String × JValue))
    (h : (m.map Prod.fst).Nodup) : dedupMembers m = m := by
  rw [dedupMembers, dedup_aux m [] h (by intro kk _; rfl)]
  rfl

/-- On well-formed values (distinct dict keys at every level) the
last-wins collapse is the identity. -/
theorem jsonDictify_id_all : ∀ (n : Nat),
    (∀ v : JValue, sizeOf v ≤ n → jwf v = true → jsonDictify v = v) ∧
    (∀ xs : List JValue, sizeOf xs ≤ n → jwfList xs = true → jsonDictifyList xs = xs) ∧
    (∀ m : List (String × JValue), sizeOf m ≤ n → jwfPairs m = true →
      jsonDictifyPairs m = m) := by
  intro n
  induction n with
  | zero =>
    refine ⟨?_, ?_, ?_⟩
    · intro v hv _
      cases v <;> simp at hv
    · intro xs hxs _
      cases xs <;> simp at hxs
    · intro m hm _
      cases m <;> simp at hm
  | succ n ih =>
    obtain ⟨ihv, ihl, ihp⟩ := ih
    refine ⟨?_, ?_, ?_⟩
    · intro v hv hwf
      cases v with
      | null => rw [jsonDictify]
      | bool b => rw [jsonDictify]
      | num k => rw [jsonDictify]
      | str s => rw [jsonDictify]
      | arr xs =>
        rw [jsonDictify]
        rw [jwf] at hwf
        rw [ihl xs (by simp at hv; omega) hwf]
      | obj m =>
        rw [jsonDictify]
        rw [jwf] at hwf
        simp only [Bool.and_eq_true] at hwf
        rw [ihp m (by simp at hv; omega) hwf.2]
        rw [dedupMembers_nodup m (by simpa using hwf.1)]
    · intro xs hxs hwf
      cases xs with
      | nil => rw [jsonDictifyList]
      | cons x t =>
        rw [jsonDictifyList]
        rw [jwfList] at hwf
        simp only [Bool.and_eq_true] at hwf
        rw [ihv x (by simp at hxs; omega) hwf.1]
        rw [ihl t (by simp at hxs; omega) hwf.2]
    · intro m hm hwf
      cases m with
      | nil => rw [jsonDictifyPairs]
      | cons p t =>
        obtain ⟨k, v⟩ := p
        rw [jsonDictifyPairs]
        rw [jwfPairs] at hwf
        simp only [Bool.and_eq_true] at hwf
        rw [ihv v (by simp at hm; omega) hwf.1]
        rw [ihp t (by simp at hm; omega) hwf.2]

theorem jsonDictify_id (v : JValue) (h : jwf v = true) : jsonDictify v = v :=
  (jsonDictify_id_all (sizeOf v)).1 v (le_refl _) h

/-- The fuel `jsonLoads` passes covers the cost of re-parsing a dump. -/
theorem cnt_le_all : ∀ (n : Nat),
    (∀ v : JValue, sizeOf v ≤ n → cnt v ≤ 2 * (jsonDumps v).length) ∧
    (∀ xs : List JValue, sizeOf xs ≤ n → xs ≠ [] →
      cntList xs ≤ 2 * (dumpsElems xs).length + 2) ∧
    (∀ m : List (String × JValue), sizeOf m ≤ n → m ≠ [] →
      cntPairs m ≤ 2 * (dumpsMembers m).length + 2) := by
  intro n
  induction n with
  | zero =>
    refine ⟨?_, ?_, ?_⟩
    · intro v hv; cases v <;> simp at hv
    · intro xs hxs _; cases xs <;> simp at hxs
    · intro m hm _; cases m <;> simp at hm
  | succ n ih =>
    obtain ⟨ihv, ihl, ihp⟩ := ih
    refine ⟨?_, ?_, ?_⟩
    · intro v hv
      cases v with
      | null => rw [jsonDumps_null, cnt]; simp
      | bool b => cases b <;> (first | rw [jsonDumps_true] | rw [jsonDumps_false]) <;>
          rw [cnt] <;> simp
      | num k =>
        rw [jsonDumps_num, cnt, intChars]
        split_ifs with hk
        · simp
          omega
        · obtain ⟨d, ds, hds⟩ := natChars_cons k.toNat
          rw [hds]
          simp
          omega
      | str s =>
        rw [jsonDumps_str, cnt, strChars]
        simp
        omega
      | arr xs =>
        rw [jsonDumps_arr, cnt]
        cases xs with
        | nil =>
          rw [dumpsElems_nil, cntList]
          simp
        | cons x t =>
          have := ihl (x :: t) (by simp at hv ⊢; omega) (by simp)
          simp only [List.length_cons, List.length_append, List.length_cons]
          simp at this ⊢
          omega
      | obj m =>
        rw [jsonDumps_obj, cnt]
        cases m with
        | nil =>
          rw [dumpsMembers_nil, cntPairs]
          simp
        | cons p t =>
          have := ihp (p :: t) (by simp at hv ⊢; omega) (by simp)
          simp at this ⊢
          omega
    · intro xs hxs hne
      cases xs with
      | nil => exact absurd rfl hne
      | cons x t =>
        cases t with
        | nil =>
          rw [dumpsElems_single, cntList, cntList]
          have := ihv x (by simp at hxs ⊢; omega)
          omega
        | cons y zs =>
          rw [dumpsElems_cons2, cntList]
          have h1 := ihv x (by simp at hxs ⊢; omega)
          have h2 := ihl (y :: zs) (by simp at hxs ⊢; omega) (by simp)
          simp only [List.length_append]
          simp at h1 h2 ⊢
          omega
    · intro m hm hne
      cases m with
      | nil => exact absurd rfl hne
      | cons p t =>
        obtain ⟨k, v⟩ := p
        cases t with
        | nil =>
          rw [dumpsMembers_single, cntPairs, cntPairs, strChars]
          have := ihv v (by simp at hm ⊢; omega)
          simp only [List.length_append, List.length_cons]
          simp at this ⊢
          omega
        | cons q m2 =>
          rw [dumpsMembers_cons2, cntPairs, strChars]
          have h1 := ihv v (by simp at hm ⊢; omega)
          have h2 := ihp (q :: m2) (by simp at hm ⊢; omega) (by simp)
          simp only [List.length_append, List.length_cons]
          simp at h1 h2 ⊢
          omega

/-- `json.loads(json.dumps(v))` returns `v` for every well-formed
value. -/
theorem jsonLoads_dumps (v : JValue) (h : jwf v = true) :
    jsonLoads ⟨jsonDumps v⟩ = some v := by
  rw [jsonLoads]
  rw [show (String.mk (jsonDumps v)).data = jsonDumps v from rfl]
  have hcnt : cnt v ≤ 2 * (jsonDumps v).length + 2 := by
    have := (cnt_le_all (sizeOf v)).1 v (le_refl _)
    omega
  have hp := parse_dumps_val v (2 * (jsonDumps v).length + 2) [] [] (by simp)
    (by rfl) hcnt
  rw [List.nil_append, List.append_nil] at hp
  rw [hp]
  simp only [List.dropWhile_nil, List.isEmpty_nil, if_true]
  rw [jsonDictify_id v h]

end Workbench

namespace Workbench

theorem utf8Encode_append (a b : List Char) :
    utf8Encode (a ++ b) = utf8Encode a ++ utf8Encode b := by
  rw [utf8Encode, utf8Encode, utf8Encode, List.flatMap_append]

/-- The header bytes of `encode_message`, before the separator. -/
def headerBytes (L : Nat) : List Nat :=
  ("Content-Length: ".data ++ natChars L).map Char.toNat

theorem headerChars_ascii (L : Nat) :
    ∀ c ∈ "Content-Length: ".data ++ natChars L, c.toNat < 128 := by
  intro c hc
  rcases List.mem_append.mp hc with h | h
  · fin_cases h <;> decide
  · have := (natChars_digits L c h).2
    omega

theorem headerBytes_no13 (L : Nat) : ∀ b ∈ headerBytes L, b ≠ 13 := by
  intro b hb
  obtain ⟨c, hc, rfl⟩ := List.mem_map.mp hb
  rcases List.mem_append.mp hc with h | h
  · fin_cases h <;> decide
  · have := (natChars_digits L c h).1
    omega

theorem headerChars_noCR (L : Nat) :
    ∀ c ∈ "Content-Length: ".data ++ natChars L, c ≠ '\x0d' := by
  intro c hc
  rcases List.mem_append.mp hc with h | h
  · fin_cases h <;> decide
  · have := (natChars_digits L c h).1
    exact char_ne_of_toNat _ _ (by have e : ('\x0d').toNat = 13 := rfl; omega)

theorem encode_message_shape (obj : JValue) :
    encode_message obj =
      headerBytes (utf8Encode (jsonDumps obj)).length ++
        (13 :: 10 :: 13 :: 10 :: utf8Encode (jsonDumps obj)) := by
  rw [encode_message, utf8Encode_append, utf8Encode_append]
  rw [headerBytes, List.map_append]
  rw [← utf8Encode_ascii "Content-Length: ".data (by intro c hc; fin_cases hc <;> decide)]
  rw [← utf8Encode_ascii (natChars (utf8Encode (jsonDumps obj)).length)
    (by intro c hc; have := (natChars_digits _ c hc).2; omega)]
  rw [show utf8Encode ['\x0d', '\x0a', '\x0d', '\x0a'] = [13, 10, 13, 10] from rfl]
  rw [List.append_assoc]
  rfl

/-- C9. Feeding `encode_message(V)` to `_try_parse_one` yields exactly
`V` with an empty remaining buffer, and the `Content-Length` header
scanned from the frame declares exactly the byte length of the UTF-8
encoded JSON body (the whole frame is the header, the separator, and
that many body bytes). `jwf` states that `V` is the image of a Python
dict: keys are distinct at every level. -/
theorem encode_message_roundtrip (m : List (String × JValue))
    (h : jwf (.obj m) = true) :
    try_parse_one (encode_message (.obj m)) = .ok (some (.obj m), []) ∧
    ∃ he, findSubIdx [13, 10, 13, 10] (encode_message (.obj m)) = some he ∧
      scanHeaderLines (splitCRLF (utf8DecodeReplace ((encode_message (.obj m)).take he)))
        = some (((utf8Encode (jsonDumps (.obj m))).length : Int)) ∧
      (encode_message (.obj m)).length
        = he + 4 + (utf8Encode (jsonDumps (.obj m))).length := by
  have hshape := encode_message_shape (.obj m)
  set L := (utf8Encode (jsonDumps (.obj m))).length with hL
  have hfind : findSubIdx [13, 10, 13, 10] (encode_message (.obj m))
      = some (headerBytes L).length := by
    rw [hshape]
    exact findSubIdx_sep _ _ (headerBytes_no13 L)
  have htake : (encode_message (.obj m)).take (headerBytes L).length = headerBytes L := by
    rw [hshape]
    exact List.take_left _ _
  have hdecode : utf8DecodeReplace (headerBytes L)
      = "Content-Length: ".data ++ natChars L := by
    rw [headerBytes]
    rw [utf8DecodeReplace_ascii _ (by
      intro b hb
      obtain ⟨c, hc, rfl⟩ := List.mem_map.mp hb
      exact headerChars_ascii L c hc)]
    rw [List.map_map]
    have hid : (Char.ofNat ∘ Char.toNat) = id := funext (fun c => Char.ofNat_toNat c)
    rw [hid, List.map_id]
  have hscan : scanHeaderLines (splitCRLF (utf8DecodeReplace (headerBytes L)))
      = some (L : Int) := by
    rw [hdecode, splitCRLF_noCR _ (headerChars_noCR L), scanHeader_content]
  have hlen : (encode_message (.obj m)).length = (headerBytes L).length + 4 + L := by
    rw [hshape]
    simp [headerBytes]
    omega
  refine ⟨?_, (headerBytes L).length, hfind, by rw [htake]; exact hscan, hlen⟩
  rw [try_parse_one]
  rw [hfind]
  simp only []
  rw [htake, hscan]
  simp only []
  rw [if_neg (by
    rw [hlen]
    push_cast
    omega)]
  have hs : pySliceIdx (encode_message (.obj m)).length
      (((headerBytes L).length : Int) + 4) = (headerBytes L).length + 4 := by
    rw [pySliceIdx, if_neg (by omega), hlen]
    have : (((headerBytes L).length : Int) + 4).toNat = (headerBytes L).length + 4 := by
      omega
    rw [this]
    omega
  have he : pySliceIdx (encode_message (.obj m)).length
      ((((headerBytes L).length : Int) + 4) + (L : Int))
      = (encode_message (.obj m)).length := by
    rw [pySliceIdx, if_neg (by omega), hlen]
    have : ((((headerBytes L).length : Int) + 4) + (L : Int)).toNat
        = (headerBytes L).length + 4 + L := by
      omega
    rw [this]
    omega
  rw [hs, he]
  rw [List.take_length]
  rw [show (headerBytes L).length + 4
        = (headerBytes L ++ [13, 10, 13, 10]).length from by simp]
  rw [show encode_message (.obj m)
        = (headerBytes L ++ [13, 10, 13, 10]) ++ utf8Encode (jsonDumps (.obj m)) from by
    rw [hshape, List.append_assoc]
    rfl]
  rw [List.drop_left, List.drop_length]
  rw [utf8Decode_encode]
  simp only []
  rw [jsonLoads_dumps _ h]

end Workbench

namespace Workbench

/-- A concrete JSON-RPC request object. -/
def rpcCall : List (String × JValue) :=
  [("jsonrpc", .str "2.0"), ("id", .num 1), ("method", .str "tools/call"),
   ("params", .obj [("name", .str "workbench.registry.scan"), ("arguments", .obj [])])]

/-- C9 witness: a `tools/call` request frames and reparses exactly. -/
theorem encode_message_roundtrip_witness :
    try_parse_one (encode_message (.obj rpcCall)) = .ok (some (.obj rpcCall), []) ∧
    ∃ he, findSubIdx [13, 10, 13, 10] (encode_message (.obj rpcCall)) = some he ∧
      scanHeaderLines
          (splitCRLF (utf8DecodeReplace ((encode_message (.obj rpcCall)).take he)))
        = some (((utf8Encode (jsonDumps (.obj rpcCall))).length : Int)) ∧
      (encode_message (.obj rpcCall)).length
        = he + 4 + (utf8Encode (jsonDumps (.obj rpcCall))).length :=
  encode_message_roundtrip rpcCall (by decide)

end Workbench
